import Mathlib

set_option maxRecDepth 4000

/-!
Verification development for the xgrammar core: a shallow embedding of the
compact-FSM transition lookup, the UTF-8 codec, the EBNF grammar AST and
builder, the EBNF recursive-descent parser, the grammar normalizer passes,
the JSON grammar serializer, and the doubly-linked labeled graph, together
with theorems checking the specified properties of each.
-/

namespace Xg

/-! ## Compact FSM edges and transition lookup (src/cpp/fsm.h) -/

/-- Embedding of struct FSMEdge: min and max are 16-bit signed values (byte
range when both nonnegative, epsilon when both -1, rule reference when
min = -1 and max is the rule id); target is the target state id. -/
structure FSMEdge where
  min : Int
  max : Int
  target : Int
deriving DecidableEq, Repr

/-- Sentinel returned by CompactFSMWithStartEnd::Transition when no edge
matches. -/
def NO_TRANSITION : Int := -1

/-- Default edge used for out-of-range list reads (the C++ code never reads
out of range on the paths we model, so the default value is irrelevant). -/
def dummyEdge : FSMEdge := ⟨0, 0, 0⟩

/-- Read the edge at index i of a row. -/
def edgeAt (edges : List FSMEdge) (i : Nat) : FSMEdge :=
  edges.getD i dummyEdge

/-- Embedding of the short-row branch of Transition: linear scan over the
row. Mirrors the loop: if edge.min > character return NO_TRANSITION, else
if edge.max >= character return edge.target, else continue. -/
def transitionLinear (character : Int) : List FSMEdge → Int
  | [] => NO_TRANSITION
  | e :: rest =>
    if e.min > character then NO_TRANSITION
    else if e.max ≥ character then e.target
    else transitionLinear character rest

/-- Embedding of std::lower_bound with the comparator
(edge, character) ↦ (edge.min <= character), as invoked from the long-row
branch of Transition. The C++ loop keeps a half-open window (first, len)
and halves len each iteration; len strictly decreases, so running the loop
with initial fuel = initial len reproduces it exactly. -/
def lowerBoundLoop (edges : List FSMEdge) (character : Int) :
    Nat → Nat → Nat → Nat
  | 0, first, _ => first
  | fuel + 1, first, len =>
    if len = 0 then first
    else
      let half := len / 2
      if (edgeAt edges (first + half)).min ≤ character then
        lowerBoundLoop edges character fuel (first + half + 1) (len - half - 1)
      else
        lowerBoundLoop edges character fuel first half

/-- Embedding of CompactFSMWithStartEnd::Transition (fsm.h). Short rows
(at most 16 edges) use the linear scan; longer rows call lower_bound for
the first edge with min > character and then return it->target when
it != end and it->min <= character, NO_TRANSITION otherwise. -/
def Transition (edges : List FSMEdge) (character : Int) : Int :=
  if edges.length ≤ 16 then transitionLinear character edges
  else
    let i := lowerBoundLoop edges character edges.length 0 edges.length
    if i < edges.length ∧ (edgeAt edges i).min ≤ character then
      (edgeAt edges i).target
    else NO_TRANSITION

/-- A 17-edge row, sorted by (min, max, target) with pairwise-disjoint byte
ranges: edge i covers exactly byte i and targets state i. -/
def longRow17 : List FSMEdge :=
  (List.range 17).map (fun i => ⟨(i : Int), (i : Int), (i : Int)⟩)

/-! ## UTF-8 codec (src/cpp/support/encoding.cc) -/

/-- Error sentinel CharHandlingError::kInvalidUTF8. Modelled from the spec:
encoding.h is not in the sources; the spec says negative sentinels report
UTF-8 errors, and the exact value is irrelevant to the claims. -/
def kInvalidUTF8 : Int := -1

/-- Embedding of PrintAsUTF8 for codepoints 0..0x10FFFF (the function
asserts codepoint <= 0x10FFFF; the claims only quantify over nonnegative
codepoints, so the domain is Nat). Returns the encoded byte values. -/
def PrintAsUTF8 (codepoint : Nat) : List Nat :=
  if codepoint ≤ 0x7F then
    [codepoint]
  else if codepoint ≤ 0x7FF then
    [0xC0 ||| ((codepoint >>> 6) &&& 0x1F), 0x80 ||| (codepoint &&& 0x3F)]
  else if codepoint ≤ 0xFFFF then
    [0xE0 ||| ((codepoint >>> 12) &&& 0x0F), 0x80 ||| ((codepoint >>> 6) &&& 0x3F),
     0x80 ||| (codepoint &&& 0x3F)]
  else
    [0xF0 ||| ((codepoint >>> 18) &&& 0x07), 0x80 ||| ((codepoint >>> 12) &&& 0x3F),
     0x80 ||| ((codepoint >>> 6) &&& 0x3F), 0x80 ||| (codepoint &&& 0x3F)]

/-- Embedding of HandleUTF8FirstByte. The kUtf8Bytes table maps 0x00-0x7F
to 1, 0x80-0xBF to -1, 0xC0-0xDF to 2, 0xE0-0xEF to 3, 0xF0-0xF7 to 4 and
0xF8-0xFF to -1; kFirstByteMask gives the payload mask per length. Returns
(accepted, num_bytes, masked first byte). -/
def HandleUTF8FirstByte (byte : Nat) : Bool × Nat × Nat :=
  if byte ≤ 0x7F then (true, 1, byte &&& 0x7F)
  else if byte ≤ 0xBF then (false, 0, 0)
  else if byte ≤ 0xDF then (true, 2, byte &&& 0x1F)
  else if byte ≤ 0xEF then (true, 3, byte &&& 0x0F)
  else if byte ≤ 0xF7 then (true, 4, byte &&& 0x07)
  else (false, 0, 0)

/-- Read byte i of a NUL-terminated C string modelled as the list of its
content bytes: positions beyond the content read the terminator 0. -/
def cstrGet (s : List Nat) (i : Nat) : Nat :=
  s.getD i 0

/-- Embedding of the continuation-byte loop of ParseNextUTF8: consume k
continuation bytes starting at position pos, accumulating into res.
A zero byte or a byte without the 10xxxxxx prefix stops with accepted
= false. -/
def utf8ContLoop (s : List Nat) : Nat → Nat → Nat → Bool × Nat
  | _, 0, res => (true, res)
  | pos, k + 1, res =>
    let b := cstrGet s pos
    if b = 0 ∨ b &&& 0xC0 ≠ 0x80 then (false, res)
    else utf8ContLoop s (pos + 1) k ((res <<< 6) ||| (b &&& 0x3F))

/-- Embedding of ParseNextUTF8: returns the parsed codepoint and the new
position. On invalid input, returns the raw first byte and advances one
position when return_byte_on_error is set, and (kInvalidUTF8, pos)
otherwise. -/
def ParseNextUTF8 (s : List Nat) (pos : Nat) (returnByteOnError : Bool) :
    Int × Nat :=
  let first := HandleUTF8FirstByte (cstrGet s pos)
  let cont :=
    if first.1 then utf8ContLoop s (pos + 1) (first.2.1 - 1) first.2.2
    else (false, 0)
  if cont.1 then ((cont.2 : Int), pos + first.2.1)
  else if returnByteOnError then ((cstrGet s pos : Int), pos + 1)
  else (kInvalidUTF8, pos)

/-- Embedding of the loop of ParseUTF8, with fuel: while the current byte
is not the NUL terminator, parse the next codepoint; on kInvalidUTF8 the
whole result is replaced by [kInvalidUTF8, offset]. Each iteration strictly
advances pos, so fuel = s.length + 1 runs the loop to completion. -/
def parseUTF8Loop (s : List Nat) (returnByteOnError : Bool) :
    Nat → Nat → List Int → List Int
  | 0, _, acc => acc.reverse
  | fuel + 1, pos, acc =>
    if cstrGet s pos = 0 then acc.reverse
    else
      let r := ParseNextUTF8 s pos returnByteOnError
      if r.1 = kInvalidUTF8 then [kInvalidUTF8, (r.2 : Int)]
      else parseUTF8Loop s returnByteOnError fuel r.2 (r.1 :: acc)

/-- Embedding of ParseUTF8 on a C string modelled as its content bytes. -/
def ParseUTF8 (s : List Nat) (returnByteOnError : Bool) : List Int :=
  parseUTF8Loop s returnByteOnError (s.length + 1) 0 []


/-! ## Helper lemmas relating the bitwise operations of the UTF-8 codec to
division and remainder arithmetic -/

theorem shiftLeft_lor_eq_add (a : Nat) :
    ∀ k r : Nat, r < 2 ^ k → (a <<< k) ||| r = a * 2 ^ k + r := by
  intro k
  induction k generalizing a with
  | zero =>
    intro r hr
    interval_cases r
    simp
  | succ k ih =>
    intro r hr
    have hbit : Nat.bit (decide (r % 2 = 1)) (r / 2) = r := by
      rcases Nat.mod_two_eq_zero_or_one r with h | h <;> simp [Nat.bit_val, h] <;> omega
    have hs : a <<< (k + 1) = Nat.bit false (a <<< k) := by
      simp [Nat.shiftLeft_eq, Nat.bit_val, pow_succ]
      ring
    have hr2 : r / 2 < 2 ^ k := by
      rw [pow_succ] at hr
      omega
    have hih := ih a (r / 2) hr2
    calc (a <<< (k + 1)) ||| r
        = Nat.bit false (a <<< k) ||| Nat.bit (decide (r % 2 = 1)) (r / 2) := by rw [hs, hbit]
      _ = Nat.bit (false || decide (r % 2 = 1)) ((a <<< k) ||| (r / 2)) := Nat.lor_bit _ _ _ _
      _ = a * 2 ^ (k + 1) + r := by
          rcases Nat.mod_two_eq_zero_or_one r with h | h <;>
            simp [Nat.bit_val, hih, h, pow_succ] <;> ring_nf <;> omega

theorem land_mod_64 (n : Nat) : n &&& 63 = n % 64 := by
  have h := Nat.and_pow_two_sub_one_eq_mod n 6
  norm_num at h
  exact h

theorem land_mod_32 (n : Nat) : n &&& 31 = n % 32 := by
  have h := Nat.and_pow_two_sub_one_eq_mod n 5
  norm_num at h
  exact h

theorem land_mod_16 (n : Nat) : n &&& 15 = n % 16 := by
  have h := Nat.and_pow_two_sub_one_eq_mod n 4
  norm_num at h
  exact h

theorem land_mod_8 (n : Nat) : n &&& 7 = n % 8 := by
  have h := Nat.and_pow_two_sub_one_eq_mod n 3
  norm_num at h
  exact h

theorem land_mod_128 (n : Nat) : n &&& 127 = n % 128 := by
  have h := Nat.and_pow_two_sub_one_eq_mod n 7
  norm_num at h
  exact h

theorem lor_128 (r : Nat) (h : r < 64) : 128 ||| r = 128 + r := by
  calc (128 : Nat) ||| r = 2 <<< 6 ||| r := by norm_num [Nat.shiftLeft_eq]
    _ = 2 * 2 ^ 6 + r := shiftLeft_lor_eq_add 2 6 r (by omega)
    _ = 128 + r := by norm_num

theorem lor_192 (r : Nat) (h : r < 32) : 192 ||| r = 192 + r := by
  calc (192 : Nat) ||| r = 6 <<< 5 ||| r := by norm_num [Nat.shiftLeft_eq]
    _ = 6 * 2 ^ 5 + r := shiftLeft_lor_eq_add 6 5 r (by omega)
    _ = 192 + r := by norm_num

theorem lor_224 (r : Nat) (h : r < 16) : 224 ||| r = 224 + r := by
  calc (224 : Nat) ||| r = 14 <<< 4 ||| r := by norm_num [Nat.shiftLeft_eq]
    _ = 14 * 2 ^ 4 + r := shiftLeft_lor_eq_add 14 4 r (by omega)
    _ = 224 + r := by norm_num

theorem lor_240 (r : Nat) (h : r < 8) : 240 ||| r = 240 + r := by
  calc (240 : Nat) ||| r = 30 <<< 3 ||| r := by norm_num [Nat.shiftLeft_eq]
    _ = 30 * 2 ^ 3 + r := shiftLeft_lor_eq_add 30 3 r (by omega)
    _ = 240 + r := by norm_num

theorem cont_land_192 (r : Nat) (h : r < 64) : (128 + r) &&& 192 = 128 := by
  have hfin : ∀ x : Fin 64, (128 + x.val) &&& 192 = 128 := by decide
  exact hfin ⟨r, h⟩

theorem shr6 (n : Nat) : n >>> 6 = n / 64 := by
  have := Nat.shiftRight_eq_div_pow n 6
  norm_num at this
  exact this

theorem shr12 (n : Nat) : n >>> 12 = n / 4096 := by
  have := Nat.shiftRight_eq_div_pow n 12
  norm_num at this
  exact this

theorem shr18 (n : Nat) : n >>> 18 = n / 262144 := by
  have := Nat.shiftRight_eq_div_pow n 18
  norm_num at this
  exact this

theorem shl6_lor (a r : Nat) (h : r < 64) : (a <<< 6) ||| r = a * 64 + r := by
  have := shiftLeft_lor_eq_add a 6 r (by omega)
  norm_num at this
  exact this



/-- Claim C10 (amended): for every codepoint c with 1 <= c <= 0x10FFFF, and
under either error policy, parsing the UTF-8 encoding produced for c
recovers exactly the one-element codepoint sequence [c]. (The original
claim included c = 0, which fails: the encoding of 0 is a single NUL byte,
which the C-string loop of ParseUTF8 treats as the terminator.) -/
theorem C10_utf8_roundtrip_amended (c : Nat) (pol : Bool) (h1 : 1 ≤ c) (h2 : c ≤ 0x10FFFF) :
    ParseUTF8 (PrintAsUTF8 c) pol = [(c : Int)] := by
  have hniC : ¬((c : Int) = kInvalidUTF8) := by
    simp only [kInvalidUTF8]
    omega
  rcases le_or_lt c 0x7F with hA | hA
  · -- one-byte branch
    have hs : PrintAsUTF8 c = [c] := by
      simp only [PrintAsUTF8]
      rw [if_pos (by omega)]
    have hfb : HandleUTF8FirstByte c = (true, 1, c) := by
      simp only [HandleUTF8FirstByte]
      rw [if_pos (by omega), land_mod_128, Nat.mod_eq_of_lt (by omega)]
    have hne : c ≠ 0 := by omega
    rw [ParseUTF8, hs]
    simp [parseUTF8Loop, ParseNextUTF8, utf8ContLoop, cstrGet, hfb, hne, hniC]
  · rcases le_or_lt c 0x7FF with hB | hB
    · -- two-byte branch
      have hb0 : (0xC0 : Nat) ||| ((c >>> 6) &&& 0x1F) = 192 + c / 64 := by
        rw [shr6, land_mod_32, Nat.mod_eq_of_lt (by omega), lor_192 _ (by omega)]
      have hb1 : (0x80 : Nat) ||| (c &&& 0x3F) = 128 + c % 64 := by
        rw [land_mod_64, lor_128 _ (by omega)]
      have hs : PrintAsUTF8 c = [192 + c / 64, 128 + c % 64] := by
        simp only [PrintAsUTF8]
        rw [if_neg (by omega), if_pos (by omega), hb0, hb1]
      have hm32 : (192 + c / 64) &&& 31 = c / 64 := by
        rw [land_mod_32]
        omega
      have hfb : HandleUTF8FirstByte (192 + c / 64) = (true, 2, c / 64) := by
        simp only [HandleUTF8FirstByte]
        rw [if_neg (by omega), if_neg (by omega), if_pos (by omega), hm32]
      have hc1 : (128 + c % 64) &&& 192 = 128 := cont_land_192 _ (by omega)
      have hm64 : (128 + c % 64) &&& 63 = c % 64 := by
        rw [land_mod_64]
        omega
      have hasm : (c / 64) <<< 6 ||| (c % 64) = c := by
        rw [shl6_lor _ _ (by omega)]
        omega
      rw [ParseUTF8, hs]
      simp [parseUTF8Loop, ParseNextUTF8, utf8ContLoop, cstrGet, hfb, hc1, hm64, hasm, hniC,
        show (192 : Nat) + c / 64 ≠ 0 by omega, show (128 : Nat) + c % 64 ≠ 0 by omega]
    · rcases le_or_lt c 0xFFFF with hC | hC
      · -- three-byte branch
        have hb0 : (0xE0 : Nat) ||| ((c >>> 12) &&& 0x0F) = 224 + c / 4096 := by
          rw [shr12, land_mod_16, Nat.mod_eq_of_lt (by omega), lor_224 _ (by omega)]
        have hb1 : (0x80 : Nat) ||| ((c >>> 6) &&& 0x3F) = 128 + c / 64 % 64 := by
          rw [shr6, land_mod_64, lor_128 _ (by omega)]
        have hb2 : (0x80 : Nat) ||| (c &&& 0x3F) = 128 + c % 64 := by
          rw [land_mod_64, lor_128 _ (by omega)]
        have hs : PrintAsUTF8 c = [224 + c / 4096, 128 + c / 64 % 64, 128 + c % 64] := by
          simp only [PrintAsUTF8]
          rw [if_neg (by omega), if_neg (by omega), if_pos (by omega), hb0, hb1, hb2]
        have hm16 : (224 + c / 4096) &&& 15 = c / 4096 := by
          rw [land_mod_16]
          omega
        have hfb : HandleUTF8FirstByte (224 + c / 4096) = (true, 3, c / 4096) := by
          simp only [HandleUTF8FirstByte]
          rw [if_neg (by omega), if_neg (by omega), if_neg (by omega), if_pos (by omega), hm16]
        have hc1 : (128 + c / 64 % 64) &&& 192 = 128 := cont_land_192 _ (by omega)
        have hc2 : (128 + c % 64) &&& 192 = 128 := cont_land_192 _ (by omega)
        have hm64a : (128 + c / 64 % 64) &&& 63 = c / 64 % 64 := by
          rw [land_mod_64]
          omega
        have hm64b : (128 + c % 64) &&& 63 = c % 64 := by
          rw [land_mod_64]
          omega
        have hasm1 : (c / 4096) <<< 6 ||| (c / 64 % 64) = c / 4096 * 64 + c / 64 % 64 :=
          shl6_lor _ _ (by omega)
        have hasm2 : (c / 4096 * 64 + c / 64 % 64) <<< 6 ||| (c % 64) = c := by
          rw [shl6_lor _ _ (by omega)]
          omega
        rw [ParseUTF8, hs]
        simp [parseUTF8Loop, ParseNextUTF8, utf8ContLoop, cstrGet, hfb, hc1, hc2, hm64a, hm64b,
          hasm1, hasm2, hniC, show (224 : Nat) + c / 4096 ≠ 0 by omega,
          show (128 : Nat) + c / 64 % 64 ≠ 0 by omega, show (128 : Nat) + c % 64 ≠ 0 by omega]
      · -- four-byte branch
        have hb0 : (0xF0 : Nat) ||| ((c >>> 18) &&& 0x07) = 240 + c / 262144 := by
          rw [shr18, land_mod_8, Nat.mod_eq_of_lt (by omega), lor_240 _ (by omega)]
        have hb1 : (0x80 : Nat) ||| ((c >>> 12) &&& 0x3F) = 128 + c / 4096 % 64 := by
          rw [shr12, land_mod_64, lor_128 _ (by omega)]
        have hb2 : (0x80 : Nat) ||| ((c >>> 6) &&& 0x3F) = 128 + c / 64 % 64 := by
          rw [shr6, land_mod_64, lor_128 _ (by omega)]
        have hb3 : (0x80 : Nat) ||| (c &&& 0x3F) = 128 + c % 64 := by
          rw [land_mod_64, lor_128 _ (by omega)]
        have hs : PrintAsUTF8 c =
            [240 + c / 262144, 128 + c / 4096 % 64, 128 + c / 64 % 64, 128 + c % 64] := by
          simp only [PrintAsUTF8]
          rw [if_neg (by omega), if_neg (by omega), if_neg (by omega), hb0, hb1, hb2, hb3]
        have hm8 : (240 + c / 262144) &&& 7 = c / 262144 := by
          rw [land_mod_8]
          omega
        have hfb : HandleUTF8FirstByte (240 + c / 262144) = (true, 4, c / 262144) := by
          simp only [HandleUTF8FirstByte]
          rw [if_neg (by omega), if_neg (by omega), if_neg (by omega), if_neg (by omega),
            if_pos (by omega), hm8]
        have hc1 : (128 + c / 4096 % 64) &&& 192 = 128 := cont_land_192 _ (by omega)
        have hc2 : (128 + c / 64 % 64) &&& 192 = 128 := cont_land_192 _ (by omega)
        have hc3 : (128 + c % 64) &&& 192 = 128 := cont_land_192 _ (by omega)
        have hm64a : (128 + c / 4096 % 64) &&& 63 = c / 4096 % 64 := by
          rw [land_mod_64]
          omega
        have hm64b : (128 + c / 64 % 64) &&& 63 = c / 64 % 64 := by
          rw [land_mod_64]
          omega
        have hm64c : (128 + c % 64) &&& 63 = c % 64 := by
          rw [land_mod_64]
          omega
        have hasm1 : (c / 262144) <<< 6 ||| (c / 4096 % 64) = c / 262144 * 64 + c / 4096 % 64 :=
          shl6_lor _ _ (by omega)
        have hasm2 : (c / 262144 * 64 + c / 4096 % 64) <<< 6 ||| (c / 64 % 64) =
            (c / 262144 * 64 + c / 4096 % 64) * 64 + c / 64 % 64 :=
          shl6_lor _ _ (by omega)
        have hasm3 : ((c / 262144 * 64 + c / 4096 % 64) * 64 + c / 64 % 64) <<< 6 ||| (c % 64) =
            c := by
          rw [shl6_lor _ _ (by omega)]
          omega
        rw [ParseUTF8, hs]
        simp [parseUTF8Loop, ParseNextUTF8, utf8ContLoop, cstrGet, hfb, hc1, hc2, hc3, hm64a,
          hm64b, hm64c, hasm1, hasm2, hasm3, hniC, show (240 : Nat) + c / 262144 ≠ 0 by omega,
          show (128 : Nat) + c / 4096 % 64 ≠ 0 by omega,
          show (128 : Nat) + c / 64 % 64 ≠ 0 by omega, show (128 : Nat) + c % 64 ≠ 0 by omega]


/-- Witness for C10_utf8_roundtrip_amended at the concrete codepoint 0x41. -/
theorem C10_utf8_roundtrip_amended_witness :
    ParseUTF8 (PrintAsUTF8 0x41) true = [(0x41 : Int)] :=
  C10_utf8_roundtrip_amended 0x41 true (by norm_num) (by norm_num)

/-- Claim C10 counterexample: the codepoint 0 round-trips to the empty
sequence, not to [0], under both error policies, because PrintAsUTF8 0
is the single byte 0 and the ParseUTF8 loop stops at a NUL byte. -/
theorem C10_counterexample_zero :
    PrintAsUTF8 0 = [0] ∧ ParseUTF8 (PrintAsUTF8 0) false = [] ∧
      ParseUTF8 (PrintAsUTF8 0) true = [] ∧ ([] : List Int) ≠ [(0 : Int)] := by
  refine ⟨rfl, rfl, rfl, ?_⟩
  decide

/-- Claim C1: on the 17-edge row longRow17 (sorted by (min, max, target),
pairwise-disjoint byte ranges), the byte 0 is covered by the first edge,
whose target is 0, and the short-row linear scan finds it; but Transition
takes the long-row binary-search path and returns NO_TRANSITION, because
after lower_bound finds the first edge with min > character the code tests
it->min <= character on that same edge (vacuously false) instead of on its
predecessor. This conflicts with the spec, which says the predecessor is
checked, and makes every row of more than 16 edges reject every byte. -/
theorem C1_transition_long_row_bug :
    (longRow17.zip longRow17.tail).all
        (fun p => decide (p.1.max < p.2.min) && decide (p.1.min ≤ p.1.max)) = true ∧
      longRow17.length = 17 ∧ edgeAt longRow17 0 = ⟨0, 0, 0⟩ ∧
      transitionLinear 0 longRow17 = 0 ∧
      Transition longRow17 0 = NO_TRANSITION ∧ NO_TRANSITION ≠ 0 := by
  refine ⟨?_, ?_, ?_, ?_, ?_, ?_⟩ <;> decide

/-! ## Grammar AST (src/cpp/grammar_data_structure.h) -/

/-- Embedding of BNFGrammar::Impl::Rule: a rule name, the id of the body
expression, and the id of the lookahead assertion expression (-1 when
absent). -/
structure Rule where
  name : String
  body_expr_id : Int
  lookahead_assertion_id : Int
deriving DecidableEq, Repr

/-- Embedding of BNFGrammar::Impl::GrammarExprType, with the same numeric
values as the C++ enum. The extra member kCharacterClassStar is used by
grammar_parser.cc and grammar_functor.cc but declared only in the missing
grammar_builder.h; it is modelled from the spec (the dedicated
character-class-star atomic expression). Its numeric tag is not derivable
from the sources; no claim observes it, only the symbolic identity. -/
inductive GrammarExprType
  | kByteString
  | kCharacterClass
  | kEmptyStr
  | kRuleRef
  | kSequence
  | kChoices
  | kStarQuantifier
  | kPlusQuantifier
  | kQuestionQuantifier
  | kQuantifierRange
  | kCharacterClassStar
deriving DecidableEq, Repr

/-- Numeric value of a GrammarExprType, following the C++ enum order. -/
def GrammarExprType.toTag : GrammarExprType → Int
  | .kByteString => 0
  | .kCharacterClass => 1
  | .kEmptyStr => 2
  | .kRuleRef => 3
  | .kSequence => 4
  | .kChoices => 5
  | .kStarQuantifier => 6
  | .kPlusQuantifier => 7
  | .kQuestionQuantifier => 8
  | .kQuantifierRange => 9
  | .kCharacterClassStar => 10

/-- Inverse of GrammarExprType.toTag. A tag outside 0..9 hits undefined
behaviour in the C++ static_cast; no modelled execution reads such a tag,
so the default branch is arbitrary. -/
def tagToType (tag : Int) : GrammarExprType :=
  if tag = 0 then .kByteString
  else if tag = 1 then .kCharacterClass
  else if tag = 2 then .kEmptyStr
  else if tag = 3 then .kRuleRef
  else if tag = 4 then .kSequence
  else if tag = 5 then .kChoices
  else if tag = 6 then .kStarQuantifier
  else if tag = 7 then .kPlusQuantifier
  else if tag = 8 then .kQuestionQuantifier
  else if tag = 9 then .kQuantifierRange
  else .kCharacterClassStar

/-- View of one stored grammar expression: the type tag and the payload
words, mirroring BNFGrammar::Impl::GrammarExpr. -/
structure GrammarExpr where
  type : GrammarExprType
  data : List Int
deriving DecidableEq, Repr

/-- Embedding of BNFGrammar::Impl. Modelled from the spec: csr_array.h is
not in the sources; the spec describes the storage as a CSR layout (a
dense data buffer plus an indptr vector, expression i occupying
data[indptr[i], indptr[i+1])), which carries exactly the same information
as the list of per-expression rows used here; each row is the type tag
word followed by the payload words. -/
structure BNFGrammar where
  rules : List Rule
  grammar_expr_data : List (List Int)
  root_rule_id : Int
deriving DecidableEq, Repr

/-- Embedding of BNFGrammar::Impl::GetGrammarExpr: interpret row i as a
typed view (tag word, payload). -/
def BNFGrammar.GetGrammarExpr (g : BNFGrammar) (i : Int) : GrammarExpr :=
  let row := g.grammar_expr_data.getD i.toNat []
  ⟨tagToType (row.headD 0), row.tail⟩

/-- Number of rules (BNFGrammar::Impl::NumRules). -/
def BNFGrammar.NumRules (g : BNFGrammar) : Nat := g.rules.length

/-- Embedding of BNFGrammar::Impl::GetRule. -/
def BNFGrammar.GetRule (g : BNFGrammar) (i : Nat) : Rule :=
  g.rules.getD i ⟨"", -1, -1⟩

/-! ## Grammar builder. Modelled from the spec: grammar_builder.h is not
in the sources. The spec says expressions are stored once in a flat
append-only CSR array addressed by dense ids, and rules form an ordered
table with optional lookahead, built in a single pass and then frozen;
each Add function therefore appends one row (or rule) and returns its
index, and the update functions modify the addressed entry in place. -/

/-- Builder state: the rule table and the expression rows built so far. -/
structure BNFGrammarBuilder where
  rules : List Rule
  grammar_expr_data : List (List Int)
deriving DecidableEq, Repr

/-- Empty builder. -/
def BNFGrammarBuilder.empty : BNFGrammarBuilder := ⟨[], []⟩

/-- Append a raw expression row, returning its id. -/
def BNFGrammarBuilder.addRow (b : BNFGrammarBuilder) (row : List Int) :
    Int × BNFGrammarBuilder :=
  ((b.grammar_expr_data.length : Int), ⟨b.rules, b.grammar_expr_data ++ [row]⟩)

/-- Add a byte string expression (tag 0 followed by the byte values). -/
def BNFGrammarBuilder.AddByteString (b : BNFGrammarBuilder) (bytes : List Int) :
    Int × BNFGrammarBuilder :=
  b.addRow (0 :: bytes)

/-- Add a character class expression (tag 1, negation flag, then the
(lower, upper) pairs). Modelled from the spec: the spec lists
InvalidCharClass — reversed range (lo > hi), empty class — among the
parse-time errors, and the parser performs the reversed-range check
itself, so the builder rejects an empty character class. -/
def BNFGrammarBuilder.AddCharacterClass (b : BNFGrammarBuilder)
    (elements : List (Int × Int)) (isNegated : Bool) :
    Except String (Int × BNFGrammarBuilder) :=
  if elements.isEmpty then
    .error "Invalid character class: empty class"
  else
    .ok (b.addRow (1 :: (if isNegated then 1 else 0) ::
      (elements.map (fun p => [p.1, p.2])).flatten))

/-- Add an empty string expression (tag 2). -/
def BNFGrammarBuilder.AddEmptyStr (b : BNFGrammarBuilder) :
    Int × BNFGrammarBuilder :=
  b.addRow [2]

/-- Add a rule reference expression (tag 3, rule id). -/
def BNFGrammarBuilder.AddRuleRef (b : BNFGrammarBuilder) (ruleId : Int) :
    Int × BNFGrammarBuilder :=
  b.addRow [3, ruleId]

/-- Add a sequence expression (tag 4, child expression ids). -/
def BNFGrammarBuilder.AddSequence (b : BNFGrammarBuilder) (ids : List Int) :
    Int × BNFGrammarBuilder :=
  b.addRow (4 :: ids)

/-- Add a choices expression (tag 5, child expression ids). -/
def BNFGrammarBuilder.AddChoices (b : BNFGrammarBuilder) (ids : List Int) :
    Int × BNFGrammarBuilder :=
  b.addRow (5 :: ids)

/-- Add a quantifier expression of the given type over a child id. -/
def BNFGrammarBuilder.AddQuantifier (b : BNFGrammarBuilder) (childId : Int)
    (t : GrammarExprType) : Int × BNFGrammarBuilder :=
  b.addRow [t.toTag, childId]

/-- Add a bounded-repetition expression (tag 9, child id, lower, upper). -/
def BNFGrammarBuilder.AddQuantifierRange (b : BNFGrammarBuilder)
    (childId lower upper : Int) : Int × BNFGrammarBuilder :=
  b.addRow [9, childId, lower, upper]

/-- Add a copy of an existing typed expression view (AddGrammarExpr /
AddRuleExpr in the C++ sources). -/
def BNFGrammarBuilder.AddGrammarExpr (b : BNFGrammarBuilder)
    (e : GrammarExpr) : Int × BNFGrammarBuilder :=
  b.addRow (e.type.toTag :: e.data)

/-- Read back the typed view of expression i from the builder. -/
def BNFGrammarBuilder.GetGrammarExpr (b : BNFGrammarBuilder) (i : Int) :
    GrammarExpr :=
  let row := b.grammar_expr_data.getD i.toNat []
  ⟨tagToType (row.headD 0), row.tail⟩

/-- Find the id of the rule with the given name, or -1. -/
def BNFGrammarBuilder.GetRuleId (b : BNFGrammarBuilder) (name : String) : Int :=
  match b.rules.findIdx? (fun r => r.name = name) with
  | some i => (i : Int)
  | none => -1

/-- Append a rule with the given name and no body yet, returning its id. -/
def BNFGrammarBuilder.AddEmptyRule (b : BNFGrammarBuilder) (name : String) :
    Int × BNFGrammarBuilder :=
  ((b.rules.length : Int), ⟨b.rules ++ [⟨name, -1, -1⟩], b.grammar_expr_data⟩)

/-- Append a rule with the given name and body, returning its id. -/
def BNFGrammarBuilder.AddRule (b : BNFGrammarBuilder) (name : String)
    (body : Int) : Int × BNFGrammarBuilder :=
  ((b.rules.length : Int), ⟨b.rules ++ [⟨name, body, -1⟩], b.grammar_expr_data⟩)

/-- Generate a fresh rule name from the current rule name. Modelled from
the spec: fresh rules derive their names from the enclosing rule; the
exact numbering scheme is not observable by any claim, so the current
rule count serves as the discriminator. -/
def BNFGrammarBuilder.GetNewRuleName (b : BNFGrammarBuilder) (base : String) :
    String :=
  base ++ "_" ++ toString b.rules.length

/-- Append a rule whose name is derived from a hint (AddRuleWithHint),
returning its id. -/
def BNFGrammarBuilder.AddRuleWithHint (b : BNFGrammarBuilder) (hint : String)
    (body : Int) : Int × BNFGrammarBuilder :=
  ((b.rules.length : Int),
    ⟨b.rules ++ [⟨hint ++ "_" ++ toString b.rules.length, body, -1⟩],
      b.grammar_expr_data⟩)

/-- Set the body of rule i. -/
def BNFGrammarBuilder.UpdateRuleBody (b : BNFGrammarBuilder) (i : Nat)
    (body : Int) : BNFGrammarBuilder :=
  ⟨b.rules.modify (fun r => ⟨r.name, body, r.lookahead_assertion_id⟩) i,
    b.grammar_expr_data⟩

/-- Set the body of the rule with the given name. -/
def BNFGrammarBuilder.UpdateRuleBodyByName (b : BNFGrammarBuilder)
    (name : String) (body : Int) : BNFGrammarBuilder :=
  b.UpdateRuleBody (b.GetRuleId name).toNat body

/-- Set the lookahead assertion id of rule i. -/
def BNFGrammarBuilder.AddLookaheadAssertion (b : BNFGrammarBuilder) (i : Nat)
    (lookahead : Int) : BNFGrammarBuilder :=
  ⟨b.rules.modify (fun r => ⟨r.name, r.body_expr_id, lookahead⟩) i,
    b.grammar_expr_data⟩

/-- Set the lookahead assertion id of the rule with the given name. -/
def BNFGrammarBuilder.AddLookaheadAssertionByName (b : BNFGrammarBuilder)
    (name : String) (lookahead : Int) : BNFGrammarBuilder :=
  b.AddLookaheadAssertion (b.GetRuleId name).toNat lookahead

/-- Freeze the builder into a grammar whose root is the rule with the
given name. -/
def BNFGrammarBuilder.Get (b : BNFGrammarBuilder) (rootName : String) :
    BNFGrammar :=
  ⟨b.rules, b.grammar_expr_data, b.GetRuleId rootName⟩

/-! ## JSON serialization (src/cpp/grammar_serializer.cc) -/

/-- Information content of the JSON object written by
BNFGrammarJSONSerializer::Serialize: for each rule only the name and the
body expression id, plus the serialized CSR expression data. The picojson
rendering of this object to a JSON string and its exact inverse parse are
external-library code and are modelled as the identity on this structure.
Modelled from the spec: CSRArray::Serialize produces the two integer
arrays data and indptr; for the row list these are the concatenation of
the rows and the list of partial sums of the row lengths. -/
structure SerializedGrammar where
  rules : List (String × Int)
  csrData : List Int
  csrIndptr : List Nat
deriving DecidableEq, Repr

/-- Partial sums of the row lengths, starting at 0: the indptr vector of
the CSR layout. -/
def csrIndptrOf : List (List Int) → List Nat
  | [] => [0]
  | row :: rows => 0 :: (csrIndptrOf rows).map (fun i => row.length + i)

/-- Embedding of BNFGrammarJSONSerializer::Serialize. -/
def Serialize (g : BNFGrammar) : SerializedGrammar :=
  ⟨g.rules.map (fun r => (r.name, r.body_expr_id)),
    g.grammar_expr_data.flatten, csrIndptrOf g.grammar_expr_data⟩

/-- Rebuild the row list from the flat data buffer and the indptr
vector (CSRArray::Deserialize, modelled from the spec). -/
def csrRowsOf (data : List Int) : List Nat → List (List Int)
  | [] => []
  | [_] => []
  | i :: j :: rest => ((data.drop i).take (j - i)) :: csrRowsOf data (j :: rest)

/-- Embedding of BNFGrammarDeserializer::Deserialize: rules are rebuilt
from name and body_expr_id with no lookahead assertion, the expression
data is rebuilt from the CSR arrays, and the root rule id keeps its
default value -1; an empty rules array is rejected. -/
def Deserialize (s : SerializedGrammar) : Except String BNFGrammar :=
  if s.rules.isEmpty then .error "Rules array is empty"
  else
    .ok ⟨s.rules.map (fun p => ⟨p.1, p.2, -1⟩), csrRowsOf s.csrData s.csrIndptr, -1⟩


/-! ## Lemmas about the CSR round trip and the C3 claim -/

theorem csrRowsOf_shift (data pre : List Int) :
    ∀ ips : List Nat,
      csrRowsOf (pre ++ data) (ips.map (fun i => pre.length + i)) = csrRowsOf data ips := by
  intro ips
  induction ips with
  | nil => rfl
  | cons i rest ih =>
    cases rest with
    | nil => rfl
    | cons j rest2 =>
      simp only [List.map, csrRowsOf, List.cons.injEq]
      refine ⟨?_, ?_⟩
      · rw [List.drop_append_eq_append_drop]
        have h1 : pre.length + i - pre.length = i := by omega
        have h2 : pre.drop (pre.length + i) = [] := by
          apply List.drop_eq_nil_of_le
          omega
        rw [h1, h2, List.nil_append]
        congr 1
        omega
      · exact ih

theorem csrIndptrOf_head : ∀ rows : List (List Int), ∃ t, csrIndptrOf rows = 0 :: t := by
  intro rows
  cases rows with
  | nil => exact ⟨[], rfl⟩
  | cons r rs => exact ⟨_, rfl⟩

theorem csr_roundtrip : ∀ rows : List (List Int),
    csrRowsOf rows.flatten (csrIndptrOf rows) = rows := by
  intro rows
  induction rows with
  | nil => rfl
  | cons row rows ih =>
    obtain ⟨t, ht⟩ := csrIndptrOf_head rows
    simp only [csrIndptrOf, ht, List.map, List.flatten_cons, csrRowsOf, List.cons.injEq]
    refine ⟨?_, ?_⟩
    · rw [Nat.add_zero, Nat.sub_zero, List.drop_zero, List.take_left']
      rfl
    · have := csrRowsOf_shift rows.flatten row ((0 : Nat) :: t)
      simp only [List.map] at this
      rw [Nat.add_zero] at this
      rw [Nat.add_zero, this, ← ht, ih]


/-- Concrete grammar with a lookahead assertion and a root rule id, used
to exhibit what the JSON round trip loses. -/
def c3Grammar : BNFGrammar :=
  ⟨[⟨"root", 1, 0⟩], [[4, 0], [5, 0]], 0⟩

/-- Claim C3 counterexample: deserializing the serialization of c3Grammar
yields a grammar whose lookahead assertion id and root rule id are -1,
which differs from c3Grammar; the serializer writes only rule names, body
expression ids and the CSR expression data, so the round trip is not the
identity claimed. -/
theorem C3_roundtrip_counterexample :
    Deserialize (Serialize c3Grammar) =
        .ok ⟨[⟨"root", 1, -1⟩], [[4, 0], [5, 0]], -1⟩ ∧
      Except.ok c3Grammar ≠
        (.ok (⟨[⟨"root", 1, -1⟩], [[4, 0], [5, 0]], -1⟩ : BNFGrammar) :
          Except String BNFGrammar) := by
  refine ⟨rfl, fun h => ?_⟩
  have h2 : c3Grammar = ⟨[⟨"root", 1, -1⟩], [[4, 0], [5, 0]], -1⟩ := by
    injection h
  exact absurd h2 (by decide)

/-- Claim C3 (amended): for every grammar with at least one rule,
deserializing the JSON serialization yields a grammar with the same rules
in the same order with the same names and body expressions and the same
expression CSR data, but with every lookahead assertion id reset to -1 and
the root rule id reset to -1 (neither is serialized). -/
theorem C3_roundtrip_amended (g : BNFGrammar) (h : g.rules ≠ []) :
    Deserialize (Serialize g) =
      .ok ⟨g.rules.map (fun r => ⟨r.name, r.body_expr_id, -1⟩),
        g.grammar_expr_data, -1⟩ := by
  simp only [Deserialize, Serialize]
  rw [if_neg (by simpa using h)]
  simp only [List.map_map, csr_roundtrip]
  rfl

/-- Witness for C3_roundtrip_amended at a concrete one-rule grammar. -/
theorem C3_roundtrip_amended_witness :
    Deserialize (Serialize (⟨[⟨"root", 0, -1⟩], [[2]], 0⟩ : BNFGrammar)) =
      .ok ⟨[⟨"root", 0, -1⟩], [[2]], -1⟩ :=
  C3_roundtrip_amended ⟨[⟨"root", 0, -1⟩], [[2]], 0⟩ (by decide)

/-! ## EBNF recursive-descent parser (src/cpp/grammar_parser.cc)

The parser state carries the codepoint buffer (the decoded input with the
appended 0 terminator), the cursor, the in-parentheses flag, the current
rule name and the grammar builder. Line and column counters are omitted:
they only feed the text of error messages, which no claim observes.
Loops and the mutually recursive parse functions take explicit fuel;
every loop iteration advances the cursor, so the stated fuel bounds make
the embedded runs coincide with the C++ runs (fuel exhaustion inside a
fallible function is reported as the distinguished message "out of fuel",
which no successful run produces). -/

/-- Error sentinel CharHandlingError::kInvalidEscape. Modelled from the
spec: a negative sentinel distinct from kInvalidUTF8. -/
def kInvalidEscape : Int := -2

/-- Sentinel used by ParseCharacterClass for a pending range upper
bound. -/
def UNKNOWN_UPPER_BOUND : Int := -4

/-- Numeric codepoint of a character literal. -/
def chCode (c : Char) : Int := (c.toNat : Int)

/-- Parser state of EBNFParserImpl. -/
structure ParserState where
  codepoints : List Int
  cur : Nat
  inParentheses : Bool
  curRuleName : String
  builder : BNFGrammarBuilder
deriving DecidableEq, Repr

/-- Embedding of Peek(delta): read the codepoint at cur + delta. Reads at
or past the appended terminator yield 0 (the C++ code only ever reads
past the terminator on inputs where the result is compared against
specific printable characters, so 0 models the absence of a match). -/
def ParserState.Peek (st : ParserState) (delta : Int) : Int :=
  st.codepoints.getD ((st.cur : Int) + delta).toNat 0

/-- Embedding of Consume(cnt) without the line/column bookkeeping. -/
def ParserState.consume (st : ParserState) (cnt : Nat) : ParserState :=
  { st with cur := st.cur + cnt }

/-- Replace the builder component. -/
def ParserState.withBuilder (st : ParserState) (b : BNFGrammarBuilder) :
    ParserState :=
  { st with builder := b }

/-- Embedding of the comment-skipping inner loop of ConsumeSpace: consume
until NUL, newline or carriage return. -/
def skipCommentChars : Nat → ParserState → ParserState
  | 0, st => st
  | fuel + 1, st =>
    if st.Peek 0 ≠ 0 ∧ st.Peek 0 ≠ chCode '\n' ∧ st.Peek 0 ≠ chCode '\r' then
      skipCommentChars fuel (st.consume 1)
    else st

/-- Embedding of the loop of ConsumeSpace(allow_newline). Each iteration
consumes at least one codepoint. -/
def consumeSpaceLoop (allowNewline : Bool) : Nat → ParserState → ParserState
  | 0, st => st
  | fuel + 1, st =>
    if st.Peek 0 ≠ 0 ∧ (st.Peek 0 = chCode ' ' ∨ st.Peek 0 = chCode '\t' ∨
        st.Peek 0 = chCode '#' ∨
        (allowNewline ∧ (st.Peek 0 = chCode '\n' ∨ st.Peek 0 = chCode '\r'))) then
      let st1 := st.consume 1
      if st1.Peek (-1) = chCode '#' then
        let st2 := skipCommentChars (st1.codepoints.length + 1) st1
        if st2.Peek 0 = 0 then st2
        else
          let st3 := st2.consume 1
          let st4 :=
            if st3.Peek (-1) = chCode '\r' ∧ st3.Peek 0 = chCode '\n' then st3.consume 1
            else st3
          consumeSpaceLoop allowNewline fuel st4
      else consumeSpaceLoop allowNewline fuel st1
    else st

/-- Embedding of ConsumeSpace(allow_newline): the loop runs to completion
with fuel one more than the buffer length. -/
def ConsumeSpace (allowNewline : Bool) (st : ParserState) : ParserState :=
  consumeSpaceLoop allowNewline (st.codepoints.length + 1) st

/-- Embedding of IsNameChar. -/
def IsNameChar (c : Int) (firstChar : Bool) : Bool :=
  decide (c = chCode '_') || decide (c = chCode '-') || decide (c = chCode '.') ||
  decide (chCode 'a' ≤ c ∧ c ≤ chCode 'z') || decide (chCode 'A' ≤ c ∧ c ≤ chCode 'Z') ||
  (!firstChar && decide (chCode '0' ≤ c ∧ c ≤ chCode '9'))

/-- Name-collecting loop of ParseName. -/
def parseNameLoop : Nat → ParserState → String → Bool → String × ParserState
  | 0, st, name, _ => (name, st)
  | fuel + 1, st, name, firstChar =>
    let c := st.Peek 0
    if decide (c ≠ 0) && IsNameChar c firstChar then
      parseNameLoop fuel (st.consume 1) (name.push (Char.ofNat c.toNat)) false
    else (name, st)

/-- Embedding of ParseName(accept_empty). -/
def ParseName (acceptEmpty : Bool) (st : ParserState) :
    Except String (String × ParserState) :=
  let r := parseNameLoop (st.codepoints.length + 1) st "" true
  if r.1 = "" ∧ ¬acceptEmpty then .error "Expect rule name"
  else .ok r

/-- Read count hexadecimal digits starting at position pos of the
codepoint buffer; none on a non-hex digit. -/
def readHexDigits (st : ParserState) (pos : Int) : Nat → Option Int
  | 0 => some 0
  | k + 1 => do
    let rest ← readHexDigits st (pos + 1) k
    let c := st.Peek pos
    let d ←
      if chCode '0' ≤ c ∧ c ≤ chCode '9' then some (c - chCode '0')
      else if chCode 'a' ≤ c ∧ c ≤ chCode 'f' then some (c - chCode 'a' + 10)
      else if chCode 'A' ≤ c ∧ c ≤ chCode 'F' then some (c - chCode 'A' + 10)
      else none
    some (d * (16 ^ k : Nat) + rest)

/-- Embedding of HandleEscape(cur, custom_map). Modelled from the spec:
HandleEscape is declared in the missing encoding.h; the spec lists the
escapes backslash, quote, slash, b, f, n, r, t, xHH, uHHHH (plus
UHHHHHHHH for the regex surface) and custom per-caller escapes. Returns
the codepoint and the number of consumed codepoints, or kInvalidEscape. -/
def handleEscape (st : ParserState) (customMap : List (Int × Int)) : Int × Nat :=
  let e := st.Peek 1
  match customMap.find? (fun p => p.1 = e) with
  | some p => (p.2, 2)
  | none =>
    if e = chCode '"' then (chCode '"', 2)
    else if e = chCode '\\' then (chCode '\\', 2)
    else if e = chCode '/' then (chCode '/', 2)
    else if e = chCode 'b' then (8, 2)
    else if e = chCode 'f' then (12, 2)
    else if e = chCode 'n' then (chCode '\n', 2)
    else if e = chCode 'r' then (chCode '\r', 2)
    else if e = chCode 't' then (chCode '\t', 2)
    else if e = chCode 'x' then
      match readHexDigits st 2 2 with
      | some v => (v, 4)
      | none => (kInvalidEscape, 0)
    else if e = chCode 'u' then
      match readHexDigits st 2 4 with
      | some v => (v, 6)
      | none => (kInvalidEscape, 0)
    else if e = chCode 'U' then
      match readHexDigits st 2 8 with
      | some v => (v, 10)
      | none => (kInvalidEscape, 0)
    else (kInvalidEscape, 0)

/-- Custom escape map of ParseCharacterClass: backslash-hyphen and
backslash-bracket denote the literal characters. -/
def ccCustomEscapeMap : List (Int × Int) :=
  [(chCode '-', chCode '-'), (chCode ']', chCode ']')]

/-- Main loop of ParseCharacterClass. The accumulator holds the parsed
(lower, upper) elements in reverse order; upper = UNKNOWN_UPPER_BOUND
marks a pending single character. Each iteration consumes at least one
codepoint. -/
def parseCCLoop : Nat → ParserState → List (Int × Int) → Bool → Bool →
    Except String (List (Int × Int) × ParserState)
  | 0, _, _, _, _ => .error "out of fuel"
  | fuel + 1, st, acc, pastIsHyphen, pastIsSingleChar =>
    let c := st.Peek 0
    if c = 0 ∨ c = chCode ']' then .ok (acc, st)
    else if c = chCode '\r' ∨ c = chCode '\n' then
      .error "Character class should not contain newline"
    else if c = chCode '-' ∧ st.Peek 1 ≠ chCode ']' ∧ ¬pastIsHyphen ∧
        pastIsSingleChar then
      parseCCLoop fuel (st.consume 1) acc true false
    else if c = chCode '\\' ∧ (handleEscape st ccCustomEscapeMap).1 = kInvalidEscape then
      .error "Invalid escape sequence"
    else
      let codepoint :=
        if c = chCode '\\' then (handleEscape st ccCustomEscapeMap).1 else c
      let st1 :=
        if c = chCode '\\' then st.consume (handleEscape st ccCustomEscapeMap).2
        else st.consume 1
      if pastIsHyphen then
        match acc with
        | [] => .error "internal invariant"
        | (lo, _) :: rest =>
          if lo > codepoint then
            .error "Invalid character class: lower bound is larger than upper bound"
          else parseCCLoop fuel st1 ((lo, codepoint) :: rest) false false
      else parseCCLoop fuel st1 ((codepoint, UNKNOWN_UPPER_BOUND) :: acc) false true

/-- Embedding of ParseCharacterClass: negation flag, element loop, fix-up
of pending upper bounds, then the builder call. -/
def ParseCharacterClass (st : ParserState) : Except String (Int × ParserState) :=
  let p := if st.Peek 0 = chCode '^' then (true, st.consume 1) else (false, st)
  match parseCCLoop (p.2.codepoints.length + 1) p.2 [] false false with
  | .error e => .error e
  | .ok (accRev, st2) =>
    let elements := accRev.reverse.map
      (fun q => if q.2 = UNKNOWN_UPPER_BOUND then (q.1, q.1) else q)
    match st2.builder.AddCharacterClass elements p.1 with
    | .error e => .error e
    | .ok (exprId, b) => .ok (exprId, st2.withBuilder b)

/-- Main loop of ParseString, accumulating UTF-8 bytes. -/
def parseStrLoop : Nat → ParserState → List Int →
    Except String (List Int × ParserState)
  | 0, _, _ => .error "out of fuel"
  | fuel + 1, st, acc =>
    let c := st.Peek 0
    if c = 0 ∨ c = chCode '"' then .ok (acc, st)
    else if c = chCode '\r' ∨ c = chCode '\n' then
      .error "There should be no newline character in a string literal"
    else if c = chCode '\\' then
      let r := handleEscape st []
      if r.1 = kInvalidEscape then .error "Invalid escape sequence"
      else
        parseStrLoop fuel (st.consume r.2)
          (acc ++ (PrintAsUTF8 r.1.toNat).map (fun b => (b : Int)))
    else
      parseStrLoop fuel (st.consume 1)
        (acc ++ (PrintAsUTF8 c.toNat).map (fun b => (b : Int)))

/-- Embedding of ParseString. -/
def ParseString (st : ParserState) : Except String (Int × ParserState) := do
  let (bytes, st1) ← parseStrLoop (st.codepoints.length + 1) st []
  if bytes.isEmpty then
    let r := st1.builder.AddEmptyStr
    .ok (r.1, st1.withBuilder r.2)
  else
    let r := st1.builder.AddByteString bytes
    .ok (r.1, st1.withBuilder r.2)

/-- Embedding of ParseRuleRef. -/
def ParseRuleRef (st : ParserState) : Except String (Int × ParserState) := do
  let (name, st1) ← ParseName false st
  let ruleId := st1.builder.GetRuleId name
  if ruleId = -1 then .error "Rule is not defined"
  else
    let r := st1.builder.AddRuleRef ruleId
    .ok (r.1, st1.withBuilder r.2)

/-- Embedding of HandleStarQuantifier: a character class becomes a
dedicated character-class-star expression; any other element A is
rewritten to a fresh rule R with body Choices(Sequence(A, RuleRef(R)),
EmptyStr), and a reference to R is returned. -/
def HandleStarQuantifier (st : ParserState) (ruleExprId : Int) :
    Int × ParserState :=
  let e := st.builder.GetGrammarExpr ruleExprId
  if e.type = .kCharacterClass then
    let r := st.builder.AddGrammarExpr ⟨.kCharacterClassStar, e.data⟩
    (r.1, st.withBuilder r.2)
  else
    let name := st.builder.GetNewRuleName st.curRuleName
    let (newRuleId, b1) := st.builder.AddEmptyRule name
    let (refToNewRule, b2) := b1.AddRuleRef newRuleId
    let (seqId, b3) := b2.AddSequence [ruleExprId, refToNewRule]
    let (empId, b4) := b3.AddEmptyStr
    let (choicesId, b5) := b4.AddChoices [seqId, empId]
    let b6 := b5.UpdateRuleBody newRuleId.toNat choicesId
    let (retId, b7) := b6.AddRuleRef newRuleId
    (retId, st.withBuilder b7)

/-- Embedding of HandlePlusQuantifier: A+ becomes a fresh rule R with body
Choices(Sequence(A, RuleRef(R)), A). -/
def HandlePlusQuantifier (st : ParserState) (ruleExprId : Int) :
    Int × ParserState :=
  let name := st.builder.GetNewRuleName st.curRuleName
  let (newRuleId, b1) := st.builder.AddEmptyRule name
  let (refToNewRule, b2) := b1.AddRuleRef newRuleId
  let (seqId, b3) := b2.AddSequence [ruleExprId, refToNewRule]
  let (choicesId, b4) := b3.AddChoices [seqId, ruleExprId]
  let b5 := b4.UpdateRuleBody newRuleId.toNat choicesId
  let (retId, b6) := b5.AddRuleRef newRuleId
  (retId, st.withBuilder b6)

/-- Embedding of HandleQuestionQuantifier: A? becomes a fresh rule R with
body Choices(A, EmptyStr). -/
def HandleQuestionQuantifier (st : ParserState) (ruleExprId : Int) :
    Int × ParserState :=
  let name := st.builder.GetNewRuleName st.curRuleName
  let (empId, b1) := st.builder.AddEmptyStr
  let (choicesId, b2) := b1.AddChoices [ruleExprId, empId]
  let (newRuleId, b3) := b2.AddRule name choicesId
  let (retId, b4) := b3.AddRuleRef newRuleId
  (retId, st.withBuilder b4)

mutual

/-- Embedding of ParseElement: parenthesized choices, character class,
string, or rule reference. -/
def ParseElement : Nat → ParserState → Except String (Int × ParserState)
  | 0, _ => .error "out of fuel"
  | fuel + 1, st =>
    if st.Peek 0 = chCode '(' then do
      let st1 := (st.consume 1)
      let st2 := ConsumeSpace true st1
      let prevInParentheses := st2.inParentheses
      let st3 := { st2 with inParentheses := true }
      let (exprId, st4) ← ParseChoices fuel st3
      let st5 := ConsumeSpace true st4
      if st5.Peek 0 ≠ chCode ')' then .error "Expect closing paren"
      else
        let st6 := st5.consume 1
        .ok (exprId, { st6 with inParentheses := prevInParentheses })
    else if st.Peek 0 = chCode '[' then do
      let st1 := st.consume 1
      let (exprId, st2) ← ParseCharacterClass st1
      if st2.Peek 0 ≠ chCode ']' then .error "Expect closing bracket"
      else .ok (exprId, st2.consume 1)
    else if st.Peek 0 = chCode '"' then do
      let st1 := st.consume 1
      let (exprId, st2) ← ParseString st1
      if st2.Peek 0 ≠ chCode '"' then .error "Expect closing quote"
      else .ok (exprId, st2.consume 1)
    else if IsNameChar (st.Peek 0) true then ParseRuleRef st
    else .error "Expect element"

/-- Embedding of ParseQuantifier: an element optionally followed by one
of the star, plus or question suffixes. -/
def ParseQuantifier (fuel : Nat) (st : ParserState) :
    Except String (Int × ParserState) :=
  match fuel with
  | 0 => .error "out of fuel"
  | fuel + 1 => do
    let (ruleExprId, st1) ← ParseElement fuel st
    let st2 := ConsumeSpace st1.inParentheses st1
    if st2.Peek 0 ≠ chCode '*' ∧ st2.Peek 0 ≠ chCode '+' ∧
        st2.Peek 0 ≠ chCode '?' then
      .ok (ruleExprId, st2)
    else
      let st3 := st2.consume 1
      if st3.Peek (-1) = chCode '*' then .ok (HandleStarQuantifier st3 ruleExprId)
      else if st3.Peek (-1) = chCode '+' then .ok (HandlePlusQuantifier st3 ruleExprId)
      else if st3.Peek (-1) = chCode '?' then .ok (HandleQuestionQuantifier st3 ruleExprId)
      else .error "Unreachable"

/-- Embedding of the do-while loop of ParseSequence. -/
def parseSeqLoop : Nat → ParserState → List Int →
    Except String (Int × ParserState)
  | 0, _, _ => .error "out of fuel"
  | fuel + 1, st, elements => do
    let (exprId, st1) ← ParseQuantifier fuel st
    let st2 := ConsumeSpace st1.inParentheses st1
    let elements2 := elements ++ [exprId]
    if st2.Peek 0 ≠ 0 ∧ st2.Peek 0 ≠ chCode '|' ∧ st2.Peek 0 ≠ chCode ')' ∧
        st2.Peek 0 ≠ chCode '\n' ∧ st2.Peek 0 ≠ chCode '\r' ∧
        ¬(st2.Peek 0 = chCode '(' ∧ st2.Peek 1 = chCode '=') then
      parseSeqLoop fuel st2 elements2
    else
      let r := st2.builder.AddSequence elements2
      .ok (r.1, st2.withBuilder r.2)

/-- Embedding of ParseSequence. -/
def ParseSequence (fuel : Nat) (st : ParserState) :
    Except String (Int × ParserState) :=
  match fuel with
  | 0 => .error "out of fuel"
  | fuel + 1 => parseSeqLoop fuel st []

/-- Embedding of the choice loop of ParseChoices: after each sequence,
spaces including newlines are skipped, and a following bar continues the
same choices expression. -/
def parseChoicesLoop : Nat → ParserState → List Int →
    Except String (Int × ParserState)
  | 0, _, _ => .error "out of fuel"
  | fuel + 1, st, choices =>
    if st.Peek 0 = chCode '|' then do
      let st1 := st.consume 1
      let st2 := ConsumeSpace true st1
      let (exprId, st3) ← ParseSequence fuel st2
      let st4 := ConsumeSpace true st3
      parseChoicesLoop fuel st4 (choices ++ [exprId])
    else
      let r := st.builder.AddChoices choices
      .ok (r.1, st.withBuilder r.2)

/-- Embedding of ParseChoices. -/
def ParseChoices (fuel : Nat) (st : ParserState) :
    Except String (Int × ParserState) :=
  match fuel with
  | 0 => .error "out of fuel"
  | fuel + 1 => do
    let (exprId, st1) ← ParseSequence fuel st
    let st2 := ConsumeSpace true st1
    parseChoicesLoop fuel st2 [exprId]

end

/-- Embedding of ParseLookaheadAssertion: nothing unless the input starts
with open-paren and equals; otherwise a parenthesized sequence. -/
def ParseLookaheadAssertion (fuel : Nat) (st : ParserState) :
    Except String (Int × ParserState) :=
  if ¬(st.Peek 0 = chCode '(' ∧ st.Peek 1 = chCode '=') then .ok (-1, st)
  else do
    let st1 := st.consume 2
    let prevInParentheses := st1.inParentheses
    let st2 := { st1 with inParentheses := true }
    let st3 := ConsumeSpace true st2
    let (exprId, st4) ← ParseSequence fuel st3
    let st5 := ConsumeSpace true st4
    if st5.Peek 0 ≠ chCode ')' then .error "Expect closing paren"
    else
      let st6 := st5.consume 1
      .ok (exprId, { st6 with inParentheses := prevInParentheses })

/-- Embedding of ParseRule: name, the ::= separator, the body choices and
an optional lookahead assertion. -/
def ParseRule (fuel : Nat) (st : ParserState) :
    Except String ((String × Int × Int) × ParserState) := do
  let (name, st1) ← ParseName false st
  let st2 := { st1 with curRuleName := name }
  let st3 := ConsumeSpace true st2
  if ¬(st3.Peek 0 = chCode ':' ∧ st3.Peek 1 = chCode ':' ∧
      st3.Peek 2 = chCode '=') then
    .error "Expect definition symbol"
  else
    let st4 := st3.consume 3
    let st5 := ConsumeSpace true st4
    let (bodyId, st6) ← ParseChoices fuel st5
    let st7 := ConsumeSpace true st6
    let (lookaheadId, st8) ← ParseLookaheadAssertion fuel st7
    .ok ((name, bodyId, lookaheadId), st8)

/-- Skip to the end of the current line (the trailing loop of
BuildRuleNameToId). -/
def skipToLineEnd : Nat → ParserState → ParserState
  | 0, st => st
  | fuel + 1, st =>
    if st.Peek 0 ≠ 0 ∧ st.Peek 0 ≠ chCode '\n' ∧ st.Peek 0 ≠ chCode '\r' then
      skipToLineEnd fuel (st.consume 1)
    else st

/-- Embedding of the loop of BuildRuleNameToId: register every top-level
name followed by the ::= separator as a fresh empty rule, rejecting
duplicates. -/
def buildRuleNameLoop : Nat → ParserState → Except String ParserState
  | 0, _ => .error "out of fuel"
  | fuel + 1, st =>
    if st.Peek 0 = 0 then .ok st
    else do
      let (name, st1) ← ParseName true st
      let st2 := ConsumeSpace false st1
      let st4 ←
        if st2.Peek 0 = chCode ':' ∧ st2.Peek 1 = chCode ':' ∧
            st2.Peek 2 = chCode '=' then
          if name = "" then .error "Expect rule name"
          else
            let st3 := st2.consume 3
            if st3.builder.GetRuleId name ≠ -1 then
              .error "Rule is defined multiple times"
            else .ok (st3.withBuilder (st3.builder.AddEmptyRule name).2)
        else .ok st2
      let st5 := skipToLineEnd (st4.codepoints.length + 1) st4
      let st6 := ConsumeSpace true st5
      buildRuleNameLoop fuel st6

/-- Embedding of the main rule loop of DoParse: parse each rule and store
its body and lookahead assertion on the rule registered in the first
pass. -/
def doParseLoop : Nat → ParserState → Except String ParserState
  | 0, _ => .error "out of fuel"
  | fuel + 1, st =>
    if st.Peek 0 = 0 then .ok st
    else if st.Peek 0 = chCode '(' ∧ st.Peek 1 = chCode '=' then
      .error "Unexpected lookahead assertion"
    else do
      let ((name, bodyId, lookaheadId), st1) ← ParseRule fuel st
      let b1 := st1.builder.UpdateRuleBodyByName name bodyId
      let b2 := b1.AddLookaheadAssertionByName name lookaheadId
      let st2 := ConsumeSpace true (st1.withBuilder b2)
      doParseLoop fuel st2

/-- Embedding of EBNFParserImpl::DoParse: decode the input from UTF-8,
append the terminator, collect the rule names, reset, parse every rule
body, check the root rule and freeze the grammar. The shared fuel for the
mutually recursive parse functions is quadratic in the input length,
which bounds the total number of parser steps of any terminating C++
run on the same input. -/
def DoParse (input : List Nat) (rootRule : String) :
    Except String BNFGrammar := do
  let cps := ParseUTF8 input false
  if cps.headD 0 = kInvalidUTF8 then .error "Invalid UTF8 sequence"
  else
    let cps := cps ++ [0]
    let fuel := (cps.length + 2) * (cps.length + 2)
    let st0 : ParserState := ⟨cps, 0, false, "", BNFGrammarBuilder.empty⟩
    let st1 ← buildRuleNameLoop fuel (ConsumeSpace true st0)
    let st2 : ParserState := ⟨cps, 0, false, "", st1.builder⟩
    let st3 := ConsumeSpace true st2
    let st4 ← doParseLoop fuel st3
    if st4.builder.GetRuleId rootRule = -1 then
      .error "The root rule is not found"
    else .ok (st4.builder.Get rootRule)

/-- Byte list of an ASCII Lean string, as fed to DoParse: for ASCII
strings, the UTF-8 byte sequence equals the character codepoint sequence.
All concrete inputs below are ASCII. -/
def strInput (s : String) : List Nat :=
  s.data.map (fun c => c.toNat)

instance {ε α : Type} [DecidableEq ε] [DecidableEq α] :
    DecidableEq (Except ε α) := fun x y =>
  match x, y with
  | .ok a, .ok b => if h : a = b then .isTrue (by rw [h]) else .isFalse (by simp [h])
  | .error a, .error b => if h : a = b then .isTrue (by rw [h]) else .isFalse (by simp [h])
  | .ok _, .error _ => .isFalse (by simp)
  | .error _, .ok _ => .isFalse (by simp)


/-! ## Claims C4, C6 and C7: quantifier suffixes, newline handling and
character-class validation -/

/-- Check that consecutive (lower, upper) pairs in a flattened character
class payload all satisfy lower <= upper. -/
def ccPairsOk : List Int → Bool
  | [] => true
  | lo :: hi :: rest => decide (lo ≤ hi) && ccPairsOk rest
  | _ => false

/-- Invariant of the ParseCharacterClass accumulator: every element with a
resolved upper bound satisfies lower <= upper. -/
def accPairsOk (acc : List (Int × Int)) : Bool :=
  acc.all (fun p => decide (p.2 = UNKNOWN_UPPER_BOUND) || decide (p.1 ≤ p.2))

theorem parseCCLoop_inv :
    ∀ (fuel : Nat) (st : ParserState) (acc : List (Int × Int)) (p1 p2 : Bool)
      (accR : List (Int × Int)) (st2 : ParserState),
      accPairsOk acc = true →
      parseCCLoop fuel st acc p1 p2 = .ok (accR, st2) →
      accPairsOk accR = true := by
  intro fuel
  induction fuel with
  | zero =>
    intro st acc p1 p2 accR st2 hacc h
    simp [parseCCLoop] at h
  | succ fuel ih =>
    intro st acc p1 p2 accR st2 hacc h
    simp only [parseCCLoop] at h
    split at h
    · simp only [Except.ok.injEq, Prod.mk.injEq] at h
      rw [← h.1]
      exact hacc
    · split at h
      · simp at h
      · split at h
        · exact ih _ _ _ _ _ _ hacc h
        · split at h
          · simp at h
          · split at h
            · -- the range-closing branch
              split at h
              · simp at h
              · rename_i lo x rest
                split at h <;> split at h <;>
                  first
                    | simp at h
                    | (refine ih _ _ _ _ _ _ ?_ h
                       simp only [accPairsOk, List.all_cons, Bool.and_eq_true] at hacc ⊢
                       refine ⟨?_, hacc.2⟩
                       simp only [Bool.or_eq_true, decide_eq_true_eq]
                       right
                       omega)
            · -- push a single character
              split at h <;>
                (refine ih _ _ _ _ _ _ ?_ h
                 simp only [accPairsOk, List.all_cons, Bool.and_eq_true]
                 refine ⟨?_, by simpa [accPairsOk] using hacc⟩
                 simp)

theorem fixup_all (acc : List (Int × Int)) (h : accPairsOk acc = true) :
    ((acc.reverse.map (fun p => if p.2 = UNKNOWN_UPPER_BOUND then (p.1, p.1) else p)).all
      (fun p => decide (p.1 ≤ p.2))) = true := by
  rw [List.all_map, List.all_reverse]
  simp only [accPairsOk, List.all_eq_true] at h ⊢
  intro p hp
  have hh := h p hp
  simp only [Bool.or_eq_true, decide_eq_true_eq] at hh
  rcases hh with hh | hh
  · simp [Function.comp, hh]
  · by_cases hu : p.2 = UNKNOWN_UPPER_BOUND <;> simp [Function.comp, hu, hh]

theorem flatten_pairsOk (elements : List (Int × Int))
    (h : elements.all (fun p => decide (p.1 ≤ p.2)) = true) :
    ccPairsOk ((elements.map (fun p => [p.1, p.2])).flatten) = true := by
  induction elements with
  | nil => rfl
  | cons e rest ih =>
    simp only [List.all_cons, Bool.and_eq_true, decide_eq_true_eq] at h
    simp only [List.map_cons, List.flatten_cons, List.cons_append, List.nil_append]
    show (decide (e.1 ≤ e.2) && ccPairsOk ((rest.map (fun p => [p.1, p.2])).flatten)) = true
    simp [h.1, ih h.2]

theorem getD_concat_length {α : Type} (l : List α) (x d : α) :
    (l ++ [x]).getD l.length d = x := by
  induction l with
  | nil => rfl
  | cons a l ih => simp only [List.getD]; exact ih


/-- Claim C7: a successful ParseCharacterClass run always stores a
character class with at least one range and no reversed range, and the
two concrete inputs with a reversed range and an empty class make the
whole parse fail with the corresponding errors. -/
theorem C7_invalid_char_class (st : ParserState) (exprId : Int) (st2 : ParserState)
    (h : ParseCharacterClass st = .ok (exprId, st2)) :
    ((st2.builder.GetGrammarExpr exprId).type = .kCharacterClass ∧
      (st2.builder.GetGrammarExpr exprId).data.tail ≠ [] ∧
      ccPairsOk (st2.builder.GetGrammarExpr exprId).data.tail = true) ∧
    DoParse (strInput "root ::= [b-a]") "root" =
      .error "Invalid character class: lower bound is larger than upper bound" ∧
    DoParse (strInput "root ::= []") "root" =
      .error "Invalid character class: empty class" := by
  refine ⟨?_, by decide, by decide⟩
  simp only [ParseCharacterClass] at h
  split at h
  · simp at h
  · rename_i accRev st2' heq
    split at h
    · simp at h
    · rename_i exprId0 b hAdd
      simp only [Except.ok.injEq, Prod.mk.injEq] at h
      obtain ⟨hid, hst⟩ := h
      simp only [BNFGrammarBuilder.AddCharacterClass] at hAdd
      split at hAdd
      · simp at hAdd
      · rename_i hne
        simp only [BNFGrammarBuilder.addRow, Except.ok.injEq, Prod.mk.injEq] at hAdd
        obtain ⟨hid0, hb⟩ := hAdd
        subst hst hid hid0 hb
        have hinv := parseCCLoop_inv _ _ _ _ _ _ _ (by rfl) heq
        have hall := fixup_all _ hinv
        have hflat := flatten_pairsOk _ hall
        simp only [ParserState.withBuilder, BNFGrammarBuilder.GetGrammarExpr,
          Int.toNat_ofNat, getD_concat_length, List.headD, List.tail]
        refine ⟨by simp [tagToType], ?_, hflat⟩
        rcases hel :
            accRev.reverse.map (fun q => if q.2 = UNKNOWN_UPPER_BOUND then (q.1, q.1) else q) with
          _ | ⟨e, es⟩
        · rw [hel] at hne
          simp at hne
        · rw [hel]
          simp


/-- Parser state positioned at the body of the character class a-z] (the
codepoints of the text with the appended terminator). -/
def ccWitnessState : ParserState := ⟨[97, 45, 122, 93, 0], 0, false, "", .empty⟩

/-- Resulting parser state of running ParseCharacterClass on
ccWitnessState. -/
def ccWitnessResult : ParserState :=
  ⟨[97, 45, 122, 93, 0], 3, false, "", ⟨[], [[1, 0, 97, 122]]⟩⟩

/-- Witness for C7_invalid_char_class at the concrete class a-z. -/
theorem C7_invalid_char_class_witness :
    (ccWitnessResult.builder.GetGrammarExpr 0).type = .kCharacterClass :=
  (C7_invalid_char_class ccWitnessState 0 ccWitnessResult (by decide)).1.1

/-- Claim C4 counterexample: the bounded repetition suffix "a"{2,3} is
not accepted by the parser: the whole parse fails with "Expect element"
(the open brace is not consumed as a quantifier, and no quantified
expression is produced), refuting the claim that the parser accepts the
bounded-repetition form. -/
theorem C4_counterexample_bounded_repetition :
    let quoteA := [114, 111, 111, 116, 32, 58, 58, 61, 32, 34, 97, 34]
    DoParse (quoteA ++ [123, 50, 44, 51, 125]) "root" = .error "Expect element" := by
  decide

/-- Claim C4 (amended): after an element the parser accepts exactly the
quantifier suffixes star, plus and question, materializing each as a
fresh rule (star: R ::= A R | empty, plus: R ::= A R | A, question:
R ::= A | empty, and a reference to R replaces the element); a bounded
repetition written with braces is rejected with a parse error. The four
concrete runs below exhibit all four behaviours. -/
theorem C4_quantifier_suffixes :
    DoParse (strInput "root ::= \"ab\"*") "root" =
      .ok ⟨[⟨"root", 7, -1⟩, ⟨"root_1", 4, -1⟩],
        [[0, 97, 98], [3, 1], [4, 0, 1], [2], [5, 2, 3], [3, 1], [4, 5], [5, 6]], 0⟩ ∧
    DoParse (strInput "root ::= \"a\"+") "root" =
      .ok ⟨[⟨"root", 6, -1⟩, ⟨"root_1", 3, -1⟩],
        [[0, 97], [3, 1], [4, 0, 1], [5, 2, 0], [3, 1], [4, 4], [5, 5]], 0⟩ ∧
    DoParse (strInput "root ::= \"a\"?") "root" =
      .ok ⟨[⟨"root", 5, -1⟩, ⟨"root_1", 2, -1⟩],
        [[0, 97], [2], [5, 0, 1], [3, 1], [4, 3], [5, 4]], 0⟩ ∧
    DoParse (strInput "root ::= \"a\"") "root" ≠
      DoParse ((strInput "root ::= \"a\"") ++ [123, 50, 44, 51, 125]) "root" ∧
    DoParse ((strInput "root ::= \"a\"") ++ [123, 50, 44, 51, 125]) "root" =
      .error "Expect element" := by
  refine ⟨by decide, by decide, by decide, by decide, by decide⟩

/-- Claim C6 counterexample: on the two-line input where the second line
starts with a bar, the parse succeeds with a single rule whose body is a
Choices of the two sequences from both lines: the bar after the newline
IS consumed as a continuation of the same rule's choices, refuting the
claim. -/
theorem C6_counterexample_newline_bar :
    DoParse (strInput "root ::= \"a\"\n| \"b\"\n") "root" =
      .ok ⟨[⟨"root", 4, -1⟩], [[0, 97], [4, 0], [0, 98], [4, 2], [5, 1, 3]], 0⟩ := by
  decide

/-- Claim C6 (amended): a top-level sequence never extends across a
newline (continuing the rule body with a bare element on the next line
fails, because the next line is parsed as a new rule), but ParseChoices
skips newlines before looking for a bar, so a bar at the start of the
next line does continue the same rule's choices: the second run produces
one rule whose body is a Choices expression with two children. -/
theorem C6_newline_handling :
    DoParse (strInput "root ::= \"a\"\n\"b\"") "root" = .error "Expect rule name" ∧
    (∃ g, DoParse (strInput "root ::= \"a\"\n| \"b\"\n") "root" = .ok g ∧
      g.NumRules = 1 ∧
      (g.GetGrammarExpr (g.GetRule 0).body_expr_id).type = .kChoices ∧
      (g.GetGrammarExpr (g.GetRule 0).body_expr_id).data.length = 2) := by
  refine ⟨by decide, ⟨⟨[⟨"root", 4, -1⟩], [[0, 97], [4, 0], [0, 98], [4, 2], [5, 1, 3]], 0⟩,
    by decide, by decide, by decide, by decide⟩⟩


/-! ## Claim C5: the star quantifier transformation -/

theorem modify_concat_length {α : Type} (l : List α) (x : α) (f : α → α) :
    (l ++ [x]).modify f l.length = l ++ [f x] := by
  induction l with
  | nil => rfl
  | cons a l ih => simpa [List.modify] using ih

theorem getD_append_length_add {α : Type} (l l2 : List α) (d : α) (k : Nat) :
    (l ++ l2).getD (l.length + k) d = l2.getD k d := by
  induction l with
  | nil => simp
  | cons a l ih => simpa [List.getD, Nat.succ_add] using ih

theorem getD_append_lt {α : Type} (l l2 : List α) (d : α) (k : Nat) (h : k < l.length) :
    (l ++ l2).getD k d = l.getD k d := by
  induction l generalizing k with
  | nil => simp at h
  | cons a l ih =>
    cases k with
    | zero => rfl
    | succ k =>
      simp only [List.length_cons] at h
      simpa [List.getD] using ih k (by omega)

end Xg

namespace Xg

/-- Claim C5: for every parser state and element expression id, if the
element is a character class then HandleStarQuantifier adds a dedicated
character-class-star expression with the same payload (and creates no
rule); otherwise it creates exactly one fresh rule R (with id equal to
the previous rule count, all existing rules unchanged) whose body is
Choices(Sequence(element, RuleRef(R)), EmptyStr), and returns a RuleRef
to R as the replacement of the starred element. -/
theorem C5_star_quantifier (st : ParserState) (ruleExprId : Int) :
    ((st.builder.GetGrammarExpr ruleExprId).type = .kCharacterClass →
      (HandleStarQuantifier st ruleExprId).2.builder.rules = st.builder.rules ∧
      (HandleStarQuantifier st ruleExprId).2.builder.GetGrammarExpr
          (HandleStarQuantifier st ruleExprId).1 =
        ⟨.kCharacterClassStar, (st.builder.GetGrammarExpr ruleExprId).data⟩) ∧
    ((st.builder.GetGrammarExpr ruleExprId).type ≠ .kCharacterClass →
      (HandleStarQuantifier st ruleExprId).2.builder.rules.length =
          st.builder.rules.length + 1 ∧
      (∀ i, i < st.builder.rules.length →
        (HandleStarQuantifier st ruleExprId).2.builder.rules.getD i ⟨"", -1, -1⟩ =
          st.builder.rules.getD i ⟨"", -1, -1⟩) ∧
      ((HandleStarQuantifier st ruleExprId).2.builder.GetGrammarExpr
          (HandleStarQuantifier st ruleExprId).1 =
        ⟨.kRuleRef, [(st.builder.rules.length : Int)]⟩) ∧
      ((HandleStarQuantifier st ruleExprId).2.builder.rules.getD
          st.builder.rules.length ⟨"", -1, -1⟩).body_expr_id =
        ((st.builder.grammar_expr_data.length : Int) + 3) ∧
      (HandleStarQuantifier st ruleExprId).2.builder.GetGrammarExpr
          ((st.builder.grammar_expr_data.length : Int) + 3) =
        ⟨.kChoices, [(st.builder.grammar_expr_data.length : Int) + 1,
          (st.builder.grammar_expr_data.length : Int) + 2]⟩ ∧
      (HandleStarQuantifier st ruleExprId).2.builder.GetGrammarExpr
          ((st.builder.grammar_expr_data.length : Int) + 1) =
        ⟨.kSequence, [ruleExprId, (st.builder.grammar_expr_data.length : Int)]⟩ ∧
      (HandleStarQuantifier st ruleExprId).2.builder.GetGrammarExpr
          ((st.builder.grammar_expr_data.length : Int)) =
        ⟨.kRuleRef, [(st.builder.rules.length : Int)]⟩ ∧
      (HandleStarQuantifier st ruleExprId).2.builder.GetGrammarExpr
          ((st.builder.grammar_expr_data.length : Int) + 2) =
        ⟨.kEmptyStr, []⟩) := by
  constructor
  · intro hcc
    simp only [HandleStarQuantifier, hcc, if_pos]
    constructor
    · rfl
    · simp only [BNFGrammarBuilder.AddGrammarExpr, BNFGrammarBuilder.addRow,
        BNFGrammarBuilder.GetGrammarExpr, ParserState.withBuilder, Int.toNat_ofNat,
        getD_concat_length]
      rfl
  · intro hcc
    have hmain : HandleStarQuantifier st ruleExprId =
        ((st.builder.grammar_expr_data.length : Int) + 4,
         { st with builder :=
            ⟨st.builder.rules ++
              [⟨st.curRuleName ++ "_" ++ toString st.builder.rules.length,
                (st.builder.grammar_expr_data.length : Int) + 3, -1⟩],
             st.builder.grammar_expr_data ++
              [[3, (st.builder.rules.length : Int)],
               [4, ruleExprId, (st.builder.grammar_expr_data.length : Int)],
               [2],
               [5, (st.builder.grammar_expr_data.length : Int) + 1,
                (st.builder.grammar_expr_data.length : Int) + 2],
               [3, (st.builder.rules.length : Int)]]⟩ }) := by
      simp only [HandleStarQuantifier]
      rw [if_neg hcc]
      simp only [BNFGrammarBuilder.GetNewRuleName, BNFGrammarBuilder.AddEmptyRule,
        BNFGrammarBuilder.AddRuleRef, BNFGrammarBuilder.AddSequence,
        BNFGrammarBuilder.AddEmptyStr, BNFGrammarBuilder.AddChoices,
        BNFGrammarBuilder.UpdateRuleBody, BNFGrammarBuilder.addRow,
        ParserState.withBuilder, Int.toNat_ofNat]
      rw [modify_concat_length]
      simp [List.append_assoc]
    rw [hmain]
    have h0 : ((st.builder.grammar_expr_data.length : Int)).toNat
        = st.builder.grammar_expr_data.length + 0 := by omega
    have h1 : ((st.builder.grammar_expr_data.length : Int) + 1).toNat
        = st.builder.grammar_expr_data.length + 1 := by omega
    have h2 : ((st.builder.grammar_expr_data.length : Int) + 2).toNat
        = st.builder.grammar_expr_data.length + 2 := by omega
    have h3 : ((st.builder.grammar_expr_data.length : Int) + 3).toNat
        = st.builder.grammar_expr_data.length + 3 := by omega
    have h4 : ((st.builder.grammar_expr_data.length : Int) + 4).toNat
        = st.builder.grammar_expr_data.length + 4 := by omega
    refine ⟨by simp, ?_, ?_, ?_, ?_, ?_, ?_, ?_⟩
    · intro i hi
      exact getD_append_lt _ _ _ _ hi
    · simp only [BNFGrammarBuilder.GetGrammarExpr, h4, getD_append_length_add]
      rfl
    · rw [getD_concat_length]
    · simp only [BNFGrammarBuilder.GetGrammarExpr, h3, getD_append_length_add]
      rfl
    · simp only [BNFGrammarBuilder.GetGrammarExpr, h1, getD_append_length_add]
      rfl
    · simp only [BNFGrammarBuilder.GetGrammarExpr, h0, getD_append_length_add]
      rfl
    · simp only [BNFGrammarBuilder.GetGrammarExpr, h2, getD_append_length_add]
      rfl


/-- Parser state holding one character-class expression, for the witness. -/
def c5CharClassState : ParserState := ⟨[], 0, false, "r", ⟨[], [[1, 0, 97, 122]]⟩⟩

/-- Parser state holding one byte-string expression, for the witness. -/
def c5ByteStringState : ParserState := ⟨[], 0, false, "r", ⟨[], [[0, 97]]⟩⟩

/-- Witness for C5_star_quantifier: both branches applied at concrete
one-expression builder states. -/
theorem C5_star_quantifier_witness :
    (HandleStarQuantifier c5CharClassState 0).2.builder.GetGrammarExpr
        (HandleStarQuantifier c5CharClassState 0).1 =
      ⟨.kCharacterClassStar, [0, 97, 122]⟩ ∧
    (HandleStarQuantifier c5ByteStringState 0).2.builder.GetGrammarExpr
        (HandleStarQuantifier c5ByteStringState 0).1 =
      ⟨.kRuleRef, [(0 : Int)]⟩ :=
  ⟨((C5_star_quantifier c5CharClassState 0).1 (by decide)).2,
   ((C5_star_quantifier c5ByteStringState 0).2 (by decide)).2.2.1⟩

/-! ## Grammar functors and the normalizer (src/cpp/grammar_functor.h and
src/cpp/grammar_functor.cc)

The visitors recurse through expression ids stored in the CSR payloads;
in every grammar the builder produces, children have strictly smaller ids
than their parents, so running the embedded visitors with fuel larger
than the expression count reproduces the C++ recursion exactly (fuel
exhaustion is reported as the distinguished "out of fuel" error, which no
terminating C++ run produces). -/

/-- Root rule accessor (BNFGrammar::Impl::GetRootRule). -/
def BNFGrammar.GetRootRule (g : BNFGrammar) : Rule :=
  g.rules.getD g.root_rule_id.toNat ⟨"", -1, -1⟩

/-- Value of static_cast of int32_t over a char holding byte b (char is
signed in the reference toolchain): bytes at least 128 wrap to negative
values. Used by SingleElementExprEliminator::VisitCharacterClass, which
pushes the UTF-8 bytes through a plain char. -/
def signedByte (b : Nat) : Int :=
  if b < 128 then (b : Int) else (b : Int) - 256

/-- Embedding of SingleElementExprEliminator's expression visit
(grammar_functor.cc): the generic BNFGrammarMutator dispatch with the
overridden VisitSequence, VisitChoices and VisitCharacterClass. The
unhandled kCharacterClassStar tag hits the FATAL default of
BNFGrammarMutator::VisitExpr. -/
def seeVisitExpr (g : BNFGrammar) : Nat → BNFGrammarBuilder → Int →
    Except String (Int × BNFGrammarBuilder)
  | 0, _, _ => .error "out of fuel"
  | fuel + 1, b, exprId =>
    let e := g.GetGrammarExpr exprId
    match e.type with
    | .kSequence => do
      let r ← e.data.foldlM
        (fun (acc : List Int × BNFGrammarBuilder) i => do
          let (nid, b2) ← seeVisitExpr g fuel acc.2 i
          pure (acc.1 ++ [nid], b2)) ([], b)
      if r.1.length = 1 then pure (r.1.headD (-1), r.2)
      else pure (r.2.AddSequence r.1)
    | .kChoices => do
      let r ← e.data.foldlM
        (fun (acc : List Int × BNFGrammarBuilder) i => do
          let (nid, b2) ← seeVisitExpr g fuel acc.2 i
          pure (acc.1 ++ [nid], b2)) ([], b)
      if r.1.length = 1 then pure (r.1.headD (-1), r.2)
      else pure (r.2.AddChoices r.1)
    | .kCharacterClass =>
      if e.data.length = 3 ∧ e.data.getD 0 0 = 0 ∧
          e.data.getD 1 0 = e.data.getD 2 0 then
        pure (b.AddByteString
          ((PrintAsUTF8 (e.data.getD 1 0).toNat).map signedByte))
      else pure (b.AddGrammarExpr e)
    | .kEmptyStr => pure (b.AddGrammarExpr e)
    | .kByteString => pure (b.AddGrammarExpr e)
    | .kRuleRef => pure (b.AddGrammarExpr e)
    | .kStarQuantifier => do
      let (nid, b2) ← seeVisitExpr g fuel b (e.data.getD 0 0)
      pure (b2.AddQuantifier nid .kStarQuantifier)
    | .kPlusQuantifier => do
      let (nid, b2) ← seeVisitExpr g fuel b (e.data.getD 0 0)
      pure (b2.AddQuantifier nid .kPlusQuantifier)
    | .kQuestionQuantifier => do
      let (nid, b2) ← seeVisitExpr g fuel b (e.data.getD 0 0)
      pure (b2.AddQuantifier nid .kQuestionQuantifier)
    | .kQuantifierRange => do
      let (nid, b2) ← seeVisitExpr g fuel b (e.data.getD 0 0)
      pure (b2.AddQuantifierRange nid (e.data.getD 1 0) (e.data.getD 2 0))
    | .kCharacterClassStar => .error "Unexpected grammar expr type"

/-- Embedding of SingleElementExprEliminator::VisitLookaheadAssertion:
keep the sequence wrapper (no single-element elimination), after checking
the asserted expression is a sequence. -/
def seeVisitLookahead (g : BNFGrammar) (fuel : Nat) (b : BNFGrammarBuilder)
    (lookaheadId : Int) : Except String (Int × BNFGrammarBuilder) :=
  if lookaheadId = -1 then .ok (-1, b)
  else
    let e := g.GetGrammarExpr lookaheadId
    if e.type ≠ .kSequence then .error "lookahead assertion must be a sequence"
    else do
      let r ← e.data.foldlM
        (fun (acc : List Int × BNFGrammarBuilder) i => do
          let (nid, b2) ← seeVisitExpr g fuel acc.2 i
          pure (acc.1 ++ [nid], b2)) ([], b)
      pure (r.2.AddSequence r.1)

/-- One body-update step of BNFGrammarMutator::Apply on rule i: visit the
body, update it, then visit and store the lookahead assertion. -/
def mutatorStep
    (visit : String → BNFGrammarBuilder → Int →
      Except String (Int × BNFGrammarBuilder))
    (visitLookahead : BNFGrammarBuilder → Int →
      Except String (Int × BNFGrammarBuilder))
    (g : BNFGrammar) (b : BNFGrammarBuilder) (i : Nat) :
    Except String BNFGrammarBuilder := do
  let r1 ← visit (g.GetRule i).name b (g.GetRule i).body_expr_id
  let b2 := r1.2.UpdateRuleBody i r1.1
  let r2 ← visitLookahead b2 (g.GetRule i).lookahead_assertion_id
  pure (r2.2.AddLookaheadAssertion i r2.1)

/-- Embedding of the skeleton of BNFGrammarMutator::Apply (and of
NestedRuleUnwrapper::Apply, which repeats it verbatim): first add one
empty rule per input rule so the new rule ids coincide with the old ones,
then update every rule body and lookahead through the pass's visit
functions, then freeze at the input root rule's name. -/
def mutatorApply
    (visit : String → BNFGrammarBuilder → Int →
      Except String (Int × BNFGrammarBuilder))
    (visitLookahead : BNFGrammarBuilder → Int →
      Except String (Int × BNFGrammarBuilder))
    (g : BNFGrammar) : Except String BNFGrammar := do
  let b0 := (List.range g.NumRules).foldl
    (fun b i => (b.AddEmptyRule (g.GetRule i).name).2) BNFGrammarBuilder.empty
  let b3 ← (List.range g.NumRules).foldlM (mutatorStep visit visitLookahead g) b0
  pure (b3.Get g.GetRootRule.name)

/-- Embedding of SingleElementExprEliminator::Apply (the inherited
BNFGrammarMutator::Apply with the overridden visitors). -/
def SingleElementExprEliminatorApply (g : BNFGrammar) :
    Except String BNFGrammar :=
  mutatorApply (fun _ b e => seeVisitExpr g (g.grammar_expr_data.length + 1) b e)
    (seeVisitLookahead g (g.grammar_expr_data.length + 1)) g

/-- Loop body of NestedRuleUnwrapper::VisitChoices_, parameterized by the
recursive visitors (applied at one smaller fuel). The accumulator carries
the collected choice ids, the found_empty flag and the builder. -/
def nruChoiceStep (g : BNFGrammar)
    (recC recS : BNFGrammarBuilder → GrammarExpr →
      Except String (List Int × BNFGrammarBuilder))
    (acc : List Int × Bool × BNFGrammarBuilder) (i : Int) :
    Except String (List Int × Bool × BNFGrammarBuilder) :=
  let choiceExpr := g.GetGrammarExpr i
  match choiceExpr.type with
  | .kSequence =>
    -- VisitSequenceInChoices
    match recS acc.2.2 choiceExpr with
    | .error e => .error e
    | .ok (subIds, b2) =>
      if subIds.length = 0 then .ok (acc.1, true, b2)
      else
        let r2 := b2.AddSequence subIds
        .ok (acc.1 ++ [r2.1], acc.2.1, r2.2)
  | .kChoices =>
    -- VisitChoicesInChoices
    match recC acc.2.2 choiceExpr with
    | .error e => .error e
    | .ok ([], _) => .error "internal invariant"
    | .ok (firstId :: restIds, b2) =>
      if (b2.GetGrammarExpr firstId).type = .kEmptyStr then
        .ok (acc.1 ++ restIds, true, b2)
      else .ok (acc.1 ++ (firstId :: restIds), acc.2.1, b2)
  | .kEmptyStr => .ok (acc.1, true, acc.2.2)
  | .kByteString =>
    -- VisitElementInChoices
    let r1 := acc.2.2.AddGrammarExpr choiceExpr
    let r2 := r1.2.AddSequence [r1.1]
    .ok (acc.1 ++ [r2.1], acc.2.1, r2.2)
  | .kCharacterClass =>
    let r1 := acc.2.2.AddGrammarExpr choiceExpr
    let r2 := r1.2.AddSequence [r1.1]
    .ok (acc.1 ++ [r2.1], acc.2.1, r2.2)
  | .kCharacterClassStar =>
    let r1 := acc.2.2.AddGrammarExpr choiceExpr
    let r2 := r1.2.AddSequence [r1.1]
    .ok (acc.1 ++ [r2.1], acc.2.1, r2.2)
  | .kRuleRef =>
    let r1 := acc.2.2.AddGrammarExpr choiceExpr
    let r2 := r1.2.AddSequence [r1.1]
    .ok (acc.1 ++ [r2.1], acc.2.1, r2.2)
  | _ => .error "Unexpected choice type"

/-- Loop body of NestedRuleUnwrapper::VisitSequence_, parameterized by
the recursive visitors (applied at one smaller fuel). -/
def nruSequenceStep (g : BNFGrammar) (ruleName : String)
    (recC recS : BNFGrammarBuilder → GrammarExpr →
      Except String (List Int × BNFGrammarBuilder))
    (acc : List Int × BNFGrammarBuilder) (i : Int) :
    Except String (List Int × BNFGrammarBuilder) :=
  let elementExpr := g.GetGrammarExpr i
  match elementExpr.type with
  | .kSequence =>
    -- VisitSequenceInSequence
    match recS acc.2 elementExpr with
    | .error e => .error e
    | .ok (subIds, b2) => .ok (acc.1 ++ subIds, b2)
  | .kChoices =>
    -- VisitChoiceInSequence
    match recC acc.2 elementExpr with
    | .error e => .error e
    | .ok ([soleId], b2) =>
      let choiceElementExpr := b2.GetGrammarExpr soleId
      if choiceElementExpr.type ≠ .kEmptyStr then
        .ok (acc.1 ++ choiceElementExpr.data, b2)
      else .ok (acc.1, b2)
    | .ok (subIds, b2) =>
      let r1 := b2.AddChoices subIds
      let r2 := r1.2.AddRuleWithHint (ruleName ++ "_choice") r1.1
      let r3 := r2.2.AddRuleRef r2.1
      .ok (acc.1 ++ [r3.1], r3.2)
  | .kEmptyStr => .ok acc
  | .kByteString =>
    let r1 := acc.2.AddGrammarExpr elementExpr
    .ok (acc.1 ++ [r1.1], r1.2)
  | .kCharacterClass =>
    let r1 := acc.2.AddGrammarExpr elementExpr
    .ok (acc.1 ++ [r1.1], r1.2)
  | .kCharacterClassStar =>
    let r1 := acc.2.AddGrammarExpr elementExpr
    .ok (acc.1 ++ [r1.1], r1.2)
  | .kRuleRef =>
    let r1 := acc.2.AddGrammarExpr elementExpr
    .ok (acc.1 ++ [r1.1], r1.2)
  | _ => .error "Unexpected sequence type"

mutual

/-- Embedding of NestedRuleUnwrapper::VisitChoices_: flatten nested
choices, hoist an empty string to the front, and error (the FATAL
default) on quantifier tags. -/
def nruVisitChoices (g : BNFGrammar) (ruleName : String) :
    Nat → BNFGrammarBuilder → GrammarExpr →
      Except String (List Int × BNFGrammarBuilder)
  | 0, _, _ => .error "out of fuel"
  | fuel + 1, b, e => do
    let r ← e.data.foldlM
      (nruChoiceStep g (nruVisitChoices g ruleName fuel)
        (nruVisitSequence g ruleName fuel)) ([], false, b)
    let withEmpty :=
      if r.2.1 then
        let re := r.2.2.AddEmptyStr
        (re.1 :: r.1, re.2)
      else (r.1, r.2.2)
    if withEmpty.1.length = 0 then .error "internal invariant"
    else pure withEmpty

/-- Embedding of NestedRuleUnwrapper::VisitSequence_: splice nested
sequences, drop empty strings, extract multi-alternative nested choices
into fresh rules, and error (the FATAL default) on quantifier tags. -/
def nruVisitSequence (g : BNFGrammar) (ruleName : String) :
    Nat → BNFGrammarBuilder → GrammarExpr →
      Except String (List Int × BNFGrammarBuilder)
  | 0, _, _ => .error "out of fuel"
  | fuel + 1, b, e =>
    e.data.foldlM
      (nruSequenceStep g ruleName (nruVisitChoices g ruleName fuel)
        (nruVisitSequence g ruleName fuel)) ([], b)

end

/-- Embedding of NestedRuleUnwrapper::VisitRuleBody. -/
def nruVisitRuleBody (g : BNFGrammar) (fuel : Nat) (ruleName : String)
    (b : BNFGrammarBuilder) (bodyExprId : Int) :
    Except String (Int × BNFGrammarBuilder) :=
  let e := g.GetGrammarExpr bodyExprId
  match e.type with
  | .kSequence => do
    let (ids, b2) ← nruVisitSequence g ruleName fuel b e
    let r1 := b2.AddSequence ids
    pure (r1.2.AddChoices [r1.1])
  | .kChoices => do
    let (ids, b2) ← nruVisitChoices g ruleName fuel b e
    pure (b2.AddChoices ids)
  | .kEmptyStr =>
    let r1 := b.AddEmptyStr
    pure (r1.2.AddChoices [r1.1])
  | .kByteString =>
    let r1 := b.AddGrammarExpr e
    let r2 := r1.2.AddSequence [r1.1]
    pure (r2.2.AddChoices [r2.1])
  | .kCharacterClass =>
    let r1 := b.AddGrammarExpr e
    let r2 := r1.2.AddSequence [r1.1]
    pure (r2.2.AddChoices [r2.1])
  | .kCharacterClassStar =>
    let r1 := b.AddGrammarExpr e
    let r2 := r1.2.AddSequence [r1.1]
    pure (r2.2.AddChoices [r2.1])
  | .kRuleRef =>
    let r1 := b.AddGrammarExpr e
    let r2 := r1.2.AddSequence [r1.1]
    pure (r2.2.AddChoices [r2.1])
  | _ => .error "Unexpected sequence type"

/-- Embedding of NestedRuleUnwrapper::VisitLookaheadAssertion: rebuild
the sequence through VisitSequence_. -/
def nruVisitLookahead (g : BNFGrammar) (fuel : Nat) (b : BNFGrammarBuilder)
    (lookaheadId : Int) : Except String (Int × BNFGrammarBuilder) :=
  if lookaheadId = -1 then .ok (-1, b)
  else do
    let (ids, b2) ← nruVisitSequence g "" fuel b (g.GetGrammarExpr lookaheadId)
    pure (b2.AddSequence ids)

/-- Embedding of NestedRuleUnwrapper::Apply (the same two-loop skeleton
as BNFGrammarMutator::Apply, with VisitRuleBody for the bodies). -/
def NestedRuleUnwrapperApply (g : BNFGrammar) : Except String BNFGrammar :=
  mutatorApply
    (fun name b e => nruVisitRuleBody g (g.grammar_expr_data.length + 1) name b e)
    (nruVisitLookahead g (g.grammar_expr_data.length + 1)) g

/-- Embedding of BNFGrammarNormalizer::GetNormalizerList: the documented
normalizer pipeline, SingleElementExprEliminator followed by
NestedRuleUnwrapper, to be applied one by one. -/
def GetNormalizerList : List (BNFGrammar → Except String BNFGrammar) :=
  [SingleElementExprEliminatorApply, NestedRuleUnwrapperApply]

/-- Embedding of BNFGrammarNormalizer::Apply as written: it applies only
SingleElementExprEliminator and ignores GetNormalizerList. -/
def BNFGrammarNormalizerApply (g : BNFGrammar) : Except String BNFGrammar :=
  SingleElementExprEliminatorApply g

/-- Embedding of Grammar::FromEBNF (grammar.cc): parse, then run the
normalizer. -/
def FromEBNF (input : List Nat) (rootRule : String) :
    Except String BNFGrammar := do
  let g ← DoParse input rootRule
  BNFGrammarNormalizerApply g

/-- Claim C2: on the input with one rule whose body is the string "a",
the normalizer as invoked by Grammar::FromEBNF produces a rule whose body
expression is a plain ByteString, not a Choices of Sequences: the
normalizer's Apply runs only SingleElementExprEliminator (which unwraps
the single-element Choices and Sequence) and never runs
NestedRuleUnwrapper, although GetNormalizerList documents the pipeline as
both passes applied one by one; applying the documented pipeline instead
does yield the claimed Choices-of-Sequences body. -/
theorem C2_normalizer_skips_unwrapper :
    FromEBNF (strInput "root ::= \"a\"") "root" =
      .ok ⟨[⟨"root", 0, -1⟩], [[0, 97]], 0⟩ ∧
    (BNFGrammar.GetGrammarExpr ⟨[⟨"root", 0, -1⟩], [[0, 97]], 0⟩ 0).type =
      .kByteString ∧
    GrammarExprType.kByteString ≠ .kChoices ∧
    (DoParse (strInput "root ::= \"a\"") "root").bind
        (fun g => GetNormalizerList.foldlM (fun g2 f => f g2) g) =
      .ok ⟨[⟨"root", 2, -1⟩], [[0, 97], [4, 0], [5, 1]], 0⟩ ∧
    (BNFGrammar.GetGrammarExpr
        ⟨[⟨"root", 2, -1⟩], [[0, 97], [4, 0], [5, 1]], 0⟩ 2).type =
      .kChoices ∧
    (BNFGrammar.GetGrammarExpr
        ⟨[⟨"root", 2, -1⟩], [[0, 97], [4, 0], [5, 1]], 0⟩ 1).type =
      .kSequence := by
  refine ⟨by decide, by decide, by decide, by decide, by decide, by decide⟩

end Xg

namespace Xg

/-! ## Claim C9: rule identity preservation by the mutator skeleton -/

theorem except_bind_ok {ε α β : Type} (a : α) (f : α → Except ε β) :
    (Except.ok a >>= f) = f a := rfl

theorem except_bind_err {ε α β : Type} (e : ε) (f : α → Except ε β) :
    ((Except.error e : Except ε α) >>= f) = .error e := rfl

theorem length_modify {α : Type} (l : List α) (f : α → α) (i : Nat) :
    (l.modify f i).length = l.length := by
  induction l generalizing i with
  | nil => cases i <;> rfl
  | cons a l ih =>
    cases i with
    | zero => simp [List.modify]
    | succ i => simpa [List.modify] using ih i

theorem modify_name_preserved (l : List Rule) (i j : Nat) (f : Rule → Rule)
    (d : Rule) (hf : ∀ r, (f r).name = r.name) :
    ((l.modify f i).getD j d).name = (l.getD j d).name := by
  induction l generalizing i j with
  | nil => cases i <;> rfl
  | cons a l ih =>
    cases i with
    | zero =>
      cases j with
      | zero => simpa [List.modify, List.getD] using hf a
      | succ j => simp [List.modify, List.getD]
    | succ i =>
      cases j with
      | zero => simp [List.modify, List.getD]
      | succ j => simpa [List.modify, List.getD] using ih i j

theorem emptyRulesLoop (g : BNFGrammar) :
    ∀ (idxs : List Nat) (b : BNFGrammarBuilder),
      (idxs.foldl (fun b2 i => (b2.AddEmptyRule (g.GetRule i).name).2) b).rules =
        b.rules ++ idxs.map (fun i => ⟨(g.GetRule i).name, -1, -1⟩) := by
  intro idxs
  induction idxs with
  | nil => intro b; simp
  | cons i idxs ih =>
    intro b
    simp only [List.foldl_cons, List.map_cons]
    rw [ih]
    simp [BNFGrammarBuilder.AddEmptyRule]

theorem getD_map_range {α : Type} (n i : Nat) (f : Nat → α) (d : α) (h : i < n) :
    (((List.range n).map f).getD i d) = f i := by
  rw [List.getD_eq_getElem?_getD, List.getElem?_map, List.getElem?_range h]
  rfl

/-- Invariant carried through the body-update loop of the mutator
skeleton: the builder has at least n rules and the first n keep the input
grammar's rule names. -/
def mutatorInv (g : BNFGrammar) (n : Nat) (b : BNFGrammarBuilder) : Prop :=
  n ≤ b.rules.length ∧
  ∀ i, i < n → (b.rules.getD i ⟨"", -1, -1⟩).name = (g.GetRule i).name

theorem mutatorInv_append (g : BNFGrammar) (n : Nat) (b : BNFGrammarBuilder)
    (rules2 : List Rule) (data2 : List (List Int)) (t : List Rule)
    (hinv : mutatorInv g n b) (ht : rules2 = b.rules ++ t) :
    mutatorInv g n ⟨rules2, data2⟩ := by
  obtain ⟨hlen, hnames⟩ := hinv
  subst ht
  constructor
  · simp only [List.length_append]
    omega
  · intro i hi
    rw [getD_append_lt _ _ _ _ (by omega)]
    exact hnames i hi

theorem mutatorInv_modify (g : BNFGrammar) (n : Nat) (rules : List Rule)
    (data : List (List Int)) (i : Nat) (f : Rule → Rule)
    (hf : ∀ r, (f r).name = r.name)
    (hinv : mutatorInv g n ⟨rules, data⟩) (data2 : List (List Int)) :
    mutatorInv g n ⟨rules.modify f i, data2⟩ := by
  obtain ⟨hlen, hnames⟩ := hinv
  constructor
  · simpa [length_modify] using hlen
  · intro j hj
    rw [modify_name_preserved _ _ _ _ _ hf]
    exact hnames j hj

theorem mutatorStep_inv
    (visit : String → BNFGrammarBuilder → Int → Except String (Int × BNFGrammarBuilder))
    (visitLookahead : BNFGrammarBuilder → Int → Except String (Int × BNFGrammarBuilder))
    (g : BNFGrammar) (n : Nat) (b b' : BNFGrammarBuilder) (i : Nat)
    (hv : ∀ name bb e r, visit name bb e = .ok r → ∃ t, r.2.rules = bb.rules ++ t)
    (hl : ∀ bb e r, visitLookahead bb e = .ok r → ∃ t, r.2.rules = bb.rules ++ t)
    (hstep : mutatorStep visit visitLookahead g b i = .ok b')
    (hinv : mutatorInv g n b) : mutatorInv g n b' := by
  simp only [mutatorStep] at hstep
  cases hv1 : visit (g.GetRule i).name b (g.GetRule i).body_expr_id with
  | error e =>
    rw [hv1, except_bind_err] at hstep
    simp at hstep
  | ok r1 =>
    rw [hv1, except_bind_ok] at hstep
    cases hl1 : visitLookahead (r1.2.UpdateRuleBody i r1.1)
        (g.GetRule i).lookahead_assertion_id with
    | error e =>
      rw [hl1, except_bind_err] at hstep
      simp at hstep
    | ok r2 =>
      rw [hl1, except_bind_ok] at hstep
      simp only [pure, Except.pure, Except.ok.injEq] at hstep
      obtain ⟨t1, ht1⟩ := hv _ _ _ _ hv1
      obtain ⟨t2, ht2⟩ := hl _ _ _ hl1
      have hinv1 : mutatorInv g n r1.2 :=
        mutatorInv_append g n b r1.2.rules r1.2.grammar_expr_data t1 hinv ht1
      have hinv2 : mutatorInv g n (r1.2.UpdateRuleBody i r1.1) := by
        simp only [BNFGrammarBuilder.UpdateRuleBody]
        exact mutatorInv_modify g n r1.2.rules r1.2.grammar_expr_data i
          (fun r => ⟨r.name, r1.1, r.lookahead_assertion_id⟩) (fun r => rfl) hinv1 _
      have hinv3 : mutatorInv g n r2.2 :=
        mutatorInv_append g n _ r2.2.rules r2.2.grammar_expr_data t2 hinv2 ht2
      rw [← hstep]
      simp only [BNFGrammarBuilder.AddLookaheadAssertion]
      exact mutatorInv_modify g n r2.2.rules r2.2.grammar_expr_data i
        (fun r => ⟨r.name, r.body_expr_id, r2.1⟩) (fun r => rfl) hinv3 _

theorem foldlM_mutatorStep_inv
    (visit : String → BNFGrammarBuilder → Int → Except String (Int × BNFGrammarBuilder))
    (visitLookahead : BNFGrammarBuilder → Int → Except String (Int × BNFGrammarBuilder))
    (g : BNFGrammar) (n : Nat)
    (hv : ∀ name bb e r, visit name bb e = .ok r → ∃ t, r.2.rules = bb.rules ++ t)
    (hl : ∀ bb e r, visitLookahead bb e = .ok r → ∃ t, r.2.rules = bb.rules ++ t) :
    ∀ (idxs : List Nat) (b b3 : BNFGrammarBuilder),
      mutatorInv g n b →
      idxs.foldlM (mutatorStep visit visitLookahead g) b = .ok b3 →
      mutatorInv g n b3 := by
  intro idxs
  induction idxs with
  | nil =>
    intro b b3 hinv h
    simp only [List.foldlM_nil, pure, Except.pure, Except.ok.injEq] at h
    rw [← h]
    exact hinv
  | cons i idxs ih =>
    intro b b3 hinv h
    rw [List.foldlM_cons] at h
    cases hstep : mutatorStep visit visitLookahead g b i with
    | error e =>
      rw [hstep, except_bind_err] at h
      simp at h
    | ok b1 =>
      rw [hstep, except_bind_ok] at h
      exact ih b1 b3
        (mutatorStep_inv visit visitLookahead g n b b1 i hv hl hstep hinv) h

/-- Generic rule-identity preservation of the mutator skeleton: shared
kernel of the C9 claim theorem. -/
theorem mutatorApply_rule_identity
    (visit : String → BNFGrammarBuilder → Int → Except String (Int × BNFGrammarBuilder))
    (visitLookahead : BNFGrammarBuilder → Int → Except String (Int × BNFGrammarBuilder))
    (g g2 : BNFGrammar)
    (hv : ∀ name bb e r, visit name bb e = .ok r → ∃ t, r.2.rules = bb.rules ++ t)
    (hl : ∀ bb e r, visitLookahead bb e = .ok r → ∃ t, r.2.rules = bb.rules ++ t)
    (happ : mutatorApply visit visitLookahead g = .ok g2) :
    g.NumRules ≤ g2.NumRules ∧
    ∀ i, i < g.NumRules → (g2.GetRule i).name = (g.GetRule i).name := by
  simp only [mutatorApply] at happ
  have hb0 : ((List.range g.NumRules).foldl
      (fun b i => (b.AddEmptyRule (g.GetRule i).name).2) BNFGrammarBuilder.empty).rules =
      (List.range g.NumRules).map (fun i => ⟨(g.GetRule i).name, -1, -1⟩) := by
    rw [emptyRulesLoop]
    simp [BNFGrammarBuilder.empty]
  have hinv0 : mutatorInv g g.NumRules
      ((List.range g.NumRules).foldl
        (fun b i => (b.AddEmptyRule (g.GetRule i).name).2) BNFGrammarBuilder.empty) := by
    constructor
    · rw [hb0]
      simp
    · intro i hi
      rw [hb0, getD_map_range _ _ _ _ hi]
  cases hf : (List.range g.NumRules).foldlM (mutatorStep visit visitLookahead g)
      ((List.range g.NumRules).foldl
        (fun b i => (b.AddEmptyRule (g.GetRule i).name).2) BNFGrammarBuilder.empty) with
  | error e =>
    rw [hf, except_bind_err] at happ
    simp at happ
  | ok b3 =>
    rw [hf, except_bind_ok] at happ
    simp only [pure, Except.pure, Except.ok.injEq] at happ
    have hinv3 := foldlM_mutatorStep_inv visit visitLookahead g g.NumRules hv hl
      _ _ _ hinv0 hf
    obtain ⟨hlen, hnames⟩ := hinv3
    rw [← happ]
    constructor
    · simpa [BNFGrammarBuilder.Get, BNFGrammar.NumRules] using hlen
    · intro i hi
      simpa [BNFGrammarBuilder.Get, BNFGrammar.GetRule] using hnames i hi

/-- Builder extension: the rule table only grows by appending. -/
def rulesExt (b b2 : BNFGrammarBuilder) : Prop :=
  ∃ t, b2.rules = b.rules ++ t

theorem rulesExt_of_eq {b b2 : BNFGrammarBuilder} (h : b2.rules = b.rules) :
    rulesExt b b2 := ⟨[], by simp [h]⟩

theorem rulesExt_trans {a b c : BNFGrammarBuilder} (h1 : rulesExt a b)
    (h2 : rulesExt b c) : rulesExt a c := by
  obtain ⟨t1, h1⟩ := h1
  obtain ⟨t2, h2⟩ := h2
  exact ⟨t1 ++ t2, by rw [h2, h1, List.append_assoc]⟩

theorem seeFold_rules (g : BNFGrammar) (fuel : Nat)
    (hIH : ∀ b e r, seeVisitExpr g fuel b e = .ok r → r.2.rules = b.rules) :
    ∀ (ds : List Int) (acc accR : List Int × BNFGrammarBuilder),
      ds.foldlM (fun (acc2 : List Int × BNFGrammarBuilder) i => do
        let (nid, b2) ← seeVisitExpr g fuel acc2.2 i
        pure (acc2.1 ++ [nid], b2)) acc = .ok accR →
      accR.2.rules = acc.2.rules := by
  intro ds
  induction ds with
  | nil =>
    intro acc accR h
    simp only [List.foldlM_nil, pure, Except.pure, Except.ok.injEq] at h
    rw [← h]
  | cons i ds ih =>
    intro acc accR h
    rw [List.foldlM_cons] at h
    cases hx : seeVisitExpr g fuel acc.2 i with
    | error e =>
      rw [hx] at h
      simp [except_bind_err] at h
    | ok p =>
      rw [hx] at h
      obtain ⟨nid, b2⟩ := p
      simp only [except_bind_ok, pure, Except.pure] at h
      have := ih _ _ h
      rw [this]
      exact hIH _ _ _ hx

theorem seeVisitExpr_rules (g : BNFGrammar) :
    ∀ (fuel : Nat) (b : BNFGrammarBuilder) (e : Int) (r : Int × BNFGrammarBuilder),
      seeVisitExpr g fuel b e = .ok r → r.2.rules = b.rules := by
  intro fuel
  induction fuel with
  | zero =>
    intro b e r h
    simp [seeVisitExpr] at h
  | succ fuel ih =>
    intro b e r h
    simp only [seeVisitExpr] at h
    split at h
    · -- kSequence
      cases hf : (g.GetGrammarExpr e).data.foldlM
          (fun (acc2 : List Int × BNFGrammarBuilder) i => do
            let (nid, b2) ← seeVisitExpr g fuel acc2.2 i
            pure (acc2.1 ++ [nid], b2)) ([], b) with
      | error er => rw [hf, except_bind_err] at h; simp at h
      | ok p =>
        rw [hf, except_bind_ok] at h
        have hp := seeFold_rules g fuel ih _ _ _ hf
        split at h <;>
          (simp only [pure, Except.pure, Except.ok.injEq] at h
           rw [← h]
           simpa [BNFGrammarBuilder.AddSequence, BNFGrammarBuilder.addRow] using hp)
    · -- kChoices
      cases hf : (g.GetGrammarExpr e).data.foldlM
          (fun (acc2 : List Int × BNFGrammarBuilder) i => do
            let (nid, b2) ← seeVisitExpr g fuel acc2.2 i
            pure (acc2.1 ++ [nid], b2)) ([], b) with
      | error er => rw [hf, except_bind_err] at h; simp at h
      | ok p =>
        rw [hf, except_bind_ok] at h
        have hp := seeFold_rules g fuel ih _ _ _ hf
        split at h <;>
          (simp only [pure, Except.pure, Except.ok.injEq] at h
           rw [← h]
           simpa [BNFGrammarBuilder.AddChoices, BNFGrammarBuilder.addRow] using hp)
    · -- kCharacterClass
      split at h <;>
        (simp only [pure, Except.pure, Except.ok.injEq] at h
         rw [← h]
         simp [BNFGrammarBuilder.AddByteString, BNFGrammarBuilder.AddGrammarExpr,
           BNFGrammarBuilder.addRow])
    · simp only [pure, Except.pure, Except.ok.injEq] at h
      rw [← h]
      simp [BNFGrammarBuilder.AddGrammarExpr, BNFGrammarBuilder.addRow]
    · simp only [pure, Except.pure, Except.ok.injEq] at h
      rw [← h]
      simp [BNFGrammarBuilder.AddGrammarExpr, BNFGrammarBuilder.addRow]
    · simp only [pure, Except.pure, Except.ok.injEq] at h
      rw [← h]
      simp [BNFGrammarBuilder.AddGrammarExpr, BNFGrammarBuilder.addRow]
    · -- star quantifier
      cases hx : seeVisitExpr g fuel b ((g.GetGrammarExpr e).data.getD 0 0) with
      | error er => rw [hx, except_bind_err] at h; simp at h
      | ok p =>
        rw [hx, except_bind_ok] at h
        obtain ⟨nid, b2⟩ := p
        simp only [pure, Except.pure, Except.ok.injEq] at h
        rw [← h]
        simpa [BNFGrammarBuilder.AddQuantifier, BNFGrammarBuilder.addRow] using ih _ _ _ hx
    · cases hx : seeVisitExpr g fuel b ((g.GetGrammarExpr e).data.getD 0 0) with
      | error er => rw [hx, except_bind_err] at h; simp at h
      | ok p =>
        rw [hx, except_bind_ok] at h
        obtain ⟨nid, b2⟩ := p
        simp only [pure, Except.pure, Except.ok.injEq] at h
        rw [← h]
        simpa [BNFGrammarBuilder.AddQuantifier, BNFGrammarBuilder.addRow] using ih _ _ _ hx
    · cases hx : seeVisitExpr g fuel b ((g.GetGrammarExpr e).data.getD 0 0) with
      | error er => rw [hx, except_bind_err] at h; simp at h
      | ok p =>
        rw [hx, except_bind_ok] at h
        obtain ⟨nid, b2⟩ := p
        simp only [pure, Except.pure, Except.ok.injEq] at h
        rw [← h]
        simpa [BNFGrammarBuilder.AddQuantifier, BNFGrammarBuilder.addRow] using ih _ _ _ hx
    · cases hx : seeVisitExpr g fuel b ((g.GetGrammarExpr e).data.getD 0 0) with
      | error er => rw [hx, except_bind_err] at h; simp at h
      | ok p =>
        rw [hx, except_bind_ok] at h
        obtain ⟨nid, b2⟩ := p
        simp only [pure, Except.pure, Except.ok.injEq] at h
        rw [← h]
        simpa [BNFGrammarBuilder.AddQuantifierRange, BNFGrammarBuilder.addRow] using ih _ _ _ hx
    · simp at h

theorem nruChoiceStep_ext (g : BNFGrammar)
    (recC recS : BNFGrammarBuilder → GrammarExpr →
      Except String (List Int × BNFGrammarBuilder))
    (ihc : ∀ b e r, recC b e = .ok r → rulesExt b r.2)
    (ihs : ∀ b e r, recS b e = .ok r → rulesExt b r.2)
    (acc accR : List Int × Bool × BNFGrammarBuilder) (i : Int)
    (h : nruChoiceStep g recC recS acc i = .ok accR) :
    rulesExt acc.2.2 accR.2.2 := by
  simp only [nruChoiceStep] at h
  split at h
  · -- kSequence
    split at h
    · simp at h
    · rename_i heq
      split at h <;>
        (simp only [Except.ok.injEq] at h
         rw [← h]
         exact rulesExt_trans (ihs _ _ _ heq) (rulesExt_of_eq rfl))
  · -- kChoices
    split at h
    · simp at h
    · simp at h
    · rename_i heq
      split at h <;>
        (simp only [Except.ok.injEq] at h
         rw [← h]
         exact rulesExt_trans (ihc _ _ _ heq) (rulesExt_of_eq rfl))
  · simp only [Except.ok.injEq] at h
    rw [← h]
    exact rulesExt_of_eq rfl
  · simp only [Except.ok.injEq] at h
    rw [← h]
    exact rulesExt_of_eq rfl
  · simp only [Except.ok.injEq] at h
    rw [← h]
    exact rulesExt_of_eq rfl
  · simp only [Except.ok.injEq] at h
    rw [← h]
    exact rulesExt_of_eq rfl
  · simp only [Except.ok.injEq] at h
    rw [← h]
    exact rulesExt_of_eq rfl
  · simp at h

theorem nruSequenceStep_ext (g : BNFGrammar) (ruleName : String)
    (recC recS : BNFGrammarBuilder → GrammarExpr →
      Except String (List Int × BNFGrammarBuilder))
    (ihc : ∀ b e r, recC b e = .ok r → rulesExt b r.2)
    (ihs : ∀ b e r, recS b e = .ok r → rulesExt b r.2)
    (acc accR : List Int × BNFGrammarBuilder) (i : Int)
    (h : nruSequenceStep g ruleName recC recS acc i = .ok accR) :
    rulesExt acc.2 accR.2 := by
  simp only [nruSequenceStep] at h
  split at h
  · -- kSequence
    split at h
    · simp at h
    · rename_i heq
      simp only [Except.ok.injEq] at h
      rw [← h]
      exact rulesExt_trans (ihs _ _ _ heq) (rulesExt_of_eq rfl)
  · -- kChoices
    split at h
    · simp at h
    · rename_i heq
      split at h <;>
        (simp only [Except.ok.injEq] at h
         rw [← h]
         exact rulesExt_trans (ihc _ _ _ heq) (rulesExt_of_eq rfl))
    · rename_i h1 h2
      simp only [Except.ok.injEq] at h
      rw [← h]
      refine rulesExt_trans ?_ (⟨_, rfl⟩ : rulesExt _ _)
      first
        | exact ihc _ _ _ h1
        | exact ihc _ _ _ h2
  · simp only [Except.ok.injEq] at h
    rw [← h]
    exact rulesExt_of_eq rfl
  · simp only [Except.ok.injEq] at h
    rw [← h]
    exact rulesExt_of_eq rfl
  · simp only [Except.ok.injEq] at h
    rw [← h]
    exact rulesExt_of_eq rfl
  · simp only [Except.ok.injEq] at h
    rw [← h]
    exact rulesExt_of_eq rfl
  · simp only [Except.ok.injEq] at h
    rw [← h]
    exact rulesExt_of_eq rfl
  · simp at h


theorem nruChoicesFold_ext (g : BNFGrammar)
    (recC recS : BNFGrammarBuilder → GrammarExpr →
      Except String (List Int × BNFGrammarBuilder))
    (ihc : ∀ b e r, recC b e = .ok r → rulesExt b r.2)
    (ihs : ∀ b e r, recS b e = .ok r → rulesExt b r.2) :
    ∀ (ds : List Int) (acc accR : List Int × Bool × BNFGrammarBuilder),
      ds.foldlM (nruChoiceStep g recC recS) acc = .ok accR →
      rulesExt acc.2.2 accR.2.2 := by
  intro ds
  induction ds with
  | nil =>
    intro acc accR h
    simp only [List.foldlM_nil, pure, Except.pure, Except.ok.injEq] at h
    rw [← h]
    exact rulesExt_of_eq rfl
  | cons i ds ih =>
    intro acc accR h
    rw [List.foldlM_cons] at h
    cases hstep : nruChoiceStep g recC recS acc i with
    | error e =>
      rw [hstep, except_bind_err] at h
      simp at h
    | ok acc1 =>
      rw [hstep, except_bind_ok] at h
      exact rulesExt_trans (nruChoiceStep_ext g recC recS ihc ihs acc acc1 i hstep)
        (ih acc1 accR h)

theorem nruSequenceFold_ext (g : BNFGrammar) (ruleName : String)
    (recC recS : BNFGrammarBuilder → GrammarExpr →
      Except String (List Int × BNFGrammarBuilder))
    (ihc : ∀ b e r, recC b e = .ok r → rulesExt b r.2)
    (ihs : ∀ b e r, recS b e = .ok r → rulesExt b r.2) :
    ∀ (ds : List Int) (acc accR : List Int × BNFGrammarBuilder),
      ds.foldlM (nruSequenceStep g ruleName recC recS) acc = .ok accR →
      rulesExt acc.2 accR.2 := by
  intro ds
  induction ds with
  | nil =>
    intro acc accR h
    simp only [List.foldlM_nil, pure, Except.pure, Except.ok.injEq] at h
    rw [← h]
    exact rulesExt_of_eq rfl
  | cons i ds ih =>
    intro acc accR h
    rw [List.foldlM_cons] at h
    cases hstep : nruSequenceStep g ruleName recC recS acc i with
    | error e =>
      rw [hstep, except_bind_err] at h
      simp at h
    | ok acc1 =>
      rw [hstep, except_bind_ok] at h
      exact rulesExt_trans
        (nruSequenceStep_ext g ruleName recC recS ihc ihs acc acc1 i hstep)
        (ih acc1 accR h)

theorem nruVisit_ext (g : BNFGrammar) (ruleName : String) :
    ∀ fuel : Nat,
      (∀ b e r, nruVisitChoices g ruleName fuel b e = .ok r → rulesExt b r.2) ∧
      (∀ b e r, nruVisitSequence g ruleName fuel b e = .ok r → rulesExt b r.2) := by
  intro fuel
  induction fuel with
  | zero =>
    constructor <;> (intro b e r h; simp [nruVisitChoices, nruVisitSequence] at h)
  | succ fuel ih =>
    obtain ⟨ihc, ihs⟩ := ih
    constructor
    · intro b e r h
      simp only [nruVisitChoices] at h
      cases hf : e.data.foldlM
          (nruChoiceStep g (nruVisitChoices g ruleName fuel)
            (nruVisitSequence g ruleName fuel)) ([], false, b) with
      | error er =>
        rw [hf, except_bind_err] at h
        simp at h
      | ok p =>
        rw [hf, except_bind_ok] at h
        have hext := nruChoicesFold_ext g _ _ ihc ihs e.data _ _ hf
        split at h <;> split at h <;>
          first
            | simp at h
            | (simp only [pure, Except.pure, Except.ok.injEq] at h
               rw [← h]
               exact rulesExt_trans hext (rulesExt_of_eq rfl))
    · intro b e r h
      simp only [nruVisitSequence] at h
      exact nruSequenceFold_ext g ruleName _ _ ihc ihs e.data _ _ h


theorem seeVisitLookahead_rules (g : BNFGrammar) (fuel : Nat)
    (b : BNFGrammarBuilder) (l : Int) (r : Int × BNFGrammarBuilder)
    (h : seeVisitLookahead g fuel b l = .ok r) : r.2.rules = b.rules := by
  simp only [seeVisitLookahead] at h
  split at h
  · simp only [Except.ok.injEq] at h
    rw [← h]
  · split at h
    · simp at h
    · cases hf : (g.GetGrammarExpr l).data.foldlM
          (fun (acc2 : List Int × BNFGrammarBuilder) i => do
            let (nid, b2) ← seeVisitExpr g fuel acc2.2 i
            pure (acc2.1 ++ [nid], b2)) ([], b) with
      | error er =>
        rw [hf, except_bind_err] at h
        simp at h
      | ok p =>
        rw [hf, except_bind_ok] at h
        simp only [pure, Except.pure, Except.ok.injEq] at h
        rw [← h]
        exact seeFold_rules g fuel (seeVisitExpr_rules g fuel) _ _ _ hf

theorem nruVisitRuleBody_ext (g : BNFGrammar) (fuel : Nat) (name : String)
    (b : BNFGrammarBuilder) (e : Int) (r : Int × BNFGrammarBuilder)
    (h : nruVisitRuleBody g fuel name b e = .ok r) : rulesExt b r.2 := by
  simp only [nruVisitRuleBody] at h
  split at h
  · -- kSequence
    cases hf : nruVisitSequence g name fuel b (g.GetGrammarExpr e) with
    | error er => rw [hf, except_bind_err] at h; simp at h
    | ok p =>
      rw [hf, except_bind_ok] at h
      obtain ⟨ids, b2⟩ := p
      simp only [pure, Except.pure, Except.ok.injEq] at h
      rw [← h]
      exact rulesExt_trans ((nruVisit_ext g name fuel).2 _ _ _ hf) (rulesExt_of_eq rfl)
  · -- kChoices
    cases hf : nruVisitChoices g name fuel b (g.GetGrammarExpr e) with
    | error er => rw [hf, except_bind_err] at h; simp at h
    | ok p =>
      rw [hf, except_bind_ok] at h
      obtain ⟨ids, b2⟩ := p
      simp only [pure, Except.pure, Except.ok.injEq] at h
      rw [← h]
      exact rulesExt_trans ((nruVisit_ext g name fuel).1 _ _ _ hf) (rulesExt_of_eq rfl)
  all_goals
    first
      | simp at h
      | (simp only [pure, Except.pure, Except.ok.injEq] at h
         rw [← h]
         exact rulesExt_of_eq rfl)

theorem nruVisitLookahead_ext (g : BNFGrammar) (fuel : Nat)
    (b : BNFGrammarBuilder) (l : Int) (r : Int × BNFGrammarBuilder)
    (h : nruVisitLookahead g fuel b l = .ok r) : rulesExt b r.2 := by
  simp only [nruVisitLookahead] at h
  split at h
  · simp only [Except.ok.injEq] at h
    rw [← h]
    exact rulesExt_of_eq rfl
  · cases hf : nruVisitSequence g "" fuel b (g.GetGrammarExpr l) with
    | error er => rw [hf, except_bind_err] at h; simp at h
    | ok p =>
      rw [hf, except_bind_ok] at h
      obtain ⟨ids, b2⟩ := p
      simp only [pure, Except.pure, Except.ok.injEq] at h
      rw [← h]
      exact rulesExt_trans ((nruVisit_ext g "" fuel).2 _ _ _ hf) (rulesExt_of_eq rfl)

/-- Claim C9: the grammar-mutator skeleton preserves rule identity — for
every visit pair that only appends rules (every pass of this repository
does), rule i of the output keeps the name of rule i of the input and
all created rules get ids past the input rules — and the property holds
in particular for both normalizer passes. -/
theorem C9_rule_identity_preserved :
    (∀ (visit : String → BNFGrammarBuilder → Int →
        Except String (Int × BNFGrammarBuilder))
      (visitLookahead : BNFGrammarBuilder → Int →
        Except String (Int × BNFGrammarBuilder))
      (g g2 : BNFGrammar),
      (∀ name bb e r, visit name bb e = .ok r → ∃ t, r.2.rules = bb.rules ++ t) →
      (∀ bb e r, visitLookahead bb e = .ok r → ∃ t, r.2.rules = bb.rules ++ t) →
      mutatorApply visit visitLookahead g = .ok g2 →
      g.NumRules ≤ g2.NumRules ∧
      ∀ i, i < g.NumRules → (g2.GetRule i).name = (g.GetRule i).name) ∧
    (∀ g g2 : BNFGrammar, SingleElementExprEliminatorApply g = .ok g2 →
      g.NumRules ≤ g2.NumRules ∧
      ∀ i, i < g.NumRules → (g2.GetRule i).name = (g.GetRule i).name) ∧
    (∀ g g2 : BNFGrammar, NestedRuleUnwrapperApply g = .ok g2 →
      g.NumRules ≤ g2.NumRules ∧
      ∀ i, i < g.NumRules → (g2.GetRule i).name = (g.GetRule i).name) := by
  refine ⟨mutatorApply_rule_identity, ?_, ?_⟩
  · intro g g2 h
    refine mutatorApply_rule_identity _ _ g g2 ?_ ?_ h
    · intro name bb e r hr
      exact ⟨[], by simp [seeVisitExpr_rules g _ _ _ _ hr]⟩
    · intro bb e r hr
      exact ⟨[], by simp [seeVisitLookahead_rules g _ _ _ _ hr]⟩
  · intro g g2 h
    refine mutatorApply_rule_identity _ _ g g2 ?_ ?_ h
    · intro name bb e r hr
      exact nruVisitRuleBody_ext g _ name bb e r hr
    · intro bb e r hr
      exact nruVisitLookahead_ext g _ bb e r hr

/-- Input grammar for the C9 witness. -/
def c9Grammar : BNFGrammar := ⟨[⟨"root", 2, -1⟩], [[0, 97], [4, 0], [5, 1]], 0⟩

/-- Witness for C9_rule_identity_preserved: the NestedRuleUnwrapper pass
on a concrete one-rule grammar keeps the rule name at position 0. -/
theorem C9_rule_identity_preserved_witness :
    ((⟨[⟨"root", 2, -1⟩], [[0, 97], [4, 0], [5, 1]], 0⟩ : BNFGrammar).GetRule 0).name =
      (c9Grammar.GetRule 0).name :=
  (C9_rule_identity_preserved.2.2 c9Grammar
    ⟨[⟨"root", 2, -1⟩], [[0, 97], [4, 0], [5, 1]], 0⟩ (by decide)).2 0 (by decide)


end Xg

/-! ## Graph (src/cpp/support/graph.h, graph_impl.tcc) and Coalesce (C8) -/

set_option maxHeartbeats 1000000

namespace Xg


/-! ## Graph (src/cpp/support/graph.h, graph_impl.tcc), instantiated at LabelType = Int -/

/-- Edge record of Graph<LabelType> (graph.h:31-43), with LabelType = Int as
in the repository's uses and tests. -/
structure GraphEdge where
  label : Int
  src : Int
  dst : Int
  next_out_edge_id : Int
  next_in_edge_id : Int
deriving DecidableEq, Repr

/-- Default edge used to model out-of-bounds vector reads (undefined
behaviour in C++); every theorem carries in-bounds hypotheses. -/
def dummyGE : GraphEdge := ⟨0, -1, -1, -1, -1⟩

/-- Graph<LabelType> (graph.h:20-95): edge arena plus per-node pairs of
(out-head, in-head) and (out-degree, in-degree). -/
structure Graph where
  edges : List GraphEdge
  adj_heads : List (Int × Int)
  out_in_degrees : List (Int × Int)
deriving DecidableEq, Repr

/-- INVALID_EDGE_ID (graph.h:18). -/
def INVALID_EDGE_ID : Int := -1

def Graph.edgeAt (g : Graph) (eid : Int) : GraphEdge := g.edges.getD eid.toNat dummyGE

def Graph.FirstOutEdge (g : Graph) (n : Int) : Int := (g.adj_heads.getD n.toNat (-1, -1)).1

def Graph.NextOutEdge (g : Graph) (eid : Int) : Int := (g.edgeAt eid).next_out_edge_id

def Graph.FirstInEdge (g : Graph) (n : Int) : Int := (g.adj_heads.getD n.toNat (-1, -1)).2

def Graph.NextInEdge (g : Graph) (eid : Int) : Int := (g.edgeAt eid).next_in_edge_id

def Graph.OutDegree (g : Graph) (n : Int) : Int := (g.out_in_degrees.getD n.toNat (0, 0)).1

def Graph.InDegree (g : Graph) (n : Int) : Int := (g.out_in_degrees.getD n.toNat (0, 0)).2

def Graph.NumNodes (g : Graph) : Int := (g.adj_heads.length : Int)

def Graph.NumEdges (g : Graph) : Int := (g.edges.length : Int)

/-- Graph::AddNode (graph.h:62-66). -/
def Graph.AddNode (g : Graph) : Int × Graph :=
  let g2 : Graph := ⟨g.edges, g.adj_heads ++ [(-1, -1)], g.out_in_degrees ++ [(0, 0)]⟩
  ((g2.adj_heads.length : Int) - 1, g2)

/-- Graph::AddEdge (graph.h:68-75): push the edge with next pointers set to
the old heads, bump both degrees, point both heads at the new edge. -/
def Graph.AddEdge (g : Graph) (src dst label : Int) : Int × Graph :=
  let edges2 := g.edges ++ [⟨label, src, dst, g.FirstOutEdge src, g.FirstInEdge dst⟩]
  let eid : Int := (edges2.length : Int) - 1
  let deg2 := ((g.out_in_degrees.modify (fun p => (p.1 + 1, p.2)) src.toNat).modify
    (fun p => (p.1, p.2 + 1)) dst.toNat)
  let heads2 := ((g.adj_heads.modify (fun p => (eid, p.2)) src.toNat).modify
    (fun p => (p.1, eid)) dst.toNat)
  (eid, ⟨edges2, heads2, deg2⟩)

/-- The unlink walk of Graph::RemoveOutEdge (graph_impl.tcc:40-54), with
explicit fuel: the C++ for-loop runs until the chain ends or the edge is
found; on any terminating execution the chain length is below the fuel
used at the call sites. -/
def removeOutLoop (g : Graph) (src edge_id prev eid : Int) : Nat → Graph
  | 0 => g
  | fuel + 1 =>
    if eid = -1 then g
    else if eid = edge_id then
      if prev = -1 then
        { g with adj_heads := g.adj_heads.modify (fun p => (g.NextOutEdge eid, p.2)) src.toNat }
      else
        let edges2 := g.edges.modify (fun e => { e with next_out_edge_id := g.NextOutEdge eid }) prev.toNat
        { g with edges := edges2 }
    else removeOutLoop g src edge_id eid (g.NextOutEdge eid) fuel

/-- Graph::RemoveOutEdge (graph_impl.tcc:40-54): unlink from the source's
out chain, then decrement the out degree (unconditionally, as the code
does after the loop). -/
def Graph.RemoveOutEdge (g : Graph) (src edge_id : Int) : Graph :=
  let g2 := removeOutLoop g src edge_id (-1) (g.FirstOutEdge src) (g.edges.length + 1)
  { g2 with out_in_degrees := g2.out_in_degrees.modify (fun p => (p.1 - 1, p.2)) src.toNat }

/-- The unlink walk of Graph::RemoveInEdge (graph_impl.tcc:57-71). -/
def removeInLoop (g : Graph) (dst edge_id prev eid : Int) : Nat → Graph
  | 0 => g
  | fuel + 1 =>
    if eid = -1 then g
    else if eid = edge_id then
      if prev = -1 then
        { g with adj_heads := g.adj_heads.modify (fun p => (p.1, g.NextInEdge eid)) dst.toNat }
      else
        let edges2 := g.edges.modify (fun e => { e with next_in_edge_id := g.NextInEdge eid }) prev.toNat
        { g with edges := edges2 }
    else removeInLoop g dst edge_id eid (g.NextInEdge eid) fuel

/-- Graph::RemoveInEdge (graph_impl.tcc:57-71). -/
def Graph.RemoveInEdge (g : Graph) (dst edge_id : Int) : Graph :=
  let g2 := removeInLoop g dst edge_id (-1) (g.FirstInEdge dst) (g.edges.length + 1)
  { g2 with out_in_degrees := g2.out_in_degrees.modify (fun p => (p.1, p.2 - 1)) dst.toNat }

/-- Graph::RemoveEdge (graph_impl.tcc:34-37). -/
def Graph.RemoveEdge (g : Graph) (edge_id : Int) : Graph :=
  let g2 := g.RemoveOutEdge (g.edgeAt edge_id).src edge_id
  g2.RemoveInEdge (g2.edgeAt edge_id).dst edge_id

/-- First loop of Graph::Coalesce (graph_impl.tcc:77-84): walk the in
chain of rhs live (the loop update reads next_in_edge_id from the current
state); each field of the C++ `edge` reference is re-read from the current
state at its use site. -/
def coalesceLoop1 (lhs : Int) (g : Graph) (eid : Int) : Nat → Graph
  | 0 => g
  | fuel + 1 =>
    if eid = -1 then g
    else
      let g2 := g.RemoveOutEdge (g.edgeAt eid).src eid
      let g3 := if (g2.edgeAt eid).src ≠ lhs then
          (g2.AddEdge (g2.edgeAt eid).src lhs (g2.edgeAt eid).label).2
        else g2
      coalesceLoop1 lhs g3 (g3.NextInEdge eid) fuel

/-- Second loop of Graph::Coalesce (graph_impl.tcc:86-93). -/
def coalesceLoop2 (lhs : Int) (g : Graph) (eid : Int) : Nat → Graph
  | 0 => g
  | fuel + 1 =>
    if eid = -1 then g
    else
      let g2 := g.RemoveInEdge (g.edgeAt eid).dst eid
      let g3 := if (g2.edgeAt eid).dst ≠ lhs then
          (g2.AddEdge lhs (g2.edgeAt eid).dst (g2.edgeAt eid).label).2
        else g2
      coalesceLoop2 lhs g3 (g3.NextOutEdge eid) fuel

/-- Graph::Coalesce (graph_impl.tcc:74-99): rewire rhs's in edges to lhs,
rewire rhs's out edges from lhs, then clear rhs's heads and degrees. The
XGRAMMAR_DCHECK assertions are debug-only no-ops. Each terminating C++
loop makes at most (number of live edges) iterations, below the fuel
passed here. -/
def Graph.Coalesce (g : Graph) (lhs rhs : Int) : Graph :=
  let g1 := coalesceLoop1 lhs g (g.FirstInEdge rhs) (g.edges.length + 1)
  let g2 := coalesceLoop2 lhs g1 (g1.FirstOutEdge rhs) (g1.edges.length + 1)
  { g2 with
    adj_heads := g2.adj_heads.modify (fun _ => (-1, -1)) rhs.toNat,
    out_in_degrees := g2.out_in_degrees.modify (fun _ => (0, 0)) rhs.toNat }

/-- The search loop of Graph::GetNextEdgeFromTo (graph_impl.tcc:23-31). -/
def getNextFromToLoop (g : Graph) (dst eid : Int) : Nat → Int
  | 0 => -1
  | fuel + 1 =>
    if eid = -1 then -1
    else if (g.edgeAt eid).dst = dst then eid
    else getNextFromToLoop g dst (g.NextOutEdge eid) fuel

/-- Graph::GetNextEdgeFromTo (graph_impl.tcc:23-31). -/
def Graph.GetNextEdgeFromTo (g : Graph) (src dst last_edge_id : Int) : Int :=
  let start := if last_edge_id = INVALID_EDGE_ID then g.FirstOutEdge src
    else g.NextOutEdge last_edge_id
  getNextFromToLoop g dst start (g.edges.length + 1)

/-- Fuel-bounded out-chain walk collecting edge ids; `none` when the fuel
runs out, which on the C++ side is a traversal that never terminates. -/
def walkOut (g : Graph) : Int → Nat → Option (List Nat)
  | _, 0 => none
  | eid, fuel + 1 =>
    if eid = -1 then some []
    else match walkOut g (g.NextOutEdge eid) fuel with
      | some l => some (eid.toNat :: l)
      | none => none

/-- Fuel-bounded in-chain walk. -/
def walkIn (g : Graph) : Int → Nat → Option (List Nat)
  | _, 0 => none
  | eid, fuel + 1 =>
    if eid = -1 then some []
    else match walkIn g (g.NextInEdge eid) fuel with
      | some l => some (eid.toNat :: l)
      | none => none

/-- The ids on the out chain of node n, as traversed by the code
(operator<<, WellFormed); empty when the traversal does not terminate. -/
def Graph.outIdsL (g : Graph) (n : Int) : List Nat :=
  (walkOut g (g.FirstOutEdge n) (g.edges.length + 1)).getD []

/-- The ids on the in chain of node n. -/
def Graph.inIdsL (g : Graph) (n : Int) : List Nat :=
  (walkIn g (g.FirstInEdge n) (g.edges.length + 1)).getD []

/-- The break-on-found membership walk of the inner loop of
Graph::WellFormed (graph_impl.tcc:186-192): is `target` on the in chain
starting at eid? -/
def inChainContains (g : Graph) (target : Int) : Int → Nat → Bool
  | _, 0 => false
  | eid, fuel + 1 =>
    if eid = -1 then false
    else if eid = target then true
    else inChainContains g target (g.NextInEdge eid) fuel

/-- The mirrored membership walk (graph_impl.tcc:220-226). -/
def outChainContains (g : Graph) (target : Int) : Int → Nat → Bool
  | _, 0 => false
  | eid, fuel + 1 =>
    if eid = -1 then false
    else if eid = target then true
    else outChainContains g target (g.NextOutEdge eid) fuel

/-- First half of Graph::WellFormed (graph_impl.tcc:172-206): for every
node, walk the out chain; every edge on it must have this node as src and
be referenced from its dst's in chain, and the stored out degree must
equal the traversal count. A non-terminating C++ traversal is modelled as
failure (the fuel exceeds every terminating chain's length). -/
def Graph.wfOutHalf (g : Graph) : Bool :=
  (List.range g.adj_heads.length).all fun n =>
    match walkOut g (g.FirstOutEdge (n : Int)) (g.edges.length + 1) with
    | none => false
    | some l =>
      l.all (fun e => (g.edgeAt (e : Int)).src = (n : Int) &&
        inChainContains g (e : Int) (g.FirstInEdge (g.edgeAt (e : Int)).dst)
          (g.edges.length + 1)) &&
      decide (g.OutDegree (n : Int) = (l.length : Int))

/-- Second half of Graph::WellFormed (graph_impl.tcc:208-241). -/
def Graph.wfInHalf (g : Graph) : Bool :=
  (List.range g.adj_heads.length).all fun n =>
    match walkIn g (g.FirstInEdge (n : Int)) (g.edges.length + 1) with
    | none => false
    | some l =>
      l.all (fun e => (g.edgeAt (e : Int)).dst = (n : Int) &&
        outChainContains g (e : Int) (g.FirstOutEdge (g.edgeAt (e : Int)).src)
          (g.edges.length + 1)) &&
      decide (g.InDegree (n : Int) = (l.length : Int))

/-- Graph::WellFormed (graph_impl.tcc:171-243). -/
def Graph.WellFormed (g : Graph) : Bool := g.wfOutHalf && g.wfInHalf

end Xg

namespace Xg

/-! ### List helpers for the graph proofs -/

theorem getDMap {α β : Type} (f : α → β) (l : List α) (i : Nat) (d : α) :
    (l.map f).getD i (f d) = f (l.getD i d) := by
  simp only [List.getD_eq_getElem?_getD, List.getElem?_map]
  cases l[i]? <;> simp

theorem lengthModify {α : Type} (l : List α) (f : α → α) (i : Nat) :
    (l.modify f i).length = l.length := by
  induction l generalizing i with
  | nil => cases i <;> rfl
  | cons a l ih =>
    cases i with
    | zero => simp [List.modify]
    | succ i => simpa [List.modify] using ih i

theorem getElemModify {α : Type} (l : List α) (f : α → α) (i j : Nat) :
    (l.modify f i)[j]? = if i = j then (l[j]?).map f else l[j]? := by
  induction l generalizing i j with
  | nil => cases i <;> cases j <;> simp [List.modify]
  | cons a l ih =>
    cases i with
    | zero => cases j <;> simp [List.modify]
    | succ i =>
      cases j with
      | zero => simp [List.modify]
      | succ j => simpa [List.modify] using ih i j

theorem getDModify {α : Type} (l : List α) (f : α → α) (i j : Nat) (d : α) :
    (l.modify f i).getD j d = if i = j ∧ j < l.length then f (l.getD j d) else l.getD j d := by
  simp only [List.getD_eq_getElem?_getD, getElemModify]
  by_cases h : i = j
  · subst h
    by_cases h2 : i < l.length
    · simp only [if_pos rfl, h2, and_true]
      rw [List.getElem?_eq_getElem h2]
      simp
    · simp only [if_pos rfl, h2, and_false, if_false]
      rw [List.getElem?_eq_none (by omega)]
      simp
  · simp [h]

theorem getDMapD {α β : Type} (f : α → β) (l : List α) (i : Nat) (d : β) (d2 : α)
    (hd : f d2 = d) : (l.map f).getD i d = f (l.getD i d2) := by
  rw [← hd, getDMap]

/-! ### Transpose: swap the out side and the in side of a graph -/

/-- Swap src with dst and the out pointer with the in pointer. -/
def GraphEdge.transposeE (e : GraphEdge) : GraphEdge :=
  ⟨e.label, e.dst, e.src, e.next_in_edge_id, e.next_out_edge_id⟩

/-- The transposed graph: every accessor of the out side of `g.transpose`
is the corresponding in-side accessor of `g`, which lets every lemma
about the first Coalesce loop be reused for the second. -/
def Graph.transpose (g : Graph) : Graph :=
  ⟨g.edges.map GraphEdge.transposeE, g.adj_heads.map Prod.swap,
    g.out_in_degrees.map Prod.swap⟩

theorem transposeE_transposeE (e : GraphEdge) : e.transposeE.transposeE = e := rfl

theorem transpose_transpose (g : Graph) : g.transpose.transpose = g := by
  obtain ⟨e, a, d⟩ := g
  simp [Graph.transpose, List.map_map, Function.comp_def, transposeE_transposeE]

theorem transpose_edges_length (g : Graph) : g.transpose.edges.length = g.edges.length := by
  simp [Graph.transpose]

theorem transpose_adj_length (g : Graph) : g.transpose.adj_heads.length = g.adj_heads.length := by
  simp [Graph.transpose]

theorem transpose_deg_length (g : Graph) :
    g.transpose.out_in_degrees.length = g.out_in_degrees.length := by
  simp [Graph.transpose]

theorem edgeAt_transpose (g : Graph) (eid : Int) :
    g.transpose.edgeAt eid = (g.edgeAt eid).transposeE := by
  simp only [Graph.edgeAt, Graph.transpose]
  exact getDMap GraphEdge.transposeE g.edges eid.toNat dummyGE

theorem FirstOutEdge_transpose (g : Graph) (n : Int) :
    g.transpose.FirstOutEdge n = g.FirstInEdge n := by
  simp only [Graph.FirstOutEdge, Graph.FirstInEdge, Graph.transpose]
  have := getDMap Prod.swap g.adj_heads n.toNat (-1, -1)
  simp only [Prod.swap] at this
  rw [this]

theorem FirstInEdge_transpose (g : Graph) (n : Int) :
    g.transpose.FirstInEdge n = g.FirstOutEdge n := by
  simp only [Graph.FirstOutEdge, Graph.FirstInEdge, Graph.transpose]
  have := getDMap Prod.swap g.adj_heads n.toNat (-1, -1)
  simp only [Prod.swap] at this
  rw [this]

theorem NextOutEdge_transpose (g : Graph) (eid : Int) :
    g.transpose.NextOutEdge eid = g.NextInEdge eid := by
  simp [Graph.NextOutEdge, Graph.NextInEdge, edgeAt_transpose, GraphEdge.transposeE]

theorem NextInEdge_transpose (g : Graph) (eid : Int) :
    g.transpose.NextInEdge eid = g.NextOutEdge eid := by
  simp [Graph.NextOutEdge, Graph.NextInEdge, edgeAt_transpose, GraphEdge.transposeE]

theorem OutDegree_transpose (g : Graph) (n : Int) :
    g.transpose.OutDegree n = g.InDegree n := by
  simp only [Graph.OutDegree, Graph.InDegree, Graph.transpose]
  have := getDMap Prod.swap g.out_in_degrees n.toNat (0, 0)
  simp only [Prod.swap] at this
  rw [this]

theorem InDegree_transpose (g : Graph) (n : Int) :
    g.transpose.InDegree n = g.OutDegree n := by
  simp only [Graph.OutDegree, Graph.InDegree, Graph.transpose]
  have := getDMap Prod.swap g.out_in_degrees n.toNat (0, 0)
  simp only [Prod.swap] at this
  rw [this]

end Xg

namespace Xg

theorem listExtOpt {α : Type} {l1 l2 : List α} (h : ∀ n : Nat, l1[n]? = l2[n]?) :
    l1 = l2 := List.ext_getElem? h

theorem mapModify {α β : Type} (m : α → β) (f : α → α) (f2 : β → β) (l : List α) (i : Nat)
    (h : ∀ a, m (f a) = f2 (m a)) :
    (l.modify f i).map m = (l.map m).modify f2 i := by
  apply listExtOpt
  intro n
  simp only [List.getElem?_map, getElemModify]
  by_cases hin : i = n
  · subst hin
    cases l[i]? <;> simp [h]
  · simp [hin]

theorem modifyComm {α : Type} (f h : α → α) (l : List α) (i j : Nat) (hij : i ≠ j) :
    (l.modify f i).modify h j = (l.modify h j).modify f i := by
  apply listExtOpt
  intro n
  simp only [getElemModify]
  by_cases h1 : i = n <;> by_cases h2 : j = n
  · exact absurd (h1.trans h2.symm) hij
  · simp [h1, h2]
  · simp [h1, h2]
  · simp [h1, h2]

theorem modifySame {α : Type} (f h : α → α) (l : List α) (i : Nat) :
    (l.modify f i).modify h i = l.modify (fun a => h (f a)) i := by
  apply listExtOpt
  intro n
  simp only [getElemModify]
  by_cases h1 : i = n
  · subst h1
    cases l[i]? <;> simp
  · simp [h1]

theorem swapModifyPair (A : List (Int × Int)) (i j : Nat) (x : Int) :
    ((A.map Prod.swap).modify (fun p => (x, p.2)) j).modify (fun p => (p.1, x)) i =
    ((A.modify (fun p => (x, p.2)) i).modify (fun p => (p.1, x)) j).map Prod.swap := by
  apply listExtOpt
  intro n
  simp only [getElemModify, List.getElem?_map]
  by_cases h1 : i = n <;> by_cases h2 : j = n <;>
    simp only [h1, h2, if_pos rfl, if_neg, Option.map_map] <;>
    (cases A[n]? <;> simp [Prod.swap])

theorem swapModifyDeg (A : List (Int × Int)) (i j : Nat) :
    ((A.map Prod.swap).modify (fun p => (p.1 + 1, p.2)) j).modify (fun p => (p.1, p.2 + 1)) i =
    ((A.modify (fun p => (p.1 + 1, p.2)) i).modify (fun p => (p.1, p.2 + 1)) j).map Prod.swap := by
  apply listExtOpt
  intro n
  simp only [getElemModify, List.getElem?_map]
  by_cases h1 : i = n <;> by_cases h2 : j = n <;>
    simp only [h1, h2, if_pos rfl, if_neg, Option.map_map] <;>
    (cases A[n]? <;> simp [Prod.swap])

/-- AddEdge commutes with transposition, with the endpoints swapped. -/
theorem AddEdge_transpose (g : Graph) (s d lab : Int) :
    (g.transpose.AddEdge d s lab).2 = ((g.AddEdge s d lab).2).transpose ∧
    (g.transpose.AddEdge d s lab).1 = (g.AddEdge s d lab).1 := by
  have hel : g.transpose.edges.length = g.edges.length := transpose_edges_length g
  constructor
  · simp only [Graph.AddEdge, FirstOutEdge_transpose, FirstInEdge_transpose, hel,
      List.length_append, List.length_cons, List.length_nil]
    simp only [Graph.transpose, Graph.mk.injEq, List.map_append, List.map_cons, List.map_nil,
      List.length_map]
    refine ⟨?_, ?_, ?_⟩
    · simp [GraphEdge.transposeE]
    · exact swapModifyPair g.adj_heads s.toNat d.toNat _
    · exact swapModifyDeg g.out_in_degrees s.toNat d.toNat
  · simp [Graph.AddEdge, Graph.transpose]

end Xg

namespace Xg

theorem graphExt {g1 g2 : Graph} (h1 : g1.edges = g2.edges)
    (h2 : g1.adj_heads = g2.adj_heads) (h3 : g1.out_in_degrees = g2.out_in_degrees) :
    g1 = g2 := by
  obtain ⟨e1, a1, d1⟩ := g1
  obtain ⟨e2, a2, d2⟩ := g2
  simp only at h1 h2 h3
  rw [h1, h2, h3]

/-- The RemoveOutEdge unlink walk on the transposed graph is the
RemoveInEdge unlink walk, transposed. -/
theorem removeOutLoop_transpose (g : Graph) (dst edge_id : Int) :
    ∀ (fuel : Nat) (prev eid : Int),
      removeOutLoop g.transpose dst edge_id prev eid fuel =
        (removeInLoop g dst edge_id prev eid fuel).transpose := by
  intro fuel
  induction fuel with
  | zero => intro prev eid; rfl
  | succ fuel ih =>
    intro prev eid
    simp only [removeOutLoop, removeInLoop, NextOutEdge_transpose]
    by_cases h1 : eid = -1
    · simp [h1]
    · simp only [h1, if_false]
      by_cases h2 : eid = edge_id
      · simp only [h2, if_pos rfl]
        by_cases h3 : prev = -1
        · simp only [h3, if_pos rfl]
          refine graphExt rfl ?_ rfl
          show (g.transpose.adj_heads.modify _ dst.toNat) =
            (g.adj_heads.modify _ dst.toNat).map Prod.swap
          apply listExtOpt
          intro n
          simp only [Graph.transpose]
          simp only [getElemModify, List.getElem?_map]
          by_cases h4 : dst.toNat = n
          · simp only [h4, if_pos rfl, Option.map_map]
            cases g.adj_heads[n]? <;> simp [Prod.swap]
          · simp [h4]
        · simp only [h3, if_neg, if_false]
          refine graphExt ?_ rfl rfl
          show (g.transpose.edges.modify _ prev.toNat) =
            (g.edges.modify _ prev.toNat).map GraphEdge.transposeE
          apply listExtOpt
          intro n
          simp only [Graph.transpose]
          simp only [getElemModify, List.getElem?_map]
          by_cases h4 : prev.toNat = n
          · simp only [h4, if_pos rfl, Option.map_map]
            cases g.edges[n]? <;> simp [GraphEdge.transposeE]
          · simp [h4]
      · simp only [h2, if_false]
        exact ih eid (g.NextInEdge eid)

theorem RemoveOutEdge_transpose (g : Graph) (dst edge_id : Int) :
    g.transpose.RemoveOutEdge dst edge_id = (g.RemoveInEdge dst edge_id).transpose := by
  simp only [Graph.RemoveOutEdge, Graph.RemoveInEdge, FirstOutEdge_transpose,
    transpose_edges_length, removeOutLoop_transpose]
  refine graphExt rfl rfl ?_
  show ((removeInLoop g dst edge_id (-1) (g.FirstInEdge dst) (g.edges.length + 1)).transpose.out_in_degrees.modify _ dst.toNat) =
    ((removeInLoop g dst edge_id (-1) (g.FirstInEdge dst) (g.edges.length + 1)).out_in_degrees.modify _ dst.toNat).map Prod.swap
  apply listExtOpt
  intro n
  simp only [Graph.transpose]
  simp only [getElemModify, List.getElem?_map]
  by_cases h4 : dst.toNat = n
  · simp only [h4, if_pos rfl, Option.map_map]
    cases (removeInLoop g dst edge_id (-1) (g.FirstInEdge dst) (g.edges.length + 1)).out_in_degrees[n]? <;>
      simp [Prod.swap]
  · simp [h4]

/-- The second Coalesce loop is the first loop on the transposed graph. -/
theorem coalesceLoop2_transpose (lhs : Int) :
    ∀ (fuel : Nat) (g : Graph) (eid : Int),
      coalesceLoop2 lhs g eid fuel = (coalesceLoop1 lhs g.transpose eid fuel).transpose := by
  intro fuel
  induction fuel with
  | zero => intro g eid; exact (transpose_transpose g).symm
  | succ fuel ih =>
    intro g eid
    simp only [coalesceLoop1, coalesceLoop2]
    by_cases h1 : eid = -1
    · simp [h1, transpose_transpose]
    · simp only [h1, if_false]
      rw [edgeAt_transpose]
      have h2 : (g.transpose.RemoveOutEdge (g.edgeAt eid).transposeE.src eid) =
          (g.RemoveInEdge (g.edgeAt eid).dst eid).transpose := by
        rw [GraphEdge.transposeE]
        exact RemoveOutEdge_transpose g (g.edgeAt eid).dst eid
      rw [h2, edgeAt_transpose]
      simp only [GraphEdge.transposeE]
      by_cases h3 : ((g.RemoveInEdge (g.edgeAt eid).dst eid).edgeAt eid).dst ≠ lhs
      · rw [if_pos h3, if_pos h3]
        have h4 := AddEdge_transpose (g.RemoveInEdge (g.edgeAt eid).dst eid)
          lhs ((g.RemoveInEdge (g.edgeAt eid).dst eid).edgeAt eid).dst
          ((g.RemoveInEdge (g.edgeAt eid).dst eid).edgeAt eid).label
        rw [h4.1, NextInEdge_transpose]
        exact ih _ _
      · rw [if_neg h3, if_neg h3, NextInEdge_transpose]
        exact ih _ _

end Xg

namespace Xg

theorem walkOut_transpose (g : Graph) : ∀ (fuel : Nat) (eid : Int),
    walkOut g.transpose eid fuel = walkIn g eid fuel := by
  intro fuel
  induction fuel with
  | zero => intro eid; rfl
  | succ fuel ih =>
    intro eid
    simp only [walkOut, walkIn, NextOutEdge_transpose, ih]

theorem walkIn_transpose (g : Graph) : ∀ (fuel : Nat) (eid : Int),
    walkIn g.transpose eid fuel = walkOut g eid fuel := by
  intro fuel
  induction fuel with
  | zero => intro eid; rfl
  | succ fuel ih =>
    intro eid
    simp only [walkOut, walkIn, NextInEdge_transpose, ih]

theorem inChainContains_transpose (g : Graph) (t : Int) : ∀ (fuel : Nat) (eid : Int),
    inChainContains g.transpose t eid fuel = outChainContains g t eid fuel := by
  intro fuel
  induction fuel with
  | zero => intro eid; rfl
  | succ fuel ih =>
    intro eid
    simp only [inChainContains, outChainContains, NextInEdge_transpose, ih]

theorem outChainContains_transpose (g : Graph) (t : Int) : ∀ (fuel : Nat) (eid : Int),
    outChainContains g.transpose t eid fuel = inChainContains g t eid fuel := by
  intro fuel
  induction fuel with
  | zero => intro eid; rfl
  | succ fuel ih =>
    intro eid
    simp only [inChainContains, outChainContains, NextOutEdge_transpose, ih]

theorem wfOutHalf_transpose (g : Graph) : g.transpose.wfOutHalf = g.wfInHalf := by
  unfold Graph.wfOutHalf Graph.wfInHalf
  rw [transpose_adj_length]
  congr 1
  funext n
  rw [transpose_edges_length, FirstOutEdge_transpose, walkOut_transpose]
  cases walkIn g (g.FirstInEdge (n : Int)) (g.edges.length + 1) with
  | none => rfl
  | some l =>
    simp only [edgeAt_transpose, GraphEdge.transposeE, inChainContains_transpose,
      FirstInEdge_transpose, OutDegree_transpose, transpose_edges_length]

theorem wfInHalf_transpose (g : Graph) : g.transpose.wfInHalf = g.wfOutHalf := by
  have := wfOutHalf_transpose g.transpose
  rw [transpose_transpose] at this
  exact this.symm

theorem WellFormed_transpose (g : Graph) : g.transpose.WellFormed = g.WellFormed := by
  simp only [Graph.WellFormed, wfOutHalf_transpose, wfInHalf_transpose]
  exact Bool.and_comm _ _

end Xg

namespace Xg

/-! ### Linked-list chains as lists of edge ids -/

/-- The next-out pointer as a function on edge ids. -/
def nextOutF (g : Graph) (e : Nat) : Int := (g.edges.getD e dummyGE).next_out_edge_id

/-- The next-in pointer as a function on edge ids. -/
def nextInF (g : Graph) (e : Nat) : Int := (g.edges.getD e dummyGE).next_in_edge_id

/-- `chainSeg next h t l`: starting from pointer h and following `next`,
one traverses exactly the edge ids in l and ends at pointer t. A pointer
other than -1 denotes the edge id `toNat` of it, matching how the
embedded walks index the edge vector. -/
def chainSeg (next : Nat → Int) : Int → Int → List Nat → Prop
  | h, t, [] => h = t
  | h, t, e :: r => h ≠ -1 ∧ h.toNat = e ∧ chainSeg next (next e) t r

theorem chainSeg_nil (next : Nat → Int) (h t : Int) : chainSeg next h t [] ↔ h = t :=
  Iff.rfl

theorem chainSeg_cons (next : Nat → Int) (h t : Int) (e : Nat) (r : List Nat) :
    chainSeg next h t (e :: r) ↔ h ≠ -1 ∧ h.toNat = e ∧ chainSeg next (next e) t r :=
  Iff.rfl

/-- For the common case of a nonnegative head the first two conjuncts
collapse to an equality. -/
theorem chainSeg_cons_nat (next : Nat → Int) (t : Int) (e e2 : Nat) (r : List Nat) :
    chainSeg next ((e2 : Nat) : Int) t (e :: r) ↔ e2 = e ∧ chainSeg next (next e) t r := by
  rw [chainSeg_cons]
  constructor
  · rintro ⟨h1, h2, h3⟩
    exact ⟨by omega, h3⟩
  · rintro ⟨h1, h2⟩
    exact ⟨by omega, by omega, h2⟩

theorem chainSeg_append (next : Nat → Int) (xs : List Nat) :
    ∀ (h t : Int) (ys : List Nat),
      chainSeg next h t (xs ++ ys) ↔ ∃ m, chainSeg next h m xs ∧ chainSeg next m t ys := by
  induction xs with
  | nil =>
    intro h t ys
    simp only [List.nil_append, chainSeg_nil]
    constructor
    · intro hx
      exact ⟨h, rfl, hx⟩
    · rintro ⟨m, rfl, hx⟩
      exact hx
  | cons e r ih =>
    intro h t ys
    simp only [List.cons_append, chainSeg_cons, ih]
    constructor
    · rintro ⟨he, hn, m, h1, h2⟩
      exact ⟨m, ⟨he, hn, h1⟩, h2⟩
    · rintro ⟨m, ⟨he, hn, h1⟩, h2⟩
      exact ⟨he, hn, m, h1, h2⟩

theorem chainSeg_det (next : Nat → Int) :
    ∀ (l1 l2 : List Nat) (h : Int),
      chainSeg next h (-1) l1 → chainSeg next h (-1) l2 → l1 = l2 := by
  intro l1
  induction l1 with
  | nil =>
    intro l2 h h1 h2
    rw [chainSeg_nil] at h1
    cases l2 with
    | nil => rfl
    | cons e r =>
      rw [chainSeg_cons] at h2
      exact absurd h1 h2.1
  | cons e r ih =>
    intro l2 h h1 h2
    rw [chainSeg_cons] at h1
    cases l2 with
    | nil =>
      rw [chainSeg_nil] at h2
      exact absurd h2 h1.1
    | cons e2 r2 =>
      rw [chainSeg_cons] at h2
      have he : e = e2 := by omega
      subst he
      rw [ih r2 (next e) h1.2.2 h2.2.2]

theorem chainSeg_nodup (next : Nat → Int) :
    ∀ (l : List Nat) (h : Int), chainSeg next h (-1) l → l.Nodup := by
  intro l
  induction l with
  | nil => intro h _; exact List.nodup_nil
  | cons e r ih =>
    intro h hc
    rw [chainSeg_cons] at hc
    refine List.Nodup.cons ?_ (ih (next e) hc.2.2)
    intro hmem
    obtain ⟨a, b, hab⟩ := List.append_of_mem hmem
    subst hab
    have hfull := hc.2.2
    rw [chainSeg_append] at hfull
    obtain ⟨m, hm1, hm2⟩ := hfull
    rw [chainSeg_cons] at hm2
    have hdet := chainSeg_det next (a ++ e :: b) b (next e) hc.2.2 hm2.2.2
    have hlen := congrArg List.length hdet
    simp only [List.length_append, List.length_cons] at hlen
    omega

theorem chainSeg_congr (next1 next2 : Nat → Int) :
    ∀ (l : List Nat) (h t : Int), (∀ e ∈ l, next1 e = next2 e) →
      chainSeg next1 h t l → chainSeg next2 h t l := by
  intro l
  induction l with
  | nil => intro h t _ hc; exact hc
  | cons e r ih =>
    intro h t hagree hc
    rw [chainSeg_cons] at hc ⊢
    refine ⟨hc.1, hc.2.1, ?_⟩
    rw [← hagree e (List.mem_cons_self e r)]
    exact ih (next1 e) t (fun x hx => hagree x (List.mem_cons_of_mem e hx)) hc.2.2

theorem walkOut_of_chainSeg (g : Graph) :
    ∀ (l : List Nat) (h : Int) (fuel : Nat), chainSeg (nextOutF g) h (-1) l →
      l.length < fuel → walkOut g h fuel = some l := by
  intro l
  induction l with
  | nil =>
    intro h fuel hc hf
    rw [chainSeg_nil] at hc
    subst hc
    cases fuel with
    | zero => omega
    | succ fuel => simp [walkOut]
  | cons e r ih =>
    intro h fuel hc hf
    rw [chainSeg_cons] at hc
    obtain ⟨hne, htn, hc2⟩ := hc
    cases fuel with
    | zero => omega
    | succ fuel =>
      have hnext : g.NextOutEdge h = nextOutF g e := by
        simp [Graph.NextOutEdge, Graph.edgeAt, nextOutF, htn]
      simp only [walkOut, hne, if_false, hnext]
      rw [ih (nextOutF g e) fuel hc2 (by simpa using Nat.lt_of_succ_lt_succ hf)]
      simp [htn]

theorem walkIn_of_chainSeg (g : Graph) :
    ∀ (l : List Nat) (h : Int) (fuel : Nat), chainSeg (nextInF g) h (-1) l →
      l.length < fuel → walkIn g h fuel = some l := by
  intro l
  induction l with
  | nil =>
    intro h fuel hc hf
    rw [chainSeg_nil] at hc
    subst hc
    cases fuel with
    | zero => omega
    | succ fuel => simp [walkIn]
  | cons e r ih =>
    intro h fuel hc hf
    rw [chainSeg_cons] at hc
    obtain ⟨hne, htn, hc2⟩ := hc
    cases fuel with
    | zero => omega
    | succ fuel =>
      have hnext : g.NextInEdge h = nextInF g e := by
        simp [Graph.NextInEdge, Graph.edgeAt, nextInF, htn]
      simp only [walkIn, hne, if_false, hnext]
      rw [ih (nextInF g e) fuel hc2 (by simpa using Nat.lt_of_succ_lt_succ hf)]
      simp [htn]

theorem chainSeg_of_walkOut (g : Graph) :
    ∀ (fuel : Nat) (h : Int) (l : List Nat), walkOut g h fuel = some l →
      chainSeg (nextOutF g) h (-1) l := by
  intro fuel
  induction fuel with
  | zero => intro h l hw; simp [walkOut] at hw
  | succ fuel ih =>
    intro h l hw
    simp only [walkOut] at hw
    by_cases h1 : h = -1
    · subst h1
      rw [if_pos rfl] at hw
      have : l = [] := by
        injection hw with hw2
        exact hw2.symm
      subst this
      rfl
    · rw [if_neg h1] at hw
      cases hw2 : walkOut g (g.NextOutEdge h) fuel with
      | none => rw [hw2] at hw; simp at hw
      | some l2 =>
        rw [hw2] at hw
        simp only [Option.some.injEq] at hw
        subst hw
        rw [chainSeg_cons]
        refine ⟨h1, rfl, ?_⟩
        have hnext : g.NextOutEdge h = nextOutF g h.toNat := by
          simp [Graph.NextOutEdge, Graph.edgeAt, nextOutF]
        rw [hnext] at hw2
        exact ih _ _ hw2

theorem chainSeg_of_walkIn (g : Graph) :
    ∀ (fuel : Nat) (h : Int) (l : List Nat), walkIn g h fuel = some l →
      chainSeg (nextInF g) h (-1) l := by
  intro fuel
  induction fuel with
  | zero => intro h l hw; simp [walkIn] at hw
  | succ fuel ih =>
    intro h l hw
    simp only [walkIn] at hw
    by_cases h1 : h = -1
    · subst h1
      rw [if_pos rfl] at hw
      have : l = [] := by
        injection hw with hw2
        exact hw2.symm
      subst this
      rfl
    · rw [if_neg h1] at hw
      cases hw2 : walkIn g (g.NextInEdge h) fuel with
      | none => rw [hw2] at hw; simp at hw
      | some l2 =>
        rw [hw2] at hw
        simp only [Option.some.injEq] at hw
        subst hw
        rw [chainSeg_cons]
        refine ⟨h1, rfl, ?_⟩
        have hnext : g.NextInEdge h = nextInF g h.toNat := by
          simp [Graph.NextInEdge, Graph.edgeAt, nextInF]
        rw [hnext] at hw2
        exact ih _ _ hw2

end Xg

namespace Xg

/-- Strict chain: every pointer is exactly the edge id it denotes. All
pointers the graph operations write are ids or -1, so strictness is
preserved; the WellFormed cross checks force it on well-formed graphs. -/
def chainSegS (next : Nat → Int) : Int → Int → List Nat → Prop
  | h, t, [] => h = t
  | h, t, e :: r => h = (e : Int) ∧ chainSegS next (next e) t r

theorem chainSegS_nil (next : Nat → Int) (h t : Int) : chainSegS next h t [] ↔ h = t :=
  Iff.rfl

theorem chainSegS_cons (next : Nat → Int) (h t : Int) (e : Nat) (r : List Nat) :
    chainSegS next h t (e :: r) ↔ h = (e : Int) ∧ chainSegS next (next e) t r :=
  Iff.rfl

theorem chainSegS_mono (next : Nat → Int) :
    ∀ (l : List Nat) (h t : Int), chainSegS next h t l → chainSeg next h t l := by
  intro l
  induction l with
  | nil => intro h t hc; exact hc
  | cons e r ih =>
    intro h t hc
    rw [chainSegS_cons] at hc
    rw [chainSeg_cons]
    refine ⟨by omega, by omega, ih _ _ hc.2⟩

theorem chainSegS_append (next : Nat → Int) (xs : List Nat) :
    ∀ (h t : Int) (ys : List Nat),
      chainSegS next h t (xs ++ ys) ↔ ∃ m, chainSegS next h m xs ∧ chainSegS next m t ys := by
  induction xs with
  | nil =>
    intro h t ys
    simp only [List.nil_append, chainSegS_nil]
    constructor
    · intro hx
      exact ⟨h, rfl, hx⟩
    · rintro ⟨m, rfl, hx⟩
      exact hx
  | cons e r ih =>
    intro h t ys
    simp only [List.cons_append, chainSegS_cons, ih]
    constructor
    · rintro ⟨he, m, h1, h2⟩
      exact ⟨m, ⟨he, h1⟩, h2⟩
    · rintro ⟨m, ⟨he, h1⟩, h2⟩
      exact ⟨he, m, h1, h2⟩

theorem chainSegS_congr (next1 next2 : Nat → Int) :
    ∀ (l : List Nat) (h t : Int), (∀ e ∈ l, next1 e = next2 e) →
      chainSegS next1 h t l → chainSegS next2 h t l := by
  intro l
  induction l with
  | nil => intro h t _ hc; exact hc
  | cons e r ih =>
    intro h t hagree hc
    rw [chainSegS_cons] at hc ⊢
    refine ⟨hc.1, ?_⟩
    rw [← hagree e (List.mem_cons_self e r)]
    exact ih (next1 e) t (fun x hx => hagree x (List.mem_cons_of_mem e hx)) hc.2

theorem chainSegS_nodup (next : Nat → Int) (l : List Nat) (h : Int)
    (hc : chainSegS next h (-1) l) : l.Nodup :=
  chainSeg_nodup next l h (chainSegS_mono next l h (-1) hc)

/-- A strict chain visits each member at the pointer that equals it, so
the break-on-found in-chain membership walk succeeds. -/
theorem inChainContains_of_mem (g : Graph) (e : Nat) :
    ∀ (l : List Nat) (h : Int) (fuel : Nat), chainSegS (nextInF g) h (-1) l →
      l.length < fuel → e ∈ l → inChainContains g (e : Int) h fuel = true := by
  intro l
  induction l with
  | nil => intro h fuel _ _ hmem; simp at hmem
  | cons a r ih =>
    intro h fuel hc hf hmem
    rw [chainSegS_cons] at hc
    obtain ⟨hh, hc2⟩ := hc
    cases fuel with
    | zero => omega
    | succ fuel =>
      have hne : h ≠ -1 := by omega
      rcases List.mem_cons.mp hmem with he | he
      · subst he
        have hcne : ((e : Nat) : Int) ≠ -1 := by omega
        simp [inChainContains, hh, hcne]
      · by_cases hcase : h = (e : Int)
        · simp [inChainContains, hne, hcase]
        · have hnext : g.NextInEdge h = nextInF g a := by
            simp [Graph.NextInEdge, Graph.edgeAt, nextInF, hh]
          simp only [inChainContains, hne, if_false, hcase, hnext]
          exact ih (nextInF g a) fuel hc2 (by simpa using Nat.lt_of_succ_lt_succ hf) he

theorem outChainContains_of_mem (g : Graph) (e : Nat) :
    ∀ (l : List Nat) (h : Int) (fuel : Nat), chainSegS (nextOutF g) h (-1) l →
      l.length < fuel → e ∈ l → outChainContains g (e : Int) h fuel = true := by
  intro l
  induction l with
  | nil => intro h fuel _ _ hmem; simp at hmem
  | cons a r ih =>
    intro h fuel hc hf hmem
    rw [chainSegS_cons] at hc
    obtain ⟨hh, hc2⟩ := hc
    cases fuel with
    | zero => omega
    | succ fuel =>
      have hne : h ≠ -1 := by omega
      rcases List.mem_cons.mp hmem with he | he
      · subst he
        have hcne : ((e : Nat) : Int) ≠ -1 := by omega
        simp [outChainContains, hh, hcne]
      · by_cases hcase : h = (e : Int)
        · simp [outChainContains, hne, hcase]
        · have hnext : g.NextOutEdge h = nextOutF g a := by
            simp [Graph.NextOutEdge, Graph.edgeAt, nextOutF, hh]
          simp only [outChainContains, hne, if_false, hcase, hnext]
          exact ih (nextOutF g a) fuel hc2 (by simpa using Nat.lt_of_succ_lt_succ hf) he

/-- If the membership walk succeeds along a chain, the target is the
chain head or some member's next pointer. -/
theorem contains_pointer_in (g : Graph) (t : Int) :
    ∀ (l : List Nat) (h : Int) (fuel : Nat), chainSeg (nextInF g) h (-1) l →
      inChainContains g t h fuel = true →
      t ≠ -1 ∧ (h = t ∨ ∃ e ∈ l, nextInF g e = t) := by
  intro l
  induction l with
  | nil =>
    intro h fuel hc hw
    rw [chainSeg_nil] at hc
    subst hc
    cases fuel with
    | zero => simp [inChainContains] at hw
    | succ fuel => simp [inChainContains] at hw
  | cons a r ih =>
    intro h fuel hc hw
    rw [chainSeg_cons] at hc
    obtain ⟨hne, htn, hc2⟩ := hc
    cases fuel with
    | zero => simp [inChainContains] at hw
    | succ fuel =>
      rw [inChainContains, if_neg hne] at hw
      by_cases hcase : h = t
      · exact ⟨by omega, Or.inl hcase⟩
      · rw [if_neg hcase] at hw
        have hnext : g.NextInEdge h = nextInF g a := by
          simp [Graph.NextInEdge, Graph.edgeAt, nextInF, htn]
        rw [hnext] at hw
        obtain ⟨ht1, ht2⟩ := ih (nextInF g a) fuel hc2 hw
        refine ⟨ht1, Or.inr ?_⟩
        rcases ht2 with he | ⟨e, he, hne2⟩
        · exact ⟨a, List.mem_cons_self a r, he⟩
        · exact ⟨e, List.mem_cons_of_mem a he, hne2⟩

theorem contains_pointer_out (g : Graph) (t : Int) :
    ∀ (l : List Nat) (h : Int) (fuel : Nat), chainSeg (nextOutF g) h (-1) l →
      outChainContains g t h fuel = true →
      t ≠ -1 ∧ (h = t ∨ ∃ e ∈ l, nextOutF g e = t) := by
  intro l
  induction l with
  | nil =>
    intro h fuel hc hw
    rw [chainSeg_nil] at hc
    subst hc
    cases fuel with
    | zero => simp [outChainContains] at hw
    | succ fuel => simp [outChainContains] at hw
  | cons a r ih =>
    intro h fuel hc hw
    rw [chainSeg_cons] at hc
    obtain ⟨hne, htn, hc2⟩ := hc
    cases fuel with
    | zero => simp [outChainContains] at hw
    | succ fuel =>
      rw [outChainContains, if_neg hne] at hw
      by_cases hcase : h = t
      · exact ⟨by omega, Or.inl hcase⟩
      · rw [if_neg hcase] at hw
        have hnext : g.NextOutEdge h = nextOutF g a := by
          simp [Graph.NextOutEdge, Graph.edgeAt, nextOutF, htn]
        rw [hnext] at hw
        obtain ⟨ht1, ht2⟩ := ih (nextOutF g a) fuel hc2 hw
        refine ⟨ht1, Or.inr ?_⟩
        rcases ht2 with he | ⟨e, he, hne2⟩
        · exact ⟨a, List.mem_cons_self a r, he⟩
        · exact ⟨e, List.mem_cons_of_mem a he, hne2⟩

end Xg

namespace Xg

/-- Upgrade a walk-level chain to a strict chain: if every member is also
reachable as an exact pointer value (the chain head or some member's next
pointer), every pointer must be the exact id. -/
theorem chainSeg_upgrade (next : Nat → Int) :
    ∀ (l : List Nat) (h : Int), chainSeg next h (-1) l →
      (∀ e ∈ l, h = (e : Int) ∨ ∃ e2 ∈ l, next e2 = (e : Int)) →
      chainSegS next h (-1) l := by
  intro l
  induction l with
  | nil => intro h hc _; exact hc
  | cons e r ih =>
    intro h hc hfact
    have hnodup : (e :: r).Nodup := chainSeg_nodup next (e :: r) h hc
    rw [chainSeg_cons] at hc
    obtain ⟨hne, htn, hc2⟩ := hc
    have hnr : e ∉ r := (List.nodup_cons.mp hnodup).1
    have hh : h = (e : Int) := by
      rcases hfact e (List.mem_cons_self e r) with hh | ⟨e2, he2, hnext2⟩
      · exact hh
      · exfalso
        rcases List.mem_cons.mp he2 with he2e | he2r
        · subst he2e
          rw [hnext2] at hc2
          cases r with
          | nil => rw [chainSeg_nil] at hc2; omega
          | cons a r2 =>
            rw [chainSeg_cons] at hc2
            have : a = e2 := by omega
            exact hnr (this ▸ List.mem_cons_self a r2)
        · obtain ⟨p, q, hpq⟩ := List.append_of_mem he2r
          subst hpq
          rw [chainSeg_append] at hc2
          obtain ⟨m, hm1, hm2⟩ := hc2
          rw [chainSeg_cons] at hm2
          rw [hnext2] at hm2
          cases q with
          | nil => rw [chainSeg_nil] at hm2; omega
          | cons a q2 =>
            rw [chainSeg_cons] at hm2
            have : a = e := by omega
            subst this
            exact hnr (List.mem_append_right p (List.mem_cons_of_mem e2 (List.mem_cons_self a q2)))
    refine ⟨hh, ?_⟩
    refine ih (next e) hc2 ?_
    intro e' he'
    rcases hfact e' (List.mem_cons_of_mem e he') with hh' | ⟨e2, he2, hnext2⟩
    · exfalso
      have : e' = e := by omega
      subst this
      exact hnr he'
    · rcases List.mem_cons.mp he2 with he2e | he2r
      · subst he2e
        exact Or.inl hnext2
      · exact Or.inr ⟨e2, he2r, hnext2⟩

end Xg

namespace Xg

def Graph.srcN (g : Graph) (e : Nat) : Nat := ((g.edges.getD e dummyGE).src).toNat

def Graph.dstN (g : Graph) (e : Nat) : Nat := ((g.edges.getD e dummyGE).dst).toNat

def Graph.outIds (g : Graph) (n : Nat) : List Nat := g.outIdsL (n : Int)

def Graph.inIds (g : Graph) (n : Nat) : List Nat := g.inIdsL (n : Int)

/-- Chain-level representation of a graph state: every node's two chains
are strict linked lists with sound endpoints and degree counters. -/
structure ChainData (g : Graph) (O I : Nat → List Nat) : Prop where
  deg_len : g.out_in_degrees.length = g.adj_heads.length
  out_chain : ∀ n, n < g.adj_heads.length →
    chainSegS (nextOutF g) (g.FirstOutEdge (n : Int)) (-1) (O n)
  in_chain : ∀ n, n < g.adj_heads.length →
    chainSegS (nextInF g) (g.FirstInEdge (n : Int)) (-1) (I n)
  out_src : ∀ n, n < g.adj_heads.length → ∀ e ∈ O n,
    e < g.edges.length ∧ (g.edges.getD e dummyGE).src = (n : Int)
  in_dst : ∀ n, n < g.adj_heads.length → ∀ e ∈ I n,
    e < g.edges.length ∧ (g.edges.getD e dummyGE).dst = (n : Int)
  out_deg : ∀ n, n < g.adj_heads.length →
    (g.out_in_degrees.getD n (0, 0)).1 = ((O n).length : Int)
  in_deg : ∀ n, n < g.adj_heads.length →
    (g.out_in_degrees.getD n (0, 0)).2 = ((I n).length : Int)

/-- Full well-formedness representation: the chain data plus the mutual
membership of every live edge in both endpoint chains. -/
structure GraphRep (g : Graph) (O I : Nat → List Nat) extends ChainData g O I : Prop where
  cross_out : ∀ n, n < g.adj_heads.length → ∀ e ∈ O n,
    g.dstN e < g.adj_heads.length ∧ e ∈ I (g.dstN e)
  cross_in : ∀ n, n < g.adj_heads.length → ∀ e ∈ I n,
    g.srcN e < g.adj_heads.length ∧ e ∈ O (g.srcN e)

theorem nodupLengthLe {l : List Nat} {m : Nat} (hn : l.Nodup) (hb : ∀ x ∈ l, x < m) :
    l.length ≤ m := by
  have h1 : l.toFinset.card = l.length := List.toFinset_card_of_nodup hn
  have h2 : l.toFinset ⊆ Finset.range m := by
    intro x hx
    rw [List.mem_toFinset] at hx
    rw [Finset.mem_range]
    exact hb x hx
  have := Finset.card_le_card h2
  rw [h1, Finset.card_range] at this
  exact this

theorem mem_of_pointer (next : Nat → Int) (e : Nat) :
    ∀ (l : List Nat) (h : Int), chainSeg next h (-1) l →
      (h = (e : Int) ∨ ∃ e2 ∈ l, next e2 = (e : Int)) → e ∈ l := by
  intro l h hc hd
  rcases hd with hd | ⟨e2, he2, hnext⟩
  · subst hd
    cases l with
    | nil =>
      rw [chainSeg_nil] at hc
      omega
    | cons a r =>
      rw [chainSeg_cons] at hc
      have : a = e := by omega
      subst this
      exact List.mem_cons_self a r
  · obtain ⟨p, q, hpq⟩ := List.append_of_mem he2
    subst hpq
    rw [chainSeg_append] at hc
    obtain ⟨m, hm1, hm2⟩ := hc
    rw [chainSeg_cons] at hm2
    rw [hnext] at hm2
    cases q with
    | nil =>
      rw [chainSeg_nil] at hm2
      omega
    | cons a q2 =>
      rw [chainSeg_cons] at hm2
      have : a = e := by omega
      subst this
      exact List.mem_append_right p (List.mem_cons_of_mem e2 (List.mem_cons_self a q2))

theorem FirstInEdge_toNat_congr (g : Graph) (a b : Int) (h : a.toNat = b.toNat) :
    g.FirstInEdge a = g.FirstInEdge b := by
  simp [Graph.FirstInEdge, h]

theorem FirstOutEdge_toNat_congr (g : Graph) (a b : Int) (h : a.toNat = b.toNat) :
    g.FirstOutEdge a = g.FirstOutEdge b := by
  simp [Graph.FirstOutEdge, h]

end Xg

namespace Xg

theorem nextOutF_transpose (g : Graph) (e : Nat) : nextOutF g.transpose e = nextInF g e := by
  simp only [nextOutF, nextInF, Graph.transpose]
  rw [getDMapD GraphEdge.transposeE g.edges e dummyGE dummyGE rfl]
  rfl

theorem nextInF_transpose (g : Graph) (e : Nat) : nextInF g.transpose e = nextOutF g e := by
  simp only [nextOutF, nextInF, Graph.transpose]
  rw [getDMapD GraphEdge.transposeE g.edges e dummyGE dummyGE rfl]
  rfl

theorem edges_getD_transpose (g : Graph) (e : Nat) :
    g.transpose.edges.getD e dummyGE = (g.edges.getD e dummyGE).transposeE := by
  simp only [Graph.transpose]
  exact getDMapD GraphEdge.transposeE g.edges e dummyGE dummyGE rfl

theorem degrees_getD_transpose (g : Graph) (n : Nat) :
    g.transpose.out_in_degrees.getD n (0, 0) = (g.out_in_degrees.getD n (0, 0)).swap := by
  simp only [Graph.transpose]
  exact getDMapD Prod.swap g.out_in_degrees n (0, 0) (0, 0) rfl

theorem rep_transpose (g : Graph) (O I : Nat → List Nat) (h : GraphRep g O I) :
    GraphRep g.transpose I O := by
  have hN := transpose_adj_length g
  have hE := transpose_edges_length g
  refine ⟨⟨?_, ?_, ?_, ?_, ?_, ?_, ?_⟩, ?_, ?_⟩
  · rw [transpose_deg_length, hN, h.deg_len]
  · intro n hn
    rw [hN] at hn
    rw [FirstOutEdge_transpose]
    exact chainSegS_congr _ _ _ _ _ (fun e _ => (nextOutF_transpose g e).symm) (h.in_chain n hn)
  · intro n hn
    rw [hN] at hn
    rw [FirstInEdge_transpose]
    exact chainSegS_congr _ _ _ _ _ (fun e _ => (nextInF_transpose g e).symm) (h.out_chain n hn)
  · intro n hn e he
    rw [hN] at hn
    obtain ⟨h1, h2⟩ := h.in_dst n hn e he
    rw [hE, edges_getD_transpose]
    exact ⟨h1, h2⟩
  · intro n hn e he
    rw [hN] at hn
    obtain ⟨h1, h2⟩ := h.out_src n hn e he
    rw [hE, edges_getD_transpose]
    exact ⟨h1, h2⟩
  · intro n hn
    rw [hN] at hn
    rw [degrees_getD_transpose]
    exact h.in_deg n hn
  · intro n hn
    rw [hN] at hn
    rw [degrees_getD_transpose]
    exact h.out_deg n hn
  · intro n hn e he
    rw [hN] at hn
    obtain ⟨h1, h2⟩ := h.cross_in n hn e he
    have hsd : g.transpose.dstN e = g.srcN e := by
      unfold Graph.dstN Graph.srcN
      rw [edges_getD_transpose]
      rfl
    rw [hsd, hN]
    exact ⟨h1, h2⟩
  · intro n hn e he
    rw [hN] at hn
    obtain ⟨h1, h2⟩ := h.cross_out n hn e he
    have hsd : g.transpose.srcN e = g.dstN e := by
      unfold Graph.srcN Graph.dstN
      rw [edges_getD_transpose]
      rfl
    rw [hsd, hN]
    exact ⟨h1, h2⟩

theorem chain_length_lt (g : Graph) (next : Nat → Int) (l : List Nat) (h : Int)
    (hc : chainSegS next h (-1) l) (hb : ∀ e ∈ l, e < g.edges.length) :
    l.length < g.edges.length + 1 :=
  Nat.lt_succ_of_le (nodupLengthLe (chainSegS_nodup next l h hc) hb)

theorem wfOutHalf_of_rep (g : Graph) (O I : Nat → List Nat) (h : GraphRep g O I) :
    g.wfOutHalf = true := by
  unfold Graph.wfOutHalf
  rw [List.all_eq_true]
  intro n hn
  rw [List.mem_range] at hn
  have hchain := h.out_chain n hn
  have hbound : ∀ e ∈ O n, e < g.edges.length := fun e he => (h.out_src n hn e he).1
  have hwalk : walkOut g (g.FirstOutEdge (n : Int)) (g.edges.length + 1) = some (O n) :=
    walkOut_of_chainSeg g (O n) _ _ (chainSegS_mono _ _ _ _ hchain)
      (chain_length_lt g _ (O n) _ hchain hbound)
  simp only [hwalk]
  rw [Bool.and_eq_true, List.all_eq_true]
  constructor
  · intro e he
    rw [Bool.and_eq_true]
    constructor
    · rw [decide_eq_true_eq]
      have := (h.out_src n hn e he).2
      simpa [Graph.edgeAt] using this
    · obtain ⟨hdn, hmem⟩ := h.cross_out n hn e he
      have hich := h.in_chain (g.dstN e) hdn
      have hibound : ∀ x ∈ I (g.dstN e), x < g.edges.length :=
        fun x hx => (h.in_dst (g.dstN e) hdn x hx).1
      have hhead : g.FirstInEdge ((g.dstN e : Nat) : Int) =
          g.FirstInEdge (g.edgeAt (e : Int)).dst := by
        apply FirstInEdge_toNat_congr
        unfold Graph.dstN Graph.edgeAt
        simp
        omega
      rw [← hhead]
      exact inChainContains_of_mem g e (I (g.dstN e)) _ _ hich
        (chain_length_lt g _ _ _ hich hibound) hmem
  · rw [decide_eq_true_eq]
    have := h.out_deg n hn
    simpa [Graph.OutDegree] using this

theorem WellFormed_of_rep (g : Graph) (O I : Nat → List Nat) (h : GraphRep g O I) :
    g.WellFormed = true := by
  rw [Graph.WellFormed, Bool.and_eq_true]
  refine ⟨wfOutHalf_of_rep g O I h, ?_⟩
  rw [← wfOutHalf_transpose]
  exact wfOutHalf_of_rep g.transpose I O (rep_transpose g O I h)

end Xg

namespace Xg

theorem inChainContains_neg1 (g : Graph) (t : Int) (fuel : Nat) :
    inChainContains g t (-1) fuel = false := by
  cases fuel <;> simp [inChainContains]

theorem outChainContains_neg1 (g : Graph) (t : Int) (fuel : Nat) :
    outChainContains g t (-1) fuel = false := by
  cases fuel <;> simp [outChainContains]

theorem outIds_transpose (g : Graph) (n : Nat) : g.transpose.outIds n = g.inIds n := by
  unfold Graph.outIds Graph.outIdsL Graph.inIds Graph.inIdsL
  rw [FirstOutEdge_transpose, walkOut_transpose, transpose_edges_length]

theorem inIds_transpose (g : Graph) (n : Nat) : g.transpose.inIds n = g.outIds n := by
  unfold Graph.outIds Graph.outIdsL Graph.inIds Graph.inIdsL
  rw [FirstInEdge_transpose, walkIn_transpose, transpose_edges_length]

theorem wfOutHalf_extract (g : Graph) (hwf : g.wfOutHalf = true) (n : Nat)
    (hn : n < g.adj_heads.length) :
    chainSeg (nextOutF g) (g.FirstOutEdge (n : Int)) (-1) (g.outIds n) ∧
    (∀ e ∈ g.outIds n, e < g.edges.length ∧ (g.edges.getD e dummyGE).src = (n : Int)) ∧
    (∀ e ∈ g.outIds n, inChainContains g (e : Int)
      (g.FirstInEdge (g.edges.getD e dummyGE).dst) (g.edges.length + 1) = true) ∧
    (g.out_in_degrees.getD n (0, 0)).1 = ((g.outIds n).length : Int) := by
  unfold Graph.wfOutHalf at hwf
  rw [List.all_eq_true] at hwf
  have hx := hwf n (List.mem_range.mpr hn)
  cases hw : walkOut g (g.FirstOutEdge (n : Int)) (g.edges.length + 1) with
  | none => rw [hw] at hx; simp at hx
  | some l =>
    rw [hw] at hx
    have hids : g.outIds n = l := by
      unfold Graph.outIds Graph.outIdsL
      rw [hw]
      rfl
    rw [Bool.and_eq_true, List.all_eq_true] at hx
    obtain ⟨hall, hdeg⟩ := hx
    rw [hids]
    refine ⟨chainSeg_of_walkOut g _ _ _ hw, ?_, ?_, ?_⟩
    · intro e he
      have h1 := hall e he
      rw [Bool.and_eq_true, decide_eq_true_eq] at h1
      have hsrc : (g.edges.getD e dummyGE).src = (n : Int) := by
        have := h1.1
        simpa [Graph.edgeAt] using this
      refine ⟨?_, hsrc⟩
      by_contra hbig
      push_neg at hbig
      rw [List.getD_eq_default _ _ (by omega)] at hsrc
      simp only [dummyGE] at hsrc
      omega
    · intro e he
      have h1 := hall e he
      rw [Bool.and_eq_true] at h1
      have := h1.2
      simpa [Graph.edgeAt] using this
    · rw [decide_eq_true_eq] at hdeg
      simpa [Graph.OutDegree] using hdeg

theorem wfInHalf_extract (g : Graph) (hwf : g.wfInHalf = true) (n : Nat)
    (hn : n < g.adj_heads.length) :
    chainSeg (nextInF g) (g.FirstInEdge (n : Int)) (-1) (g.inIds n) ∧
    (∀ e ∈ g.inIds n, e < g.edges.length ∧ (g.edges.getD e dummyGE).dst = (n : Int)) ∧
    (∀ e ∈ g.inIds n, outChainContains g (e : Int)
      (g.FirstOutEdge (g.edges.getD e dummyGE).src) (g.edges.length + 1) = true) ∧
    (g.out_in_degrees.getD n (0, 0)).2 = ((g.inIds n).length : Int) := by
  have hwfT : g.transpose.wfOutHalf = true := by rw [wfOutHalf_transpose]; exact hwf
  have hnT : n < g.transpose.adj_heads.length := by rw [transpose_adj_length]; exact hn
  obtain ⟨h1, h2, h3, h4⟩ := wfOutHalf_extract g.transpose hwfT n hnT
  rw [outIds_transpose] at h1 h2 h3 h4
  refine ⟨?_, ?_, ?_, ?_⟩
  · rw [FirstOutEdge_transpose] at h1
    refine chainSeg_congr _ _ _ _ _ (fun e _ => nextOutF_transpose g e) h1
  · intro e he
    obtain ⟨hb, hs⟩ := h2 e he
    rw [transpose_edges_length] at hb
    rw [edges_getD_transpose] at hs
    exact ⟨hb, hs⟩
  · intro e he
    have h5 := h3 e he
    rw [edges_getD_transpose, transpose_edges_length] at h5
    have h6 : (g.edges.getD e dummyGE).transposeE.dst = (g.edges.getD e dummyGE).src := rfl
    rw [h6, FirstInEdge_transpose] at h5
    rw [inChainContains_transpose] at h5
    exact h5
  · rw [degrees_getD_transpose] at h4
    exact h4

end Xg

namespace Xg

theorem srcN_transpose (g : Graph) (e : Nat) : g.transpose.srcN e = g.dstN e := by
  unfold Graph.srcN Graph.dstN
  rw [edges_getD_transpose]
  rfl

theorem dstN_transpose (g : Graph) (e : Nat) : g.transpose.dstN e = g.srcN e := by
  unfold Graph.srcN Graph.dstN
  rw [edges_getD_transpose]
  rfl

theorem crossO_extract (g : Graph) (hwo : g.wfOutHalf = true) (hwi : g.wfInHalf = true)
    (n : Nat) (hn : n < g.adj_heads.length) (e : Nat) (he : e ∈ g.outIds n) :
    g.dstN e < g.adj_heads.length ∧ e ∈ g.inIds (g.dstN e) := by
  obtain ⟨hch, hsrc, hcont, _⟩ := wfOutHalf_extract g hwo n hn
  have hc := hcont e he
  have hdn : g.dstN e < g.adj_heads.length := by
    by_contra hbig
    push_neg at hbig
    have hhead : g.FirstInEdge (g.edges.getD e dummyGE).dst = -1 := by
      unfold Graph.FirstInEdge
      rw [List.getD_eq_default]
      exact hbig
    rw [hhead, inChainContains_neg1] at hc
    exact absurd hc (by simp)
  obtain ⟨hich, _, _, _⟩ := wfInHalf_extract g hwi (g.dstN e) hdn
  have hhead2 : g.FirstInEdge ((g.dstN e : Nat) : Int) =
      g.FirstInEdge (g.edges.getD e dummyGE).dst := by
    apply FirstInEdge_toNat_congr
    unfold Graph.dstN
    omega
  rw [← hhead2] at hc
  refine ⟨hdn, ?_⟩
  exact mem_of_pointer (nextInF g) e _ _ hich
    (contains_pointer_in g ((e : Nat) : Int) _ _ _ hich hc).2

theorem strictO_extract (g : Graph) (hwo : g.wfOutHalf = true) (hwi : g.wfInHalf = true)
    (n : Nat) (hn : n < g.adj_heads.length) :
    chainSegS (nextOutF g) (g.FirstOutEdge (n : Int)) (-1) (g.outIds n) := by
  obtain ⟨hch, hsrc, hcont, _⟩ := wfOutHalf_extract g hwo n hn
  apply chainSeg_upgrade _ _ _ hch
  intro e he
  obtain ⟨hdn, hmem⟩ := crossO_extract g hwo hwi n hn e he
  obtain ⟨_, _, hocont, _⟩ := wfInHalf_extract g hwi (g.dstN e) hdn
  have hoc := hocont e hmem
  rw [(hsrc e he).2] at hoc
  exact (contains_pointer_out g _ _ _ _ hch hoc).2

theorem crossI_extract (g : Graph) (hwo : g.wfOutHalf = true) (hwi : g.wfInHalf = true)
    (n : Nat) (hn : n < g.adj_heads.length) (e : Nat) (he : e ∈ g.inIds n) :
    g.srcN e < g.adj_heads.length ∧ e ∈ g.outIds (g.srcN e) := by
  have hwoT : g.transpose.wfOutHalf = true := by rw [wfOutHalf_transpose]; exact hwi
  have hwiT : g.transpose.wfInHalf = true := by rw [wfInHalf_transpose]; exact hwo
  have hnT : n < g.transpose.adj_heads.length := by rw [transpose_adj_length]; exact hn
  have heT : e ∈ g.transpose.outIds n := by rw [outIds_transpose]; exact he
  have := crossO_extract g.transpose hwoT hwiT n hnT e heT
  rw [dstN_transpose, transpose_adj_length, inIds_transpose] at this
  exact this

theorem strictI_extract (g : Graph) (hwo : g.wfOutHalf = true) (hwi : g.wfInHalf = true)
    (n : Nat) (hn : n < g.adj_heads.length) :
    chainSegS (nextInF g) (g.FirstInEdge (n : Int)) (-1) (g.inIds n) := by
  have hwoT : g.transpose.wfOutHalf = true := by rw [wfOutHalf_transpose]; exact hwi
  have hwiT : g.transpose.wfInHalf = true := by rw [wfInHalf_transpose]; exact hwo
  have hnT : n < g.transpose.adj_heads.length := by rw [transpose_adj_length]; exact hn
  have := strictO_extract g.transpose hwoT hwiT n hnT
  rw [outIds_transpose, FirstOutEdge_transpose] at this
  exact chainSegS_congr _ _ _ _ _ (fun e _ => nextOutF_transpose g e) this

/-- A well-formed graph whose two per-node vectors have equal length (a
structural invariant the C++ class maintains by construction) is fully
represented by its traversal chains. -/
theorem rep_of_WellFormed (g : Graph) (hwf : g.WellFormed = true)
    (hlen : g.out_in_degrees.length = g.adj_heads.length) :
    GraphRep g g.outIds g.inIds := by
  rw [Graph.WellFormed, Bool.and_eq_true] at hwf
  obtain ⟨hwo, hwi⟩ := hwf
  refine ⟨⟨hlen, ?_, ?_, ?_, ?_, ?_, ?_⟩, ?_, ?_⟩
  · exact strictO_extract g hwo hwi
  · exact strictI_extract g hwo hwi
  · intro n hn e he
    exact (wfOutHalf_extract g hwo n hn).2.1 e he
  · intro n hn e he
    exact (wfInHalf_extract g hwi n hn).2.1 e he
  · intro n hn
    exact (wfOutHalf_extract g hwo n hn).2.2.2
  · intro n hn
    exact (wfInHalf_extract g hwi n hn).2.2.2
  · exact crossO_extract g hwo hwi
  · exact crossI_extract g hwo hwi

end Xg

namespace Xg

theorem getDAppendLt {α : Type} (l l2 : List α) (k : Nat) (d : α) (h : k < l.length) :
    (l ++ l2).getD k d = l.getD k d := by
  simp only [List.getD_eq_getElem?_getD]
  rw [List.getElem?_append]
  simp [h]

theorem getDAppendLen {α : Type} (l : List α) (x : α) (d : α) :
    (l ++ [x]).getD l.length d = x := by
  simp only [List.getD_eq_getElem?_getD]
  rw [List.getElem?_append_right (Nat.le_refl _)]
  simp

/-! ### Effect of AddEdge -/

theorem AddEdge_id (g : Graph) (s d lab : Int) :
    (g.AddEdge s d lab).1 = (g.edges.length : Int) := by
  simp [Graph.AddEdge]

theorem AddEdge_edges_len (g : Graph) (s d lab : Int) :
    (g.AddEdge s d lab).2.edges.length = g.edges.length + 1 := by
  simp [Graph.AddEdge]

theorem AddEdge_adj_len (g : Graph) (s d lab : Int) :
    (g.AddEdge s d lab).2.adj_heads.length = g.adj_heads.length := by
  simp [Graph.AddEdge, lengthModify]

theorem AddEdge_deg_len (g : Graph) (s d lab : Int) :
    (g.AddEdge s d lab).2.out_in_degrees.length = g.out_in_degrees.length := by
  simp [Graph.AddEdge, lengthModify]

theorem AddEdge_edges_getD_lt (g : Graph) (s d lab : Int) (k : Nat) (h : k < g.edges.length) :
    (g.AddEdge s d lab).2.edges.getD k dummyGE = g.edges.getD k dummyGE := by
  simp only [Graph.AddEdge]
  exact getDAppendLt g.edges _ k dummyGE h

theorem AddEdge_edges_getD_new (g : Graph) (s d lab : Int) :
    (g.AddEdge s d lab).2.edges.getD g.edges.length dummyGE =
      ⟨lab, s, d, g.FirstOutEdge s, g.FirstInEdge d⟩ := by
  simp only [Graph.AddEdge]
  exact getDAppendLen g.edges _ dummyGE

theorem AddEdge_FirstOut (g : Graph) (s d lab : Int) (hs : s.toNat < g.adj_heads.length)
    (n : Nat) :
    (g.AddEdge s d lab).2.FirstOutEdge (n : Int) =
      if n = s.toNat then (g.edges.length : Int) else g.FirstOutEdge (n : Int) := by
  simp only [Graph.AddEdge, Graph.FirstOutEdge, Int.toNat_natCast, getDModify, lengthModify]
  by_cases h1 : s.toNat = n <;> by_cases h2 : d.toNat = n <;>
    by_cases h3 : n < g.adj_heads.length <;>
    simp_all [Ne.symm] <;> first | rfl | omega | (split <;> rfl)

theorem AddEdge_FirstIn (g : Graph) (s d lab : Int) (hd : d.toNat < g.adj_heads.length)
    (n : Nat) :
    (g.AddEdge s d lab).2.FirstInEdge (n : Int) =
      if n = d.toNat then (g.edges.length : Int) else g.FirstInEdge (n : Int) := by
  simp only [Graph.AddEdge, Graph.FirstInEdge, Int.toNat_natCast, getDModify, lengthModify]
  by_cases h1 : d.toNat = n <;> by_cases h2 : s.toNat = n <;>
    by_cases h3 : n < g.adj_heads.length <;>
    simp_all [Ne.symm] <;> first | rfl | omega | (split <;> rfl)

theorem AddEdge_deg1 (g : Graph) (s d lab : Int) (hs : s.toNat < g.out_in_degrees.length)
    (n : Nat) :
    ((g.AddEdge s d lab).2.out_in_degrees.getD n (0, 0)).1 =
      if n = s.toNat then (g.out_in_degrees.getD n (0, 0)).1 + 1
      else (g.out_in_degrees.getD n (0, 0)).1 := by
  simp only [Graph.AddEdge, getDModify, lengthModify]
  by_cases h1 : s.toNat = n <;> by_cases h2 : d.toNat = n <;>
    by_cases h3 : n < g.out_in_degrees.length <;>
    simp_all [Ne.symm] <;> first | rfl | omega | (split <;> rfl)

theorem AddEdge_deg2 (g : Graph) (s d lab : Int) (hd : d.toNat < g.out_in_degrees.length)
    (n : Nat) :
    ((g.AddEdge s d lab).2.out_in_degrees.getD n (0, 0)).2 =
      if n = d.toNat then (g.out_in_degrees.getD n (0, 0)).2 + 1
      else (g.out_in_degrees.getD n (0, 0)).2 := by
  simp only [Graph.AddEdge, getDModify, lengthModify]
  by_cases h1 : d.toNat = n <;> by_cases h2 : s.toNat = n <;>
    by_cases h3 : n < g.out_in_degrees.length <;>
    simp_all [Ne.symm] <;> first | rfl | omega | (split <;> rfl)

theorem AddEdge_nextOut (g : Graph) (s d lab : Int) (k : Nat) (h : k < g.edges.length) :
    nextOutF (g.AddEdge s d lab).2 k = nextOutF g k := by
  unfold nextOutF
  rw [AddEdge_edges_getD_lt g s d lab k h]

theorem AddEdge_nextIn (g : Graph) (s d lab : Int) (k : Nat) (h : k < g.edges.length) :
    nextInF (g.AddEdge s d lab).2 k = nextInF g k := by
  unfold nextInF
  rw [AddEdge_edges_getD_lt g s d lab k h]

theorem AddEdge_chain_out (g : Graph) (s d lab : Int) (l : List Nat) (h : Int)
    (hc : chainSegS (nextOutF g) h (-1) l) (hb : ∀ x ∈ l, x < g.edges.length) :
    chainSegS (nextOutF (g.AddEdge s d lab).2) h (-1) l :=
  chainSegS_congr _ _ _ _ _ (fun e he => (AddEdge_nextOut g s d lab e (hb e he)).symm) hc

theorem AddEdge_chain_in (g : Graph) (s d lab : Int) (l : List Nat) (h : Int)
    (hc : chainSegS (nextInF g) h (-1) l) (hb : ∀ x ∈ l, x < g.edges.length) :
    chainSegS (nextInF (g.AddEdge s d lab).2) h (-1) l :=
  chainSegS_congr _ _ _ _ _ (fun e he => (AddEdge_nextIn g s d lab e (hb e he)).symm) hc

theorem AddEdge_chain_out_prepend (g : Graph) (s d lab : Int) (l : List Nat)
    (hc : chainSegS (nextOutF g) (g.FirstOutEdge s) (-1) l)
    (hb : ∀ x ∈ l, x < g.edges.length) :
    chainSegS (nextOutF (g.AddEdge s d lab).2) ((g.edges.length : Int)) (-1)
      (g.edges.length :: l) := by
  rw [chainSegS_cons]
  refine ⟨rfl, ?_⟩
  have hnew : nextOutF (g.AddEdge s d lab).2 g.edges.length = g.FirstOutEdge s := by
    unfold nextOutF
    rw [AddEdge_edges_getD_new]
  rw [hnew]
  exact AddEdge_chain_out g s d lab l _ hc hb

theorem AddEdge_chain_in_prepend (g : Graph) (s d lab : Int) (l : List Nat)
    (hc : chainSegS (nextInF g) (g.FirstInEdge d) (-1) l)
    (hb : ∀ x ∈ l, x < g.edges.length) :
    chainSegS (nextInF (g.AddEdge s d lab).2) ((g.edges.length : Int)) (-1)
      (g.edges.length :: l) := by
  rw [chainSegS_cons]
  refine ⟨rfl, ?_⟩
  have hnew : nextInF (g.AddEdge s d lab).2 g.edges.length = g.FirstInEdge d := by
    unfold nextInF
    rw [AddEdge_edges_getD_new]
  rw [hnew]
  exact AddEdge_chain_in g s d lab l _ hc hb

end Xg

namespace Xg

/-- The edge-array update performed by the unlink when the removed edge
has a predecessor j on the chain. -/
def predUpdOut (g : Graph) (j : Nat) (v : Int) : Graph :=
  { g with edges := g.edges.modify (fun e2 => { e2 with next_out_edge_id := v }) j }

theorem predUpdOut_deg (g : Graph) (j : Nat) (v : Int) :
    (predUpdOut g j v).out_in_degrees = g.out_in_degrees := rfl

theorem predUpdOut_adj (g : Graph) (j : Nat) (v : Int) :
    (predUpdOut g j v).adj_heads = g.adj_heads := rfl

theorem NextOutEdge_coe (g : Graph) (e : Nat) : g.NextOutEdge ((e : Nat) : Int) = nextOutF g e := by
  simp [Graph.NextOutEdge, Graph.edgeAt, nextOutF]

theorem NextInEdge_coe (g : Graph) (e : Nat) : g.NextInEdge ((e : Nat) : Int) = nextInF g e := by
  simp [Graph.NextInEdge, Graph.edgeAt, nextInF]

/-- Run of the RemoveOutEdge unlink walk along a strict chain that
contains the target: it rewrites the head (no predecessor yet and empty
scanned prefix) or the last scanned element's next pointer. -/
theorem removeOutLoop_final (g : Graph) (s : Int) (eid : Nat) (rest : List Nat) :
    ∀ (scan : List Nat) (prev ptr : Int) (fuel : Nat),
      scan.length + 1 ≤ fuel →
      eid ∉ scan →
      chainSegS (nextOutF g) ptr (-1) (scan ++ eid :: rest) →
      removeOutLoop g s (eid : Int) prev ptr fuel =
        match scan.getLast? with
        | none => if prev = -1 then
            { g with adj_heads := g.adj_heads.modify (fun p => (nextOutF g eid, p.2)) s.toNat }
          else predUpdOut g prev.toNat (nextOutF g eid)
        | some j => predUpdOut g j (nextOutF g eid) := by
  intro scan
  induction scan with
  | nil =>
    intro prev ptr fuel hfuel hnmem hchain
    rw [List.nil_append, chainSegS_cons] at hchain
    obtain ⟨hptr, _⟩ := hchain
    cases fuel with
    | zero => omega
    | succ fuel =>
      have hne2 : ((eid : Nat) : Int) ≠ -1 := by omega
      subst hptr
      simp only [removeOutLoop, List.getLast?_nil]
      rw [if_neg hne2, if_pos trivial, NextOutEdge_coe]
      by_cases hp : prev = -1
      · rw [if_pos hp, if_pos hp]
      · rw [if_neg hp, if_neg hp]
        rfl
  | cons a scan' ih =>
    intro prev ptr fuel hfuel hnmem hchain
    rw [List.cons_append, chainSegS_cons] at hchain
    obtain ⟨hptr, hchain2⟩ := hchain
    cases fuel with
    | zero => simp at hfuel
    | succ fuel =>
      have hne : ptr ≠ -1 := by omega
      have hane : a ≠ eid := fun h => hnmem (h ▸ List.mem_cons_self a scan')
      have hptrne : ptr ≠ ((eid : Nat) : Int) := by
        rw [hptr]
        intro hx
        exact hane (by omega)
      simp only [removeOutLoop, hne, if_false, hptrne]
      have hnext : g.NextOutEdge ptr = nextOutF g a := by
        rw [hptr, NextOutEdge_coe]
      rw [hnext]
      have := ih ptr (nextOutF g a) fuel (by simpa using hfuel)
        (fun h => hnmem (List.mem_cons_of_mem a h)) hchain2
      rw [this]
      cases scan' with
      | nil =>
        simp only [List.getLast?_nil, List.getLast?_singleton]
        have hpne : ptr ≠ -1 := hne
        rw [if_neg hpne]
        rw [hptr]
        simp
      | cons b scan'' =>
        rw [List.getLast?_cons_cons]
        rfl

end Xg

namespace Xg

theorem getDModifyNe {α : Type} (l : List α) (f : α → α) (i m : Nat) (d : α) (h : i ≠ m) :
    (l.modify f i).getD m d = l.getD m d := by
  rw [getDModify]
  simp [h]

theorem getDModifySnd (A : List (Int × Int)) (f : Int × Int → Int × Int) (i m : Nat)
    (d : Int × Int) (hf : ∀ p, (f p).2 = p.2) :
    ((A.modify f i).getD m d).2 = (A.getD m d).2 := by
  simp only [List.getD_eq_getElem?_getD, getElemModify]
  by_cases h : i = m
  · subst h
    cases A[i]? <;> simp [hf]
  · simp [h]

theorem getDModifyFst (A : List (Int × Int)) (f : Int × Int → Int × Int) (i m : Nat)
    (d : Int × Int) (hf : ∀ p, (f p).1 = p.1) :
    ((A.modify f i).getD m d).1 = (A.getD m d).1 := by
  simp only [List.getD_eq_getElem?_getD, getElemModify]
  by_cases h : i = m
  · subst h
    cases A[i]? <;> simp [hf]
  · simp [h]

theorem predUpdOut_getD (g : Graph) (j : Nat) (v : Int) (k : Nat) :
    (predUpdOut g j v).edges.getD k dummyGE =
      if j = k ∧ k < g.edges.length then
        { g.edges.getD k dummyGE with next_out_edge_id := v }
      else g.edges.getD k dummyGE := by
  unfold predUpdOut
  simp only [getDModify]

theorem nextOutF_predUpd (g : Graph) (j : Nat) (v : Int) (hj : j < g.edges.length) (k : Nat) :
    nextOutF (predUpdOut g j v) k = if k = j then v else nextOutF g k := by
  unfold nextOutF
  rw [predUpdOut_getD]
  by_cases h : k = j
  · subst h
    simp [hj]
  · simp [Ne.symm h, h]

/-- Full effect of RemoveOutEdge on a graph whose source node has the
strict out chain C containing the removed edge. -/
theorem RemoveOutEdge_effect (g : Graph) (s : Int) (eid : Nat) (C : List Nat)
    (hsadj : s.toNat < g.adj_heads.length)
    (hsdeg : s.toNat < g.out_in_degrees.length)
    (hchain : chainSegS (nextOutF g) (g.FirstOutEdge s) (-1) C)
    (hmem : eid ∈ C)
    (hbound : ∀ x ∈ C, x < g.edges.length) :
    (g.RemoveOutEdge s (eid : Int)).edges.length = g.edges.length ∧
    (∀ k, ((g.RemoveOutEdge s (eid : Int)).edges.getD k dummyGE).label =
        (g.edges.getD k dummyGE).label ∧
      ((g.RemoveOutEdge s (eid : Int)).edges.getD k dummyGE).src =
        (g.edges.getD k dummyGE).src ∧
      ((g.RemoveOutEdge s (eid : Int)).edges.getD k dummyGE).dst =
        (g.edges.getD k dummyGE).dst ∧
      ((g.RemoveOutEdge s (eid : Int)).edges.getD k dummyGE).next_in_edge_id =
        (g.edges.getD k dummyGE).next_in_edge_id) ∧
    (g.RemoveOutEdge s (eid : Int)).adj_heads.length = g.adj_heads.length ∧
    (g.RemoveOutEdge s (eid : Int)).out_in_degrees.length = g.out_in_degrees.length ∧
    (∀ n : Nat, n ≠ s.toNat →
      (g.RemoveOutEdge s (eid : Int)).FirstOutEdge (n : Int) = g.FirstOutEdge (n : Int)) ∧
    (∀ m : Int, (g.RemoveOutEdge s (eid : Int)).FirstInEdge m = g.FirstInEdge m) ∧
    chainSegS (nextOutF (g.RemoveOutEdge s (eid : Int)))
      ((g.RemoveOutEdge s (eid : Int)).FirstOutEdge s) (-1) (C.erase eid) ∧
    (∀ (h : Int) (l : List Nat), chainSegS (nextOutF g) h (-1) l → (∀ x ∈ l, x ∉ C) →
      chainSegS (nextOutF (g.RemoveOutEdge s (eid : Int))) h (-1) l) ∧
    (∀ k, nextInF (g.RemoveOutEdge s (eid : Int)) k = nextInF g k) ∧
    (∀ n : Nat, (((g.RemoveOutEdge s (eid : Int)).out_in_degrees.getD n (0, 0)).1 =
        (if n = s.toNat then (g.out_in_degrees.getD n (0, 0)).1 - 1
         else (g.out_in_degrees.getD n (0, 0)).1)) ∧
      ((g.RemoveOutEdge s (eid : Int)).out_in_degrees.getD n (0, 0)).2 =
        (g.out_in_degrees.getD n (0, 0)).2) := by
  obtain ⟨scan, rest, hC⟩ := List.append_of_mem hmem
  subst hC
  have hnd : (scan ++ eid :: rest).Nodup := chainSegS_nodup _ _ _ hchain
  have hescan : eid ∉ scan := by
    rw [List.nodup_append] at hnd
    intro hx
    exact hnd.2.2 hx (List.mem_cons_self eid rest)
  have herest : eid ∉ rest := by
    rw [List.nodup_append] at hnd
    exact (List.nodup_cons.mp hnd.2.1).1
  have hfuel : scan.length + 1 ≤ g.edges.length + 1 := by
    have h1 := nodupLengthLe hnd hbound
    simp only [List.length_append, List.length_cons] at h1
    omega
  have hrun := removeOutLoop_final g s eid rest scan (-1) (g.FirstOutEdge s)
    (g.edges.length + 1) hfuel hescan hchain
  rcases List.eq_nil_or_concat scan with rfl | ⟨as, j, rfl⟩
  · -- eid is the chain head: the walk rewrites the source's out head.
    rw [List.nil_append, chainSegS_cons] at hchain
    obtain ⟨hhead, htail⟩ := hchain
    simp only [List.getLast?_nil] at hrun
    rw [if_pos trivial] at hrun
    unfold Graph.RemoveOutEdge
    rw [hrun]
    rw [List.nil_append, List.erase_cons_head]
    refine ⟨rfl, fun k => ⟨rfl, rfl, rfl, rfl⟩, lengthModify _ _ _, lengthModify _ _ _,
      ?_, ?_, ?_, ?_, fun k => rfl, ?_⟩
    · intro n hn
      simp only [Graph.FirstOutEdge, Int.toNat_natCast]
      rw [getDModifyNe _ _ _ _ _ (Ne.symm hn)]
    · intro m
      simp only [Graph.FirstInEdge]
      exact getDModifySnd _ _ _ _ _ (fun p => rfl)
    · show chainSegS (nextOutF g)
        (((g.adj_heads.modify (fun p => (nextOutF g eid, p.2)) s.toNat).getD s.toNat (-1, -1)).1)
        (-1) rest
      have hfo : ((g.adj_heads.modify (fun p => (nextOutF g eid, p.2)) s.toNat).getD
          s.toNat (-1, -1)).1 = nextOutF g eid := by
        rw [getDModify]
        simp [hsadj]
      rw [hfo]
      exact htail
    · intro h l hc hdisj
      exact hc
    · intro n
      refine ⟨?_, getDModifySnd _ _ _ _ _ (fun p => rfl)⟩
      rw [getDModify]
      by_cases hn : n = s.toNat
      · subst hn
        simp [predUpdOut_deg, hsdeg]
      · simp [predUpdOut_deg, Ne.symm hn, hn]
  · -- eid has a predecessor j (the last scanned element); the walk
    -- rewrites j's next-out pointer.
    simp only [List.concat_eq_append] at hchain hmem hbound hnd hescan hfuel hrun ⊢
    have hjC : j ∈ (as ++ [j]) ++ eid :: rest := by simp
    have hjlen : j < g.edges.length := hbound j hjC
    rw [List.getLast?_concat] at hrun
    unfold Graph.RemoveOutEdge
    rw [hrun]
    have heidlen : eid < g.edges.length := hbound eid hmem
    -- nodup facts
    have hndsplit := hnd
    rw [List.nodup_append] at hndsplit
    have hjas : j ∉ as := by
      have h1 := hndsplit.1
      rw [List.nodup_append] at h1
      intro hx
      exact h1.2.2 hx (by simp)
    have hjrest : j ∉ rest := by
      intro hx
      exact hndsplit.2.2 (by simp) (List.mem_cons_of_mem eid hx)
    have hjeid : j ≠ eid := by
      intro hx
      subst hx
      exact hescan (by simp)
    -- split the original chain
    rw [chainSegS_append] at hchain
    obtain ⟨m, hm1, hm2⟩ := hchain
    rw [chainSegS_append] at hm1
    obtain ⟨m1, has, hj1⟩ := hm1
    rw [chainSegS_cons] at hj1
    obtain ⟨hm1j, hj2⟩ := hj1
    rw [chainSegS_nil] at hj2
    rw [chainSegS_cons] at hm2
    obtain ⟨hmeid, htail⟩ := hm2
    -- hj2 : nextOutF g j = m, hmeid : m = eid
    have hnj : nextOutF g j = ((eid : Nat) : Int) := by rw [hj2, hmeid]
    have hnext' : ∀ k, nextOutF (predUpdOut g j (nextOutF g eid)) k =
        if k = j then nextOutF g eid else nextOutF g k :=
      nextOutF_predUpd g j (nextOutF g eid) hjlen
    refine ⟨?_, ?_, rfl, lengthModify _ _ _, fun n _ => rfl, fun m2 => rfl, ?_, ?_, ?_, ?_⟩
    · show (predUpdOut g j (nextOutF g eid)).edges.length = g.edges.length
      unfold predUpdOut
      exact lengthModify _ _ _
    · intro k
      show ((predUpdOut g j (nextOutF g eid)).edges.getD k dummyGE).label = _ ∧ _
      rw [predUpdOut_getD]
      by_cases hk : j = k ∧ k < g.edges.length
      · simp [hk]
      · simp [hk]
    · -- the updated chain
      have herase : (((as ++ [j]) ++ eid :: rest).erase eid) = (as ++ [j]) ++ rest := by
        rw [List.erase_append_right _ hescan, List.erase_cons_head]
      rw [herase]
      show chainSegS (nextOutF (predUpdOut g j (nextOutF g eid))) (g.FirstOutEdge s) (-1) _
      rw [chainSegS_append]
      refine ⟨nextOutF g eid, ?_, ?_⟩
      · rw [chainSegS_append]
        refine ⟨m1, ?_, ?_⟩
        · refine chainSegS_congr _ _ _ _ _ ?_ has
          intro e he
          rw [hnext']
          have : e ≠ j := fun hx => hjas (hx ▸ he)
          simp [this]
        · rw [chainSegS_cons]
          refine ⟨hm1j, ?_⟩
          rw [chainSegS_nil, hnext']
          simp
      · refine chainSegS_congr _ _ _ _ _ ?_ htail
        intro e he
        rw [hnext']
        have : e ≠ j := fun hx => hjrest (hx ▸ he)
        simp [this]
    · intro h l hc hdisj
      show chainSegS (nextOutF (predUpdOut g j (nextOutF g eid))) h (-1) l
      refine chainSegS_congr _ _ _ _ _ ?_ hc
      intro e he
      rw [hnext']
      have : e ≠ j := fun hx => (hdisj e he) (hx ▸ hjC)
      simp [this]
    · intro k
      show nextInF (predUpdOut g j (nextOutF g eid)) k = nextInF g k
      unfold nextInF
      rw [predUpdOut_getD]
      by_cases hk : j = k ∧ k < g.edges.length
      · simp [hk]
      · simp [hk]
    · intro n
      show (((predUpdOut g j (nextOutF g eid)).out_in_degrees.modify
          (fun p => (p.1 - 1, p.2)) s.toNat).getD n (0, 0)).1 =
        (if n = s.toNat then (g.out_in_degrees.getD n (0, 0)).1 - 1
         else (g.out_in_degrees.getD n (0, 0)).1) ∧
        (((predUpdOut g j (nextOutF g eid)).out_in_degrees.modify
          (fun p => (p.1 - 1, p.2)) s.toNat).getD n (0, 0)).2 =
          (g.out_in_degrees.getD n (0, 0)).2
      refine ⟨?_, getDModifySnd _ _ _ _ _ (fun p => rfl)⟩
      rw [getDModify]
      by_cases hn : n = s.toNat
      · subst hn
        simp [predUpdOut_deg, hsdeg]
      · simp [predUpdOut_deg, Ne.symm hn, hn]

end Xg

namespace Xg

theorem edgeAt_coe (g : Graph) (e : Nat) :
    g.edgeAt ((e : Nat) : Int) = g.edges.getD e dummyGE := by
  simp [Graph.edgeAt]

/-- Effect of the first Coalesce loop, processing the suffix S of the in
chain of rhs: every processed edge is unlinked from its source's out
chain and, unless its source is lhs, replaced by a fresh edge into lhs.
NEW collects the fresh edge ids (most recent first in lhs's in chain). -/
theorem coalesceLoop1_effect (lhs rhs : Nat) :
    ∀ (S : List Nat) (g : Graph) (O I : Nat → List Nat) (ptr : Int) (fuel : Nat),
      ChainData g O I →
      lhs < g.adj_heads.length →
      rhs < g.adj_heads.length →
      lhs ≠ rhs →
      chainSegS (nextInF g) ptr (-1) S →
      (∀ e ∈ S, e < g.edges.length ∧
        (g.edges.getD e dummyGE).dst = (rhs : Int) ∧
        (g.edges.getD e dummyGE).src = ((g.srcN e : Nat) : Int) ∧
        g.srcN e ≠ rhs ∧ g.srcN e < g.adj_heads.length ∧
        e ∈ O (g.srcN e)) →
      S.length + 1 ≤ fuel →
      ∃ (g' : Graph) (NEW : List Nat) (O' I' : Nat → List Nat),
        coalesceLoop1 ((lhs : Nat) : Int) g ptr fuel = g' ∧
        ChainData g' O' I' ∧
        g'.edges.length = g.edges.length + NEW.length ∧
        g'.adj_heads.length = g.adj_heads.length ∧
        (∀ k, k < g.edges.length →
          ((g'.edges.getD k dummyGE).label = (g.edges.getD k dummyGE).label ∧
           (g'.edges.getD k dummyGE).src = (g.edges.getD k dummyGE).src ∧
           (g'.edges.getD k dummyGE).dst = (g.edges.getD k dummyGE).dst ∧
           (g'.edges.getD k dummyGE).next_in_edge_id =
             (g.edges.getD k dummyGE).next_in_edge_id)) ∧
        (∀ c ∈ NEW, g.edges.length ≤ c ∧ c < g'.edges.length ∧
          (g'.edges.getD c dummyGE).dst = ((lhs : Nat) : Int) ∧
          ∃ e ∈ S, (g'.edges.getD c dummyGE).src = (g.edges.getD e dummyGE).src ∧
            (g'.edges.getD c dummyGE).label = (g.edges.getD e dummyGE).label) ∧
        (∀ e ∈ S, g.srcN e ≠ lhs → ∃ c ∈ NEW,
          (g'.edges.getD c dummyGE).src = (g.edges.getD e dummyGE).src ∧
          (g'.edges.getD c dummyGE).label = (g.edges.getD e dummyGE).label) ∧
        (∀ n, n < g.adj_heads.length → ∀ k, k < g.edges.length →
          (k ∈ O' n ↔ (k ∈ O n ∧ k ∉ S))) ∧
        (∀ n, n < g.adj_heads.length → ∀ c ∈ O' n, c < g.edges.length ∨ c ∈ NEW) ∧
        (∀ c ∈ NEW, c ∈ O' (g'.srcN c)) ∧
        I' rhs = I rhs ∧
        I' lhs = NEW.reverse ++ I lhs ∧
        (∀ n, n ≠ lhs → I' n = I n) ∧
        NEW.Nodup := by
  intro S
  induction S with
  | nil =>
    intro g O I ptr fuel hcd hlhs hrhs hlr hptr hS hfuel
    rw [chainSegS_nil] at hptr
    subst hptr
    cases fuel with
    | zero => omega
    | succ fuel =>
      refine ⟨g, [], O, I, ?_, hcd, by simp, rfl, ?_, ?_, ?_, ?_, ?_, ?_, rfl, by simp,
        fun n _ => rfl, List.nodup_nil⟩
      · simp [coalesceLoop1]
      · intro k _
        exact ⟨rfl, rfl, rfl, rfl⟩
      · intro c hc
        simp at hc
      · intro e he _
        simp at he
      · intro n _ k _
        simp
      · intro n hn c hc
        exact Or.inl ((hcd.out_src n hn c hc).1)
      · intro c hc
        simp at hc
  | cons e S' ih =>
    intro g O I ptr fuel hcd hlhs hrhs hlr hptr hS hfuel
    rw [chainSegS_cons] at hptr
    obtain ⟨hptre, hptr'⟩ := hptr
    subst hptre
    obtain ⟨helen, hedst, hesrc, hesrcne, hesrclt, hemem⟩ := hS e (List.mem_cons_self e S')
    have hSnodup : (e :: S').Nodup :=
      chainSegS_nodup (nextInF g) (e :: S') ((e : Nat) : Int)
        ((chainSegS_cons _ _ _ _ _).mpr ⟨rfl, hptr'⟩)
    have heS' : e ∉ S' := (List.nodup_cons.mp hSnodup).1
    cases fuel with
    | zero => omega
    | succ fuel =>
      set sE := g.srcN e with hsE
      -- the removal step
      have hOchain := hcd.out_chain sE hesrclt
      have hObound : ∀ x ∈ O sE, x < g.edges.length :=
        fun x hx => (hcd.out_src sE hesrclt x hx).1
      have hsEadj : ((sE : Nat) : Int).toNat < g.adj_heads.length := by
        simpa using hesrclt
      have hsEdeg : ((sE : Nat) : Int).toNat < g.out_in_degrees.length := by
        rw [hcd.deg_len]
        simpa using hesrclt
      have hOchain' : chainSegS (nextOutF g) (g.FirstOutEdge ((sE : Nat) : Int)) (-1) (O sE) :=
        hOchain
      obtain ⟨ra, rb, rcadj, rcdeg, rd, rd', re, rf, rf', rg⟩ :=
        RemoveOutEdge_effect g ((sE : Nat) : Int) e (O sE) hsEadj hsEdeg hOchain' hemem hObound
      set g2 := g.RemoveOutEdge ((sE : Nat) : Int) ((e : Nat) : Int) with hg2
      have hene : ((e : Nat) : Int) ≠ -1 := by omega
      have hsrcg : (g.edgeAt ((e : Nat) : Int)).src = ((sE : Nat) : Int) := by
        rw [edgeAt_coe]
        exact hesrc
      have hsrc2 : (g2.edgeAt ((e : Nat) : Int)).src = ((sE : Nat) : Int) := by
        rw [edgeAt_coe, (rb e).2.1, ← edgeAt_coe, hsrcg]
      have hlab2 : (g2.edgeAt ((e : Nat) : Int)).label = (g.edges.getD e dummyGE).label := by
        rw [edgeAt_coe]
        exact (rb e).1
      have hg2len : g2.edges.length = g.edges.length := ra
      -- facts about the source chain after removal
      have hOsE_nodup : (O sE).Nodup := chainSegS_nodup _ _ _ hOchain
      by_cases hbr : sE = lhs
      · -- the in-edge comes from lhs itself: it is dropped, no new edge is added
        have hrun1 : coalesceLoop1 ((lhs : Nat) : Int) g ((e : Nat) : Int) (fuel + 1) =
            coalesceLoop1 ((lhs : Nat) : Int) g2 (g2.NextInEdge ((e : Nat) : Int)) fuel := by
          simp only [coalesceLoop1]
          rw [if_neg hene, hsrcg, ← hg2, hsrc2]
          have hcond : ¬ ((sE : Nat) : Int) ≠ ((lhs : Nat) : Int) := by
            simp [hbr]
          rw [if_neg hcond]
        have hold2g : ∀ k,
            ((g2.edges.getD k dummyGE).label = (g.edges.getD k dummyGE).label ∧
             (g2.edges.getD k dummyGE).src = (g.edges.getD k dummyGE).src ∧
             (g2.edges.getD k dummyGE).dst = (g.edges.getD k dummyGE).dst ∧
             (g2.edges.getD k dummyGE).next_in_edge_id =
               (g.edges.getD k dummyGE).next_in_edge_id) := rb
        have hsrcN2 : ∀ k, g2.srcN k = g.srcN k := by
          intro k
          unfold Graph.srcN
          rw [(rb k).2.1]
        set O3 : Nat → List Nat := fun n => if n = sE then (O sE).erase e else O n with hO3
        have hO3sE : O3 sE = (O sE).erase e := by
          rw [hO3]
          simp
        have hO3ne : ∀ n, n ≠ sE → O3 n = O n := by
          intro n hn
          rw [hO3]
          simp [hn]
        have hcd2 : ChainData g2 O3 I := by
          refine ⟨by rw [rcdeg, rcadj, hcd.deg_len], ?_, ?_, ?_, ?_, ?_, ?_⟩
          · intro n hn
            rw [rcadj] at hn
            by_cases hns : n = sE
            · rw [hns, hO3sE]
              exact re
            · rw [rd n (by simpa using hns), hO3ne n hns]
              have hdisj : ∀ x ∈ O n, x ∉ O sE := by
                intro x hx hx2
                have h1 := (hcd.out_src n hn x hx).2
                have h2 := (hcd.out_src sE hesrclt x hx2).2
                rw [h1] at h2
                exact hns (by omega)
              exact rf _ _ (hcd.out_chain n hn) hdisj
          · intro n hn
            rw [rcadj] at hn
            rw [rd']
            exact chainSegS_congr _ _ _ _ _ (fun x hx => (rf' x).symm) (hcd.in_chain n hn)
          · intro n hn x hx
            rw [rcadj] at hn
            by_cases hns : n = sE
            · rw [hns, hO3sE] at hx
              obtain ⟨hb1, hb2⟩ := hcd.out_src sE hesrclt x (List.mem_of_mem_erase hx)
              refine ⟨by omega, ?_⟩
              rw [(rb x).2.1, hns]
              exact hb2
            · rw [hO3ne n hns] at hx
              obtain ⟨hb1, hb2⟩ := hcd.out_src n hn x hx
              refine ⟨by omega, ?_⟩
              rw [(rb x).2.1]
              exact hb2
          · intro n hn x hx
            rw [rcadj] at hn
            obtain ⟨hb1, hb2⟩ := hcd.in_dst n hn x hx
            refine ⟨by omega, ?_⟩
            rw [(rb x).2.2.1]
            exact hb2
          · intro n hn
            rw [rcadj] at hn
            by_cases hns : n = sE
            · rw [hns, hO3sE, (rg sE).1, if_pos (by simp)]
              rw [hns] at hn
              rw [(hcd.out_deg sE hn)]
              have hlen1 : 1 ≤ (O sE).length := List.length_pos_of_mem hemem
              have herlen : ((O sE).erase e).length = (O sE).length - 1 :=
                List.length_erase_of_mem hemem
              rw [herlen]
              push_cast
              omega
            · rw [hO3ne n hns, (rg n).1, if_neg (by simpa using hns)]
              exact hcd.out_deg n hn
          · intro n hn
            rw [rcadj] at hn
            rw [(rg n).2]
            exact hcd.in_deg n hn
        have hptrnew : g2.NextInEdge ((e : Nat) : Int) = nextInF g e := by
          rw [NextInEdge_coe]
          exact rf' e
        have hptr2 : chainSegS (nextInF g2) (nextInF g e) (-1) S' := by
          refine chainSegS_congr _ _ _ _ _ ?_ hptr'
          intro x hx
          exact (rf' x).symm
        have hS2 : ∀ x ∈ S', x < g2.edges.length ∧
            (g2.edges.getD x dummyGE).dst = (rhs : Int) ∧
            (g2.edges.getD x dummyGE).src = ((g2.srcN x : Nat) : Int) ∧
            g2.srcN x ≠ rhs ∧ g2.srcN x < g2.adj_heads.length ∧
            x ∈ O3 (g2.srcN x) := by
          intro x hx
          obtain ⟨hx1, hx2, hx3, hx4, hx5, hx6⟩ := hS x (List.mem_cons_of_mem e hx)
          have hxe : x ≠ e := fun hxx => heS' (hxx ▸ hx)
          rw [hsrcN2 x]
          refine ⟨by omega, ?_, ?_, hx4, by rw [rcadj]; exact hx5, ?_⟩
          · rw [(rb x).2.2.1]
            exact hx2
          · rw [(rb x).2.1]
            exact hx3
          · by_cases hxs : g.srcN x = sE
            · rw [hxs, hO3sE]
              rw [hxs] at hx6
              exact (List.mem_erase_of_ne hxe).mpr hx6
            · rw [hO3ne _ hxs]
              exact hx6
        obtain ⟨g', NEW2, O', I', ihrun, ihcd, ihlen, ihadj, iheold, ihenew, ihcompl,
          ihmemiff, ihonew, ihnewown, ihirhs, ihilhs, ihiother, ihnodup⟩ :=
          ih g2 O3 I (nextInF g e) fuel hcd2 (by rw [rcadj]; exact hlhs)
            (by rw [rcadj]; exact hrhs) hlr hptr2 hS2 (by simp at hfuel ⊢; omega)
        refine ⟨g', NEW2, O', I', ?_, ihcd, ?_, by rw [ihadj, rcadj], ?_,
          ?_, ?_, ?_, ?_, ?_, ?_, ?_, ?_, ihnodup⟩
        · rw [hrun1, hptrnew]
          exact ihrun
        · rw [ihlen, ra]
        · intro k hk
          have h1 := iheold k (by omega)
          have h2 := rb k
          exact ⟨h1.1.trans h2.1, h1.2.1.trans h2.2.1, h1.2.2.1.trans h2.2.2.1,
            h1.2.2.2.trans h2.2.2.2⟩
        · intro c hc
          obtain ⟨hb1, hb2, hb3, x, hx, hb4, hb5⟩ := ihenew c hc
          refine ⟨by omega, by omega, hb3, x, List.mem_cons_of_mem e hx, ?_, ?_⟩
          · rw [hb4, (rb x).2.1]
          · rw [hb5, (rb x).1]
        · intro x hx hxlhs
          rcases List.mem_cons.mp hx with hx0 | hxr
          · rw [hx0] at hxlhs
            exact absurd hbr hxlhs
          · have hx1 := (hS x (List.mem_cons_of_mem e hxr)).1
            obtain ⟨c, hc, hb1, hb2⟩ := ihcompl x hxr (by rw [hsrcN2 x]; exact hxlhs)
            refine ⟨c, hc, ?_, ?_⟩
            · rw [hb1, (rb x).2.1]
            · rw [hb2, (rb x).1]
        · intro n hn k hk
          have h1 := ihmemiff n (by rw [rcadj]; exact hn) k (by omega)
          rw [h1]
          constructor
          · rintro ⟨hk1, hk2⟩
            by_cases hns : n = sE
            · rw [hns, hO3sE] at hk1
              refine ⟨hns ▸ List.mem_of_mem_erase hk1, ?_⟩
              intro hmem2
              rcases List.mem_cons.mp hmem2 with hke | hkS'
              · exact absurd hke (hOsE_nodup.mem_erase_iff.mp hk1).1
              · exact hk2 hkS'
            · rw [hO3ne n hns] at hk1
              refine ⟨hk1, ?_⟩
              intro hmem2
              rcases List.mem_cons.mp hmem2 with hke | hkS'
              · rw [hke] at hk1
                have := (hcd.out_src n hn e hk1).2
                rw [hesrc] at this
                exact hns (by omega)
              · exact hk2 hkS'
          · rintro ⟨hk1, hk2⟩
            have hke : k ≠ e := fun hxx => hk2 (hxx ▸ List.mem_cons_self e S')
            have hkS' : k ∉ S' := fun hxx => hk2 (List.mem_cons_of_mem e hxx)
            refine ⟨?_, hkS'⟩
            by_cases hns : n = sE
            · rw [hns, hO3sE]
              exact (List.mem_erase_of_ne hke).mpr (hns ▸ hk1)
            · rw [hO3ne n hns]
              exact hk1
        · intro n hn c hc
          have h1 := ihonew n (by rw [rcadj]; exact hn) c hc
          rcases h1 with h1 | h1
          · exact Or.inl (by omega)
          · exact Or.inr h1
        · exact ihnewown
        · exact ihirhs
        · exact ihilhs
        · exact ihiother
      · -- the in-edge comes from another node: a fresh edge src -> lhs is added
        set g3 := (g2.AddEdge ((sE : Nat) : Int) ((lhs : Nat) : Int)
          (g.edges.getD e dummyGE).label).2 with hg3
        have hrun1 : coalesceLoop1 ((lhs : Nat) : Int) g ((e : Nat) : Int) (fuel + 1) =
            coalesceLoop1 ((lhs : Nat) : Int) g3 (g3.NextInEdge ((e : Nat) : Int)) fuel := by
          simp only [coalesceLoop1]
          rw [if_neg hene, hsrcg, ← hg2, hsrc2, hlab2]
          have hcond : ((sE : Nat) : Int) ≠ ((lhs : Nat) : Int) := by
            intro hx
            exact hbr (by omega)
          rw [if_pos hcond]
        have hsEadj2 : ((sE : Nat) : Int).toNat < g2.adj_heads.length := by
          rw [rcadj]
          simpa using hesrclt
        have hlhsadj2 : ((lhs : Nat) : Int).toNat < g2.adj_heads.length := by
          rw [rcadj]
          simpa using hlhs
        have hsEdeg2 : ((sE : Nat) : Int).toNat < g2.out_in_degrees.length := by
          rw [rcdeg, hcd.deg_len]
          simpa using hesrclt
        have hlhsdeg2 : ((lhs : Nat) : Int).toNat < g2.out_in_degrees.length := by
          rw [rcdeg, hcd.deg_len]
          simpa using hlhs
        have hg3len : g3.edges.length = g.edges.length + 1 := by
          rw [hg3, AddEdge_edges_len, hg2len]
        have hg3adj : g3.adj_heads.length = g.adj_heads.length := by
          rw [hg3, AddEdge_adj_len, rcadj]
        have hg3deg : g3.out_in_degrees.length = g.out_in_degrees.length := by
          rw [hg3, AddEdge_deg_len, rcdeg]
        have hold3 : ∀ k, k < g.edges.length →
            g3.edges.getD k dummyGE = g2.edges.getD k dummyGE := by
          intro k hk
          rw [hg3]
          exact AddEdge_edges_getD_lt g2 _ _ _ k (by omega)
        have hnew3 : g3.edges.getD g.edges.length dummyGE =
            ⟨(g.edges.getD e dummyGE).label, ((sE : Nat) : Int), ((lhs : Nat) : Int),
              g2.FirstOutEdge ((sE : Nat) : Int), g2.FirstInEdge ((lhs : Nat) : Int)⟩ := by
          rw [hg3, ← hg2len]
          exact AddEdge_edges_getD_new g2 _ _ _
        have hold3g : ∀ k, k < g.edges.length →
            ((g3.edges.getD k dummyGE).label = (g.edges.getD k dummyGE).label ∧
             (g3.edges.getD k dummyGE).src = (g.edges.getD k dummyGE).src ∧
             (g3.edges.getD k dummyGE).dst = (g.edges.getD k dummyGE).dst ∧
             (g3.edges.getD k dummyGE).next_in_edge_id =
               (g.edges.getD k dummyGE).next_in_edge_id) := by
          intro k hk
          rw [hold3 k hk]
          exact rb k
        have hsrcN3 : ∀ k, k < g.edges.length → g3.srcN k = g.srcN k := by
          intro k hk
          unfold Graph.srcN
          rw [(hold3g k hk).2.1]
        have hnextIn3 : ∀ k, k < g.edges.length → nextInF g3 k = nextInF g k := by
          intro k hk
          have h1 : nextInF g3 k = nextInF g2 k := by
            unfold nextInF
            rw [hold3 k hk]
          rw [h1]
          exact rf' k
        set O3 : Nat → List Nat :=
          fun n => if n = sE then (g.edges.length :: (O sE).erase e) else O n with hO3
        set I3 : Nat → List Nat :=
          fun n => if n = lhs then (g.edges.length :: I lhs) else I n with hI3
        have hO3sE : O3 sE = g.edges.length :: (O sE).erase e := by
          rw [hO3]
          simp
        have hO3ne : ∀ n, n ≠ sE → O3 n = O n := by
          intro n hn
          rw [hO3]
          simp [hn]
        have hI3lhs : I3 lhs = g.edges.length :: I lhs := by
          rw [hI3]
          simp
        have hI3ne : ∀ n, n ≠ lhs → I3 n = I n := by
          intro n hn
          rw [hI3]
          simp [hn]
        have hheadsE : g3.FirstOutEdge ((sE : Nat) : Int) = ((g.edges.length : Nat) : Int) := by
          rw [hg3, AddEdge_FirstOut g2 _ _ _ (by simpa using hsEadj2) sE]
          simp [hg2len]
        have hheadOut_ne : ∀ n : Nat, n ≠ sE →
            g3.FirstOutEdge ((n : Nat) : Int) = g.FirstOutEdge ((n : Nat) : Int) := by
          intro n hns
          rw [hg3, AddEdge_FirstOut g2 _ _ _ (by simpa using hsEadj2) n]
          simp only [Int.toNat_natCast]
          rw [if_neg hns]
          exact rd n (by simpa using hns)
        have hheadlhs : g3.FirstInEdge ((lhs : Nat) : Int) = ((g.edges.length : Nat) : Int) := by
          rw [hg3, AddEdge_FirstIn g2 _ _ _ (by simpa using hlhsadj2) lhs]
          simp [hg2len]
        have hheadIn_ne : ∀ n : Nat, n ≠ lhs →
            g3.FirstInEdge ((n : Nat) : Int) = g.FirstInEdge ((n : Nat) : Int) := by
          intro n hnl
          rw [hg3, AddEdge_FirstIn g2 _ _ _ (by simpa using hlhsadj2) n]
          simp only [Int.toNat_natCast]
          rw [if_neg hnl]
          exact rd' _
        have hcd3 : ChainData g3 O3 I3 := by
          refine ⟨by rw [hg3deg, hg3adj, hcd.deg_len], ?_, ?_, ?_, ?_, ?_, ?_⟩
          · -- out chains
            intro n hn
            rw [hg3adj] at hn
            by_cases hns : n = sE
            · rw [hns, hheadsE, hO3sE]
              rw [hg3, ← hg2len]
              exact AddEdge_chain_out_prepend g2 _ _ _ _ re
                (fun x hx => by
                  have := hObound x (List.mem_of_mem_erase hx)
                  omega)
            · rw [hheadOut_ne n hns, hO3ne n hns]
              have hdisj : ∀ x ∈ O n, x ∉ O sE := by
                intro x hx hx2
                have h1 := (hcd.out_src n hn x hx).2
                have h2 := (hcd.out_src sE hesrclt x hx2).2
                rw [h1] at h2
                exact hns (by omega)
              have hchain2 : chainSegS (nextOutF g2) (g.FirstOutEdge ((n : Nat) : Int)) (-1)
                  (O n) := rf _ _ (hcd.out_chain n hn) hdisj
              rw [hg3]
              exact AddEdge_chain_out g2 _ _ _ _ _ hchain2
                (fun x hx => by
                  have := (hcd.out_src n hn x hx).1
                  omega)
          · -- in chains
            intro n hn
            rw [hg3adj] at hn
            by_cases hnl : n = lhs
            · rw [hnl, hheadlhs, hI3lhs]
              have hIchain2 : chainSegS (nextInF g2) (g2.FirstInEdge ((lhs : Nat) : Int)) (-1)
                  (I lhs) := by
                rw [rd']
                exact chainSegS_congr _ _ _ _ _ (fun x hx => (rf' x).symm)
                  (hcd.in_chain lhs hlhs)
              rw [hg3, ← hg2len]
              exact AddEdge_chain_in_prepend g2 _ _ _ _ hIchain2
                (fun x hx => by
                  have := (hcd.in_dst lhs hlhs x hx).1
                  omega)
            · rw [hheadIn_ne n hnl, hI3ne n hnl]
              have hIchain2 : chainSegS (nextInF g2) (g.FirstInEdge ((n : Nat) : Int)) (-1)
                  (I n) :=
                chainSegS_congr _ _ _ _ _ (fun x hx => (rf' x).symm) (hcd.in_chain n hn)
              rw [hg3]
              exact AddEdge_chain_in g2 _ _ _ _ _ hIchain2
                (fun x hx => by
                  have := (hcd.in_dst n hn x hx).1
                  omega)
          · -- out_src
            intro n hn x hx
            rw [hg3adj] at hn
            by_cases hns : n = sE
            · rw [hns, hO3sE] at hx
              rcases List.mem_cons.mp hx with hx0 | hxr
              · rw [hx0]
                refine ⟨by omega, ?_⟩
                rw [hnew3, hns]
              · have hxO := List.mem_of_mem_erase hxr
                obtain ⟨hb1, hb2⟩ := hcd.out_src sE hesrclt x hxO
                refine ⟨by omega, ?_⟩
                rw [(hold3g x hb1).2.1, hns]
                exact hb2
            · rw [hO3ne n hns] at hx
              obtain ⟨hb1, hb2⟩ := hcd.out_src n hn x hx
              refine ⟨by omega, ?_⟩
              rw [(hold3g x hb1).2.1]
              exact hb2
          · -- in_dst
            intro n hn x hx
            rw [hg3adj] at hn
            by_cases hnl : n = lhs
            · rw [hnl, hI3lhs] at hx
              rcases List.mem_cons.mp hx with hx0 | hxr
              · rw [hx0]
                refine ⟨by omega, ?_⟩
                rw [hnew3, hnl]
              · obtain ⟨hb1, hb2⟩ := hcd.in_dst lhs hlhs x hxr
                refine ⟨by omega, ?_⟩
                rw [(hold3g x hb1).2.2.1, hnl]
                exact hb2
            · rw [hI3ne n hnl] at hx
              obtain ⟨hb1, hb2⟩ := hcd.in_dst n hn x hx
              refine ⟨by omega, ?_⟩
              rw [(hold3g x hb1).2.2.1]
              exact hb2
          · -- out degrees
            intro n hn
            rw [hg3adj] at hn
            have hdeg3 : (g3.out_in_degrees.getD n (0, 0)).1 =
                if n = sE then (g2.out_in_degrees.getD n (0, 0)).1 + 1
                else (g2.out_in_degrees.getD n (0, 0)).1 := by
              rw [hg3]
              have := AddEdge_deg1 g2 ((sE : Nat) : Int) ((lhs : Nat) : Int)
                (g.edges.getD e dummyGE).label (by simpa using hsEdeg2) n
              simpa using this
            rw [hdeg3]
            by_cases hns : n = sE
            · rw [hns, hO3sE, if_pos rfl, (rg sE).1, if_pos (by simp)]
              rw [hns] at hn
              rw [(hcd.out_deg sE hn)]
              have hlen1 : 1 ≤ (O sE).length := List.length_pos_of_mem hemem
              have herlen : ((O sE).erase e).length = (O sE).length - 1 :=
                List.length_erase_of_mem hemem
              simp only [List.length_cons, herlen]
              push_cast
              omega
            · rw [if_neg hns, hO3ne n hns, (rg n).1, if_neg (by simpa using hns)]
              exact hcd.out_deg n hn
          · -- in degrees
            intro n hn
            rw [hg3adj] at hn
            have hdeg3 : (g3.out_in_degrees.getD n (0, 0)).2 =
                if n = lhs then (g2.out_in_degrees.getD n (0, 0)).2 + 1
                else (g2.out_in_degrees.getD n (0, 0)).2 := by
              rw [hg3]
              have := AddEdge_deg2 g2 ((sE : Nat) : Int) ((lhs : Nat) : Int)
                (g.edges.getD e dummyGE).label (by simpa using hlhsdeg2) n
              simpa using this
            rw [hdeg3]
            by_cases hnl : n = lhs
            · rw [hnl, hI3lhs, if_pos rfl, (rg lhs).2]
              rw [hnl] at hn
              rw [(hcd.in_deg lhs hn)]
              simp only [List.length_cons]
              push_cast
              omega
            · rw [if_neg hnl, hI3ne n hnl, (rg n).2]
              exact hcd.in_deg n hn
        -- the next pointer
        have hptrnew : g3.NextInEdge ((e : Nat) : Int) = nextInF g e := by
          rw [NextInEdge_coe]
          exact hnextIn3 e helen
        -- chain for the remaining suffix
        have hptr3 : chainSegS (nextInF g3) (nextInF g e) (-1) S' := by
          refine chainSegS_congr _ _ _ _ _ ?_ hptr'
          intro x hx
          exact (hnextIn3 x (hS x (List.mem_cons_of_mem e hx)).1).symm
        -- hypotheses about the remaining suffix
        have hS3 : ∀ x ∈ S', x < g3.edges.length ∧
            (g3.edges.getD x dummyGE).dst = (rhs : Int) ∧
            (g3.edges.getD x dummyGE).src = ((g3.srcN x : Nat) : Int) ∧
            g3.srcN x ≠ rhs ∧ g3.srcN x < g3.adj_heads.length ∧
            x ∈ O3 (g3.srcN x) := by
          intro x hx
          obtain ⟨hx1, hx2, hx3, hx4, hx5, hx6⟩ := hS x (List.mem_cons_of_mem e hx)
          have hxe : x ≠ e := fun hxx => heS' (hxx ▸ hx)
          rw [hsrcN3 x hx1]
          refine ⟨by omega, ?_, ?_, hx4, by rw [hg3adj]; exact hx5, ?_⟩
          · rw [(hold3g x hx1).2.2.1]
            exact hx2
          · rw [(hold3g x hx1).2.1]
            exact hx3
          · by_cases hxs : g.srcN x = sE
            · rw [hxs, hO3sE]
              refine List.mem_cons_of_mem _ ?_
              rw [hxs] at hx6
              exact (List.mem_erase_of_ne hxe).mpr hx6
            · rw [hO3ne _ hxs]
              exact hx6
        obtain ⟨g', NEW2, O', I', ihrun, ihcd, ihlen, ihadj, iheold, ihenew, ihcompl,
          ihmemiff, ihonew, ihnewown, ihirhs, ihilhs, ihiother, ihnodup⟩ :=
          ih g3 O3 I3 (nextInF g e) fuel hcd3 (by rw [hg3adj]; exact hlhs)
            (by rw [hg3adj]; exact hrhs) hlr hptr3 hS3 (by simp at hfuel ⊢; omega)
        refine ⟨g', g.edges.length :: NEW2, O', I', ?_, ihcd, ?_, by rw [ihadj, hg3adj], ?_,
          ?_, ?_, ?_, ?_, ?_, ?_, ?_, ?_, ?_⟩
        · rw [hrun1, hptrnew]
          exact ihrun
        · rw [ihlen, hg3len]
          simp only [List.length_cons]
          omega
        · -- old fields preserved
          intro k hk
          have h1 := iheold k (by omega)
          have h2 := hold3g k hk
          exact ⟨h1.1.trans h2.1, h1.2.1.trans h2.2.1, h1.2.2.1.trans h2.2.2.1,
            h1.2.2.2.trans h2.2.2.2⟩
        · -- new edges description
          intro c hc
          rcases List.mem_cons.mp hc with hc0 | hcr
          · have h1 := iheold c (by omega)
            have h1n := iheold g.edges.length (by omega)
            refine ⟨by omega, by omega, ?_, e, List.mem_cons_self e S', ?_, ?_⟩
            · rw [hc0, h1n.2.2.1, hnew3]
            · rw [hc0, h1n.2.1, hnew3]
              exact hesrc.symm
            · rw [hc0, h1n.1, hnew3]
          · obtain ⟨hb1, hb2, hb3, x, hx, hb4, hb5⟩ := ihenew c hcr
            have hxl := (hS x (List.mem_cons_of_mem e hx)).1
            refine ⟨by omega, by omega, hb3, x, List.mem_cons_of_mem e hx, ?_, ?_⟩
            · rw [hb4, (hold3g x hxl).2.1]
            · rw [hb5, (hold3g x hxl).1]
        · -- completeness of NEW
          intro x hx hxlhs
          rcases List.mem_cons.mp hx with hx0 | hxr
          · have h1n := iheold g.edges.length (by omega)
            refine ⟨g.edges.length, List.mem_cons_self _ NEW2, ?_, ?_⟩
            · rw [h1n.2.1, hnew3, hx0]
              exact hesrc.symm
            · rw [h1n.1, hnew3, hx0]
          · have hx1 := (hS x (List.mem_cons_of_mem e hxr)).1
            have hsx : g3.srcN x = g.srcN x := hsrcN3 x hx1
            obtain ⟨c, hc, hb1, hb2⟩ := ihcompl x hxr (by rw [hsx]; exact hxlhs)
            refine ⟨c, List.mem_cons_of_mem _ hc, ?_, ?_⟩
            · rw [hb1, (hold3g x hx1).2.1]
            · rw [hb2, (hold3g x hx1).1]
        · -- membership iff for old edges
          intro n hn k hk
          have h1 := ihmemiff n (by rw [hg3adj]; exact hn) k (by omega)
          rw [h1]
          have hkn0 : k ≠ g.edges.length := by omega
          constructor
          · rintro ⟨hk1, hk2⟩
            by_cases hns : n = sE
            · rw [hns, hO3sE] at hk1
              rcases List.mem_cons.mp hk1 with hk0 | hkr
              · exact absurd hk0 hkn0
              · refine ⟨hns ▸ List.mem_of_mem_erase hkr, ?_⟩
                intro hmem2
                rcases List.mem_cons.mp hmem2 with hke | hkS'
                · exact absurd hke (hOsE_nodup.mem_erase_iff.mp hkr).1
                · exact hk2 hkS'
            · rw [hO3ne n hns] at hk1
              refine ⟨hk1, ?_⟩
              intro hmem2
              rcases List.mem_cons.mp hmem2 with hke | hkS'
              · rw [hke] at hk1
                have := (hcd.out_src n hn e hk1).2
                rw [hesrc] at this
                exact hns (by omega)
              · exact hk2 hkS'
          · rintro ⟨hk1, hk2⟩
            have hke : k ≠ e := fun hxx => hk2 (hxx ▸ List.mem_cons_self e S')
            have hkS' : k ∉ S' := fun hxx => hk2 (List.mem_cons_of_mem e hxx)
            refine ⟨?_, hkS'⟩
            by_cases hns : n = sE
            · rw [hns, hO3sE]
              refine List.mem_cons_of_mem _ ?_
              exact (List.mem_erase_of_ne hke).mpr (hns ▸ hk1)
            · rw [hO3ne n hns]
              exact hk1
        · -- every element of the new out chains is old or new
          intro n hn c hc
          have h1 := ihonew n (by rw [hg3adj]; exact hn) c hc
          rcases h1 with h1 | h1
          · rw [hg3len] at h1
            by_cases hcn0 : c = g.edges.length
            · exact Or.inr (hcn0 ▸ List.mem_cons_self _ NEW2)
            · exact Or.inl (by omega)
          · exact Or.inr (List.mem_cons_of_mem _ h1)
        · -- new edges are on their source's out chain
          intro c hc
          rcases List.mem_cons.mp hc with hc0 | hcr
          · have hsrcn : g'.srcN c = sE := by
              unfold Graph.srcN
              rw [hc0, (iheold g.edges.length (by omega)).2.1, hnew3]
              simp
            rw [hsrcn]
            have h1 := ihmemiff sE (by rw [hg3adj]; exact hesrclt) c (by rw [hc0]; omega)
            rw [h1]
            refine ⟨?_, ?_⟩
            · rw [hc0, hO3sE]
              exact List.mem_cons_self _ _
            · intro hxx
              have hlt := (hS c (List.mem_cons_of_mem e hxx)).1
              omega
          · exact ihnewown c hcr
        · -- in chain of rhs unchanged
          rw [ihirhs, hI3ne rhs (Ne.symm hlr)]
        · -- in chain of lhs
          rw [ihilhs, hI3lhs]
          simp only [List.reverse_cons]
          rw [List.append_assoc]
          rfl
        · -- other in chains unchanged
          intro n hnl
          rw [ihiother n hnl, hI3ne n hnl]
        · -- NEW is duplicate free
          refine List.Nodup.cons ?_ ihnodup
          intro hxx
          have := (ihenew g.edges.length hxx).1
          rw [hg3len] at this
          omega

end Xg

namespace Xg

theorem cd_transpose (g : Graph) (O I : Nat → List Nat) (h : ChainData g O I) :
    ChainData g.transpose I O := by
  have hN := transpose_adj_length g
  have hE := transpose_edges_length g
  refine ⟨?_, ?_, ?_, ?_, ?_, ?_, ?_⟩
  · rw [transpose_deg_length, hN, h.deg_len]
  · intro n hn
    rw [hN] at hn
    rw [FirstOutEdge_transpose]
    exact chainSegS_congr _ _ _ _ _ (fun e _ => (nextOutF_transpose g e).symm) (h.in_chain n hn)
  · intro n hn
    rw [hN] at hn
    rw [FirstInEdge_transpose]
    exact chainSegS_congr _ _ _ _ _ (fun e _ => (nextInF_transpose g e).symm) (h.out_chain n hn)
  · intro n hn e he
    rw [hN] at hn
    obtain ⟨h1, h2⟩ := h.in_dst n hn e he
    rw [hE, edges_getD_transpose]
    exact ⟨h1, h2⟩
  · intro n hn e he
    rw [hN] at hn
    obtain ⟨h1, h2⟩ := h.out_src n hn e he
    rw [hE, edges_getD_transpose]
    exact ⟨h1, h2⟩
  · intro n hn
    rw [hN] at hn
    rw [degrees_getD_transpose]
    exact h.in_deg n hn
  · intro n hn
    rw [hN] at hn
    rw [degrees_getD_transpose]
    exact h.out_deg n hn

/-- Mirror of coalesceLoop1_effect for the second Coalesce loop, obtained
by transposition. -/
theorem coalesceLoop2_effect (lhs rhs : Nat) (S : List Nat) (g : Graph)
    (O I : Nat → List Nat) (ptr : Int) (fuel : Nat)
    (hcd : ChainData g O I)
    (hlhs : lhs < g.adj_heads.length)
    (hrhs : rhs < g.adj_heads.length)
    (hlr : lhs ≠ rhs)
    (hptr : chainSegS (nextOutF g) ptr (-1) S)
    (hS : ∀ e ∈ S, e < g.edges.length ∧
      (g.edges.getD e dummyGE).src = (rhs : Int) ∧
      (g.edges.getD e dummyGE).dst = ((g.dstN e : Nat) : Int) ∧
      g.dstN e ≠ rhs ∧ g.dstN e < g.adj_heads.length ∧
      e ∈ I (g.dstN e))
    (hfuel : S.length + 1 ≤ fuel) :
    ∃ (g' : Graph) (NEW : List Nat) (O' I' : Nat → List Nat),
      coalesceLoop2 ((lhs : Nat) : Int) g ptr fuel = g' ∧
      ChainData g' O' I' ∧
      g'.edges.length = g.edges.length + NEW.length ∧
      g'.adj_heads.length = g.adj_heads.length ∧
      (∀ k, k < g.edges.length →
        ((g'.edges.getD k dummyGE).label = (g.edges.getD k dummyGE).label ∧
         (g'.edges.getD k dummyGE).src = (g.edges.getD k dummyGE).src ∧
         (g'.edges.getD k dummyGE).dst = (g.edges.getD k dummyGE).dst ∧
         (g'.edges.getD k dummyGE).next_out_edge_id =
           (g.edges.getD k dummyGE).next_out_edge_id)) ∧
      (∀ c ∈ NEW, g.edges.length ≤ c ∧ c < g'.edges.length ∧
        (g'.edges.getD c dummyGE).src = ((lhs : Nat) : Int) ∧
        ∃ e ∈ S, (g'.edges.getD c dummyGE).dst = (g.edges.getD e dummyGE).dst ∧
          (g'.edges.getD c dummyGE).label = (g.edges.getD e dummyGE).label) ∧
      (∀ e ∈ S, g.dstN e ≠ lhs → ∃ c ∈ NEW,
        (g'.edges.getD c dummyGE).dst = (g.edges.getD e dummyGE).dst ∧
        (g'.edges.getD c dummyGE).label = (g.edges.getD e dummyGE).label) ∧
      (∀ n, n < g.adj_heads.length → ∀ k, k < g.edges.length →
        (k ∈ I' n ↔ (k ∈ I n ∧ k ∉ S))) ∧
      (∀ n, n < g.adj_heads.length → ∀ c ∈ I' n, c < g.edges.length ∨ c ∈ NEW) ∧
      (∀ c ∈ NEW, c ∈ I' (g'.dstN c)) ∧
      O' rhs = O rhs ∧
      O' lhs = NEW.reverse ++ O lhs ∧
      (∀ n, n ≠ lhs → O' n = O n) ∧
      NEW.Nodup := by
  have hcdT : ChainData g.transpose I O := cd_transpose g O I hcd
  have hlhsT : lhs < g.transpose.adj_heads.length := by rw [transpose_adj_length]; exact hlhs
  have hrhsT : rhs < g.transpose.adj_heads.length := by rw [transpose_adj_length]; exact hrhs
  have hptrT : chainSegS (nextInF g.transpose) ptr (-1) S :=
    chainSegS_congr _ _ _ _ _ (fun e _ => (nextInF_transpose g e).symm) hptr
  have hST : ∀ e ∈ S, e < g.transpose.edges.length ∧
      (g.transpose.edges.getD e dummyGE).dst = (rhs : Int) ∧
      (g.transpose.edges.getD e dummyGE).src = ((g.transpose.srcN e : Nat) : Int) ∧
      g.transpose.srcN e ≠ rhs ∧ g.transpose.srcN e < g.transpose.adj_heads.length ∧
      e ∈ I (g.transpose.srcN e) := by
    intro e he
    obtain ⟨h1, h2, h3, h4, h5, h6⟩ := hS e he
    rw [transpose_edges_length, edges_getD_transpose, srcN_transpose, transpose_adj_length]
    exact ⟨h1, h2, h3, h4, h5, h6⟩
  obtain ⟨g'', NEW, O'', I'', hrun, hcd'', hlen'', hadj'', heold'', henew'', hcompl'',
    hmemiff'', honew'', hnewown'', hirhs'', hilhs'', hiother'', hnodup''⟩ :=
    coalesceLoop1_effect lhs rhs S g.transpose I O ptr fuel hcdT hlhsT hrhsT hlr hptrT
      hST hfuel
  refine ⟨g''.transpose, NEW, I'', O'', ?_, cd_transpose g'' O'' I'' hcd'', ?_, ?_,
    ?_, ?_, ?_, ?_, ?_, ?_, hirhs'', hilhs'', hiother'', hnodup''⟩
  · rw [coalesceLoop2_transpose, hrun]
  · rw [transpose_edges_length, hlen'', transpose_edges_length]
  · rw [transpose_adj_length, hadj'', transpose_adj_length]
  · intro k hk
    have h1 := heold'' k (by rw [transpose_edges_length]; exact hk)
    rw [edges_getD_transpose] at h1
    rw [edges_getD_transpose]
    simp only [GraphEdge.transposeE] at h1 ⊢
    exact ⟨h1.1, h1.2.2.1, h1.2.1, h1.2.2.2⟩
  · intro c hc
    obtain ⟨h1, h2, h3, x, hx, h4, h5⟩ := henew'' c hc
    rw [transpose_edges_length] at h1
    rw [edges_getD_transpose] at h4 h5
    refine ⟨h1, ?_, ?_, x, hx, ?_, ?_⟩
    · rw [transpose_edges_length]
      exact h2
    · rw [edges_getD_transpose]
      simp only [GraphEdge.transposeE]
      exact h3
    · rw [edges_getD_transpose]
      simp only [GraphEdge.transposeE] at h4 ⊢
      exact h4
    · rw [edges_getD_transpose]
      simp only [GraphEdge.transposeE] at h5 ⊢
      exact h5
  · intro x hx hxl
    obtain ⟨c, hc, h4, h5⟩ := hcompl'' x hx (by rw [srcN_transpose]; exact hxl)
    rw [edges_getD_transpose] at h4 h5
    refine ⟨c, hc, ?_, ?_⟩
    · rw [edges_getD_transpose]
      simp only [GraphEdge.transposeE] at h4 ⊢
      exact h4
    · rw [edges_getD_transpose]
      simp only [GraphEdge.transposeE] at h5 ⊢
      exact h5
  · intro n hn k hk
    exact hmemiff'' n (by rw [transpose_adj_length]; exact hn) k
      (by rw [transpose_edges_length]; exact hk)
  · intro n hn c hc
    have := honew'' n (by rw [transpose_adj_length]; exact hn) c hc
    rw [transpose_edges_length] at this
    exact this
  · intro c hc
    have h1 := hnewown'' c hc
    have h2 : g''.transpose.dstN c = g''.srcN c := dstN_transpose g'' c
    rw [h2]
    exact h1

end Xg

namespace Xg

/-- Full effect of Graph::Coalesce on a well-formed graph: a
representation for the result plus the rewiring facts of the claim. -/
theorem Coalesce_rep (g : Graph) (lhs rhs : Nat) (O I : Nat → List Nat)
    (hrep : GraphRep g O I)
    (hlhs : lhs < g.adj_heads.length) (hrhs : rhs < g.adj_heads.length)
    (hlr : lhs ≠ rhs)
    (hself : ∀ e ∈ O rhs, g.dstN e ≠ rhs) :
    ∃ (O' I' : Nat → List Nat),
      GraphRep (g.Coalesce ((lhs : Nat) : Int) ((rhs : Nat) : Int)) O' I' ∧
      (g.Coalesce ((lhs : Nat) : Int) ((rhs : Nat) : Int)).adj_heads.length =
        g.adj_heads.length ∧
      O' rhs = [] ∧ I' rhs = [] ∧
      (g.Coalesce ((lhs : Nat) : Int) ((rhs : Nat) : Int)).out_in_degrees.getD rhs (0, 0) =
        (0, 0) ∧
      (∀ e ∈ I rhs, g.srcN e ≠ lhs → ∃ c ∈ I' lhs,
        ((g.Coalesce ((lhs : Nat) : Int) ((rhs : Nat) : Int)).edges.getD c dummyGE).src =
          (g.edges.getD e dummyGE).src ∧
        ((g.Coalesce ((lhs : Nat) : Int) ((rhs : Nat) : Int)).edges.getD c dummyGE).label =
          (g.edges.getD e dummyGE).label) ∧
      (∀ e ∈ O rhs, g.dstN e ≠ lhs → ∃ c ∈ O' lhs,
        ((g.Coalesce ((lhs : Nat) : Int) ((rhs : Nat) : Int)).edges.getD c dummyGE).dst =
          (g.edges.getD e dummyGE).dst ∧
        ((g.Coalesce ((lhs : Nat) : Int) ((rhs : Nat) : Int)).edges.getD c dummyGE).label =
          (g.edges.getD e dummyGE).label) ∧
      (∀ c ∈ O' lhs,
        (g.Coalesce ((lhs : Nat) : Int) ((rhs : Nat) : Int)).dstN c ≠ rhs) ∧
      (∀ c ∈ I' lhs,
        (g.Coalesce ((lhs : Nat) : Int) ((rhs : Nat) : Int)).srcN c ≠ rhs) := by
  obtain ⟨hcd, hcrossO, hcrossI⟩ := hrep
  -- step 1: the first loop over the in chain of rhs
  have hptr1 : chainSegS (nextInF g) (g.FirstInEdge ((rhs : Nat) : Int)) (-1) (I rhs) :=
    hcd.in_chain rhs hrhs
  have hS1 : ∀ e ∈ I rhs, e < g.edges.length ∧
      (g.edges.getD e dummyGE).dst = (rhs : Int) ∧
      (g.edges.getD e dummyGE).src = ((g.srcN e : Nat) : Int) ∧
      g.srcN e ≠ rhs ∧ g.srcN e < g.adj_heads.length ∧ e ∈ O (g.srcN e) := by
    intro e he
    obtain ⟨hb1, hb2⟩ := hcd.in_dst rhs hrhs e he
    obtain ⟨hc1, hc2⟩ := hcrossI rhs hrhs e he
    obtain ⟨hd1, hd2⟩ := hcd.out_src (g.srcN e) hc1 e hc2
    have hsrcne : g.srcN e ≠ rhs := by
      intro hx
      have hx2 : e ∈ O rhs := hx ▸ hc2
      have := hself e hx2
      unfold Graph.dstN at this
      rw [hb2] at this
      simp at this
    exact ⟨hb1, hb2, hd2, hsrcne, hc1, hc2⟩
  have hI1nodup : (I rhs).Nodup := chainSegS_nodup _ _ _ hptr1
  have hI1bounds : ∀ x ∈ I rhs, x < g.edges.length :=
    fun x hx => (hcd.in_dst rhs hrhs x hx).1
  have hfuel1 : (I rhs).length + 1 ≤ g.edges.length + 1 := by
    have := nodupLengthLe hI1nodup hI1bounds
    omega
  obtain ⟨g1, NEW1, O1, I1, run1, cd1, len1, adj1, eold1, enew1, compl1, memiff1,
    onew1, newown1, irhs1, ilhs1, iother1, nodup1⟩ :=
    coalesceLoop1_effect lhs rhs (I rhs) g O I (g.FirstInEdge ((rhs : Nat) : Int))
      (g.edges.length + 1) hcd hlhs hrhs hlr hptr1 hS1 hfuel1
  -- step 2: the second loop over the out chain of rhs
  have hOrhs_sub : ∀ e ∈ O1 rhs, e ∈ O rhs ∧ e ∉ I rhs ∧ e < g.edges.length := by
    intro e he
    have hor : e < g.edges.length := by
      rcases onew1 rhs hrhs e he with h1 | h1
      · exact h1
      · exfalso
        obtain ⟨hb1, hb2, hb3, x, hx, hb4, hb5⟩ := enew1 e h1
        have := (cd1.out_src rhs (by rw [adj1]; exact hrhs) e he).2
        rw [hb4] at this
        have hx3 := (hS1 x hx).2.2.1
        rw [hx3] at this
        have := (hS1 x hx).2.2.2.1
        omega
    have := (memiff1 rhs hrhs e hor).mp he
    exact ⟨this.1, this.2, hor⟩
  have hptr2 : chainSegS (nextOutF g1) (g1.FirstOutEdge ((rhs : Nat) : Int)) (-1) (O1 rhs) :=
    cd1.out_chain rhs (by rw [adj1]; exact hrhs)
  have hS2 : ∀ e ∈ O1 rhs, e < g1.edges.length ∧
      (g1.edges.getD e dummyGE).src = (rhs : Int) ∧
      (g1.edges.getD e dummyGE).dst = ((g1.dstN e : Nat) : Int) ∧
      g1.dstN e ≠ rhs ∧ g1.dstN e < g1.adj_heads.length ∧ e ∈ I1 (g1.dstN e) := by
    intro e he
    obtain ⟨heO, heI, helt⟩ := hOrhs_sub e he
    obtain ⟨hb1, hb2⟩ := hcd.out_src rhs hrhs e heO
    obtain ⟨hc1, hc2⟩ := hcrossO rhs hrhs e heO
    obtain ⟨hd1, hd2⟩ := hcd.in_dst (g.dstN e) hc1 e hc2
    have hdstN1 : g1.dstN e = g.dstN e := by
      unfold Graph.dstN
      rw [(eold1 e helt).2.2.1]
    refine ⟨by omega, ?_, ?_, ?_, ?_, ?_⟩
    · rw [(eold1 e helt).2.1]
      exact hb2
    · rw [(eold1 e helt).2.2.1, hdstN1]
      exact hd2
    · rw [hdstN1]
      exact hself e heO
    · rw [hdstN1, adj1]
      exact hc1
    · rw [hdstN1]
      by_cases hdl : g.dstN e = lhs
      · rw [hdl, ilhs1]
        exact List.mem_append_right _ (hdl ▸ hc2)
      · rw [iother1 _ hdl]
        exact hc2
  have hO2nodup : (O1 rhs).Nodup := chainSegS_nodup _ _ _ hptr2
  have hO2bounds : ∀ x ∈ O1 rhs, x < g1.edges.length := by
    intro x hx
    have := (hOrhs_sub x hx).2.2
    omega
  have hfuel2 : (O1 rhs).length + 1 ≤ g1.edges.length + 1 := by
    have := nodupLengthLe hO2nodup hO2bounds
    omega
  obtain ⟨g2, NEW2, O2, I2, run2, cd2, len2, adj2, eold2, enew2, compl2, memiff2,
    inew2, newown2, orhs2, olhs2, oother2, nodup2⟩ :=
    coalesceLoop2_effect lhs rhs (O1 rhs) g1 O1 I1 (g1.FirstOutEdge ((rhs : Nat) : Int))
      (g1.edges.length + 1) cd1 (by rw [adj1]; exact hlhs) (by rw [adj1]; exact hrhs)
      hlr hptr2 hS2 hfuel2
  -- preliminary stability facts
  have hlen1ge : g.edges.length ≤ g1.edges.length := by omega
  have hadjg1 : g1.adj_heads.length = g.adj_heads.length := adj1
  have hnotS2_new1 : ∀ c ∈ NEW1, c ∉ O1 rhs := by
    intro c hc hmem
    have h1 := (hOrhs_sub c hmem).2.2
    have h2 := (enew1 c hc).1
    omega
  have hnotS2_old : ∀ k, k < g.edges.length →
      (g.edges.getD k dummyGE).src ≠ ((rhs : Nat) : Int) → k ∉ O1 rhs := by
    intro k hk hsrc hmem
    exact hsrc (hcd.out_src rhs hrhs k (hOrhs_sub k hmem).1).2
  have hdstN21 : ∀ k, k < g1.edges.length → g2.dstN k = g1.dstN k := by
    intro k hk
    unfold Graph.dstN
    rw [(eold2 k hk).2.2.1]
  have hsrcN21 : ∀ k, k < g1.edges.length → g2.srcN k = g1.srcN k := by
    intro k hk
    unfold Graph.srcN
    rw [(eold2 k hk).2.1]
  have hdstN10 : ∀ k, k < g.edges.length → g1.dstN k = g.dstN k := by
    intro k hk
    unfold Graph.dstN
    rw [(eold1 k hk).2.2.1]
  have hsrcN10 : ∀ k, k < g.edges.length → g1.srcN k = g.srcN k := by
    intro k hk
    unfold Graph.srcN
    rw [(eold1 k hk).2.1]
  -- cross facts for stage-1 new edges reached through O1 chains
  have hO1case : ∀ n, n < g.adj_heads.length → n ≠ rhs → ∀ c ∈ O1 n,
      g2.dstN c ≠ rhs ∧ g2.dstN c < g.adj_heads.length ∧ c ∈ I2 (g2.dstN c) := by
    intro n hn hnr c hc
    rcases onew1 n hn c hc with hcold | hcnew
    · -- an original edge kept on n's out chain
      obtain ⟨hcO, hcS1⟩ := (memiff1 n hn c hcold).mp hc
      obtain ⟨he1, he2⟩ := hcrossO n hn c hcO
      have hstable : g2.dstN c = g.dstN c := by
        rw [hdstN21 c (by omega), hdstN10 c hcold]
      have hdne : g.dstN c ≠ rhs := by
        intro hx
        exact hcS1 (hx ▸ he2)
      refine ⟨by rw [hstable]; exact hdne, by rw [hstable]; exact he1, ?_⟩
      rw [hstable]
      have hin1 : c ∈ I1 (g.dstN c) := by
        by_cases hdl : g.dstN c = lhs
        · rw [hdl, ilhs1]
          exact List.mem_append_right _ (hdl ▸ he2)
        · rw [iother1 _ hdl]
          exact he2
      have hnotS2 : c ∉ O1 rhs := by
        apply hnotS2_old c hcold
        rw [(hcd.out_src n hn c hcO).2]
        intro hx
        exact hnr (by omega)
      exact (memiff2 (g.dstN c) (by rw [hadjg1]; exact he1) c (by omega)).mpr ⟨hin1, hnotS2⟩
    · -- a stage-1 new edge: it points at lhs
      have hdl : g1.dstN c = lhs := by
        unfold Graph.dstN
        rw [(enew1 c hcnew).2.2.1]
        simp
      have hstable : g2.dstN c = lhs := by
        rw [hdstN21 c (by have := (enew1 c hcnew).2.1; omega), hdl]
      refine ⟨by rw [hstable]; exact hlr, by rw [hstable]; exact hlhs, ?_⟩
      rw [hstable]
      have hin1 : c ∈ I1 lhs := by
        rw [ilhs1]
        exact List.mem_append_left _ (List.mem_reverse.mpr hcnew)
      exact (memiff2 lhs (by rw [hadjg1]; exact hlhs) c
        (by have := (enew1 c hcnew).2.1; omega)).mpr ⟨hin1, hnotS2_new1 c hcnew⟩
  have hNEW2case : ∀ c ∈ NEW2,
      g2.dstN c ≠ rhs ∧ g2.dstN c < g.adj_heads.length ∧ c ∈ I2 (g2.dstN c) := by
    intro c hc
    obtain ⟨hb1, hb2, hb3, x, hx, hb4, hb5⟩ := enew2 c hc
    obtain ⟨hx1, hx2, hx3, hx4, hx5, hx6⟩ := hS2 x hx
    have hdst : g2.dstN c = g1.dstN x := by
      unfold Graph.dstN
      rw [hb4, hx3]
    refine ⟨by rw [hdst]; exact hx4, by rw [hdst, ← hadjg1]; exact hx5, ?_⟩
    exact newown2 c hc
  have hcross2O : ∀ n, n < g.adj_heads.length → n ≠ rhs → ∀ c ∈ O2 n,
      g2.dstN c ≠ rhs ∧ g2.dstN c < g.adj_heads.length ∧ c ∈ I2 (g2.dstN c) := by
    intro n hn hnr c hc
    by_cases hnl : n = lhs
    · rw [hnl, olhs2] at hc
      rcases List.mem_append.mp hc with hc2 | hc1
      · exact hNEW2case c (List.mem_reverse.mp hc2)
      · exact hO1case lhs hlhs (by omega) c hc1
    · rw [oother2 n hnl] at hc
      exact hO1case n hn hnr c hc
  have hcross2I : ∀ n, n < g.adj_heads.length → n ≠ rhs → ∀ c ∈ I2 n,
      g2.srcN c ≠ rhs ∧ g2.srcN c < g.adj_heads.length ∧ c ∈ O2 (g2.srcN c) := by
    intro n hn hnr c hc
    rcases inew2 n (by rw [hadjg1]; exact hn) c hc with hcold | hcnew
    · -- present before the second loop
      obtain ⟨hin1, hnotS2⟩ := (memiff2 n (by rw [hadjg1]; exact hn) c hcold).mp hc
      by_cases hcg : c < g.edges.length
      · -- an original edge
        have hinI : c ∈ I n := by
          by_cases hdl : n = lhs
          · rw [hdl, ilhs1] at hin1
            rcases List.mem_append.mp hin1 with hr | hr
            · exfalso
              have := (enew1 c (List.mem_reverse.mp hr)).1
              omega
            · exact hdl ▸ hr
          · rw [iother1 _ hdl] at hin1
            exact hin1
        obtain ⟨he1, he2⟩ := hcrossI n hn c hinI
        have hstable : g2.srcN c = g.srcN c := by
          rw [hsrcN21 c (by omega), hsrcN10 c hcg]
        have hcnotI : c ∉ I rhs := by
          intro hx
          have := (hcd.in_dst rhs hrhs c hx).2
          rw [(hcd.in_dst n hn c hinI).2] at this
          exact hnr (by omega)
        have hsne : g.srcN c ≠ rhs := by
          intro hx
          have hcO1 : c ∈ O1 rhs := (memiff1 rhs hrhs c hcg).mpr ⟨hx ▸ he2, hcnotI⟩
          exact hnotS2 hcO1
        refine ⟨by rw [hstable]; exact hsne, by rw [hstable]; exact he1, ?_⟩
        rw [hstable]
        have hO1mem : c ∈ O1 (g.srcN c) := (memiff1 (g.srcN c) he1 c hcg).mpr ⟨he2, hcnotI⟩
        by_cases hsl : g.srcN c = lhs
        · rw [hsl, olhs2]
          exact List.mem_append_right _ (hsl ▸ hO1mem)
        · rw [oother2 _ hsl]
          exact hO1mem
      · -- a stage-1 new edge
        have hcnew1 : c ∈ NEW1 := by
          by_cases hdl : n = lhs
          · rw [hdl, ilhs1] at hin1
            rcases List.mem_append.mp hin1 with hr | hr
            · exact List.mem_reverse.mp hr
            · exfalso
              have := (hcd.in_dst lhs hlhs c hr).1
              omega
          · exfalso
            rw [iother1 _ hdl] at hin1
            have := (hcd.in_dst n hn c hin1).1
            omega
        obtain ⟨hb1, hb2, hb3, x, hx, hb4, hb5⟩ := enew1 c hcnew1
        have hsrc1 : g1.srcN c = g.srcN x := by
          unfold Graph.srcN
          rw [hb4, (hS1 x hx).2.2.1]
        have hstable : g2.srcN c = g.srcN x := by
          rw [hsrcN21 c (by omega), hsrc1]
        obtain ⟨_, _, _, hx4, hx5, _⟩ := hS1 x hx
        refine ⟨by rw [hstable]; exact hx4, by rw [hstable]; exact hx5, ?_⟩
        rw [hstable]
        have hO1own : c ∈ O1 (g1.srcN c) := newown1 c hcnew1
        rw [hsrc1] at hO1own
        by_cases hsl : g.srcN x = lhs
        · rw [hsl, olhs2]
          exact List.mem_append_right _ (hsl ▸ hO1own)
        · rw [oother2 _ hsl]
          exact hO1own
    · -- a stage-2 new edge
      have hsrc2 : g2.srcN c = lhs := by
        unfold Graph.srcN
        rw [(enew2 c hcnew).2.2.1]
        simp
      refine ⟨by rw [hsrc2]; exact hlr, by rw [hsrc2]; exact hlhs, ?_⟩
      rw [hsrc2, olhs2]
      exact List.mem_append_left _ (List.mem_reverse.mpr hcnew)
  -- the final reset of rhs's heads and degrees
  have hF : g.Coalesce ((lhs : Nat) : Int) ((rhs : Nat) : Int) =
      { g2 with
        adj_heads := g2.adj_heads.modify (fun _ => (-1, -1)) rhs,
        out_in_degrees := g2.out_in_degrees.modify (fun _ => (0, 0)) rhs } := by
    simp only [Graph.Coalesce]
    rw [run1, run2]
    simp
  have hadjg2 : g2.adj_heads.length = g.adj_heads.length := by rw [adj2, hadjg1]
  have hdegg2 : g2.out_in_degrees.length = g.adj_heads.length := by
    rw [cd2.deg_len, hadjg2]
  set gF : Graph := { g2 with
    adj_heads := g2.adj_heads.modify (fun _ => (-1, -1)) rhs,
    out_in_degrees := g2.out_in_degrees.modify (fun _ => (0, 0)) rhs } with hgF
  have hgFadj : gF.adj_heads.length = g.adj_heads.length := by
    rw [hgF]
    show (g2.adj_heads.modify _ rhs).length = _
    rw [lengthModify, hadjg2]
  have hgFdeg : gF.out_in_degrees.length = g.adj_heads.length := by
    rw [hgF]
    show (g2.out_in_degrees.modify _ rhs).length = _
    rw [lengthModify, hdegg2]
  have hFOut : ∀ n : Nat, n ≠ rhs → gF.FirstOutEdge ((n : Nat) : Int) =
      g2.FirstOutEdge ((n : Nat) : Int) := by
    intro n hn
    simp only [Graph.FirstOutEdge, Int.toNat_natCast, hgF]
    rw [getDModifyNe _ _ _ _ _ (fun h => hn h.symm)]
  have hFIn : ∀ n : Nat, n ≠ rhs → gF.FirstInEdge ((n : Nat) : Int) =
      g2.FirstInEdge ((n : Nat) : Int) := by
    intro n hn
    simp only [Graph.FirstInEdge, Int.toNat_natCast, hgF]
    rw [getDModifyNe _ _ _ _ _ (fun h => hn h.symm)]
  have hFOutRhs : gF.FirstOutEdge ((rhs : Nat) : Int) = -1 := by
    simp only [Graph.FirstOutEdge, Int.toNat_natCast, hgF]
    rw [getDModify]
    simp [hadjg2, hrhs]
  have hFInRhs : gF.FirstInEdge ((rhs : Nat) : Int) = -1 := by
    simp only [Graph.FirstInEdge, Int.toNat_natCast, hgF]
    rw [getDModify]
    simp [hadjg2, hrhs]
  have hFdeg : ∀ n : Nat, n ≠ rhs →
      gF.out_in_degrees.getD n (0, 0) = g2.out_in_degrees.getD n (0, 0) := by
    intro n hn
    rw [hgF]
    show (g2.out_in_degrees.modify _ rhs).getD n (0, 0) = _
    rw [getDModifyNe _ _ _ _ _ (fun h => hn h.symm)]
  have hFdegRhs : gF.out_in_degrees.getD rhs (0, 0) = (0, 0) := by
    rw [hgF]
    show (g2.out_in_degrees.modify _ rhs).getD rhs (0, 0) = _
    rw [getDModify]
    simp [hdegg2, hrhs]
  set OF : Nat → List Nat := fun n => if n = rhs then [] else O2 n with hOF
  set IF : Nat → List Nat := fun n => if n = rhs then [] else I2 n with hIF
  have hOFrhs : OF rhs = [] := by rw [hOF]; simp
  have hIFrhs : IF rhs = [] := by rw [hIF]; simp
  have hOFne : ∀ n, n ≠ rhs → OF n = O2 n := by
    intro n hn
    rw [hOF]
    simp [hn]
  have hIFne : ∀ n, n ≠ rhs → IF n = I2 n := by
    intro n hn
    rw [hIF]
    simp [hn]
  have hgFedges : gF.edges = g2.edges := rfl
  have hrepF : GraphRep gF OF IF := by
    refine ⟨⟨by rw [hgFdeg, hgFadj], ?_, ?_, ?_, ?_, ?_, ?_⟩, ?_, ?_⟩
    · -- out chains
      intro n hn
      rw [hgFadj] at hn
      by_cases hnr : n = rhs
      · rw [hnr, hOFrhs, hFOutRhs]
        rfl
      · rw [hFOut n hnr, hOFne n hnr]
        exact cd2.out_chain n (by rw [hadjg2]; exact hn)
    · -- in chains
      intro n hn
      rw [hgFadj] at hn
      by_cases hnr : n = rhs
      · rw [hnr, hIFrhs, hFInRhs]
        rfl
      · rw [hFIn n hnr, hIFne n hnr]
        exact cd2.in_chain n (by rw [hadjg2]; exact hn)
    · -- out_src
      intro n hn x hx
      rw [hgFadj] at hn
      by_cases hnr : n = rhs
      · rw [hnr, hOFrhs] at hx
        simp at hx
      · rw [hOFne n hnr] at hx
        exact cd2.out_src n (by rw [hadjg2]; exact hn) x hx
    · -- in_dst
      intro n hn x hx
      rw [hgFadj] at hn
      by_cases hnr : n = rhs
      · rw [hnr, hIFrhs] at hx
        simp at hx
      · rw [hIFne n hnr] at hx
        exact cd2.in_dst n (by rw [hadjg2]; exact hn) x hx
    · -- out degrees
      intro n hn
      rw [hgFadj] at hn
      by_cases hnr : n = rhs
      · rw [hnr, hOFrhs, hFdegRhs]
        rfl
      · rw [hFdeg n hnr, hOFne n hnr]
        exact cd2.out_deg n (by rw [hadjg2]; exact hn)
    · -- in degrees
      intro n hn
      rw [hgFadj] at hn
      by_cases hnr : n = rhs
      · rw [hnr, hIFrhs, hFdegRhs]
        rfl
      · rw [hFdeg n hnr, hIFne n hnr]
        exact cd2.in_deg n (by rw [hadjg2]; exact hn)
    · -- cross out
      intro n hn x hx
      rw [hgFadj] at hn
      by_cases hnr : n = rhs
      · rw [hnr, hOFrhs] at hx
        simp at hx
      · rw [hOFne n hnr] at hx
        obtain ⟨h1, h2, h3⟩ := hcross2O n hn hnr x hx
        have hdd : gF.dstN x = g2.dstN x := rfl
        rw [hdd, hgFadj, hIFne _ h1]
        exact ⟨h2, h3⟩
    · -- cross in
      intro n hn x hx
      rw [hgFadj] at hn
      by_cases hnr : n = rhs
      · rw [hnr, hIFrhs] at hx
        simp at hx
      · rw [hIFne n hnr] at hx
        obtain ⟨h1, h2, h3⟩ := hcross2I n hn hnr x hx
        have hdd : gF.srcN x = g2.srcN x := rfl
        rw [hdd, hgFadj, hOFne _ h1]
        exact ⟨h2, h3⟩
  rw [hF]
  refine ⟨OF, IF, hrepF, hgFadj, hOFrhs, hIFrhs, hFdegRhs, ?_, ?_, ?_, ?_⟩
  · -- in edges of rhs are rewired into lhs
    intro e he hsl
    obtain ⟨c, hc, hb1, hb2⟩ := compl1 e he hsl
    have hclt : c < g1.edges.length := (enew1 c hc).2.1
    have hmem : c ∈ IF lhs := by
      rw [hIFne lhs (by omega)]
      refine (memiff2 lhs (by rw [hadjg1]; exact hlhs) c (by omega)).mpr ⟨?_, ?_⟩
      · rw [ilhs1]
        exact List.mem_append_left _ (List.mem_reverse.mpr hc)
      · exact hnotS2_new1 c hc
    refine ⟨c, hmem, ?_, ?_⟩
    · rw [hgFedges, (eold2 c hclt).2.1]
      exact hb1
    · rw [hgFedges, (eold2 c hclt).1]
      exact hb2
  · -- out edges of rhs are rewired out of lhs
    intro e he hdl
    have helt : e < g.edges.length := (hcd.out_src rhs hrhs e he).1
    have henotI : e ∉ I rhs := by
      intro hx
      have := (hcd.in_dst rhs hrhs e hx).2
      have h2 := hself e he
      unfold Graph.dstN at h2
      rw [this] at h2
      simp at h2
    have heS2 : e ∈ O1 rhs := (memiff1 rhs hrhs e helt).mpr ⟨he, henotI⟩
    have hdl1 : g1.dstN e ≠ lhs := by
      rw [hdstN10 e helt]
      exact hdl
    obtain ⟨c, hc, hb1, hb2⟩ := compl2 e heS2 hdl1
    have hmem : c ∈ OF lhs := by
      rw [hOFne lhs (by omega), olhs2]
      exact List.mem_append_left _ (List.mem_reverse.mpr hc)
    refine ⟨c, hmem, ?_, ?_⟩
    · rw [hgFedges, hb1, (eold1 e helt).2.2.1]
    · rw [hgFedges, hb2, (eold1 e helt).1]
  · -- no remaining out edge of lhs reaches rhs
    intro c hc
    rw [hOFne lhs (by omega)] at hc
    have := (hcross2O lhs hlhs (by omega) c hc).1
    have hdd : gF.dstN c = g2.dstN c := rfl
    rw [hdd]
    exact this
  · -- no remaining in edge of lhs comes from rhs
    intro c hc
    rw [hIFne lhs (by omega)] at hc
    have := (hcross2I lhs hlhs (by omega) c hc).1
    have hdd : gF.srcN c = g2.srcN c := rfl
    rw [hdd]
    exact this

end Xg

namespace Xg

theorem getNextFromToLoop_none (g : Graph) (dst : Int) :
    ∀ (L : List Nat) (head : Int) (fuel : Nat),
      chainSegS (nextOutF g) head (-1) L →
      getNextFromToLoop g dst head fuel = -1 →
      L.length < fuel →
      ∀ e ∈ L, (g.edgeAt ((e : Nat) : Int)).dst ≠ dst := by
  intro L
  induction L with
  | nil =>
    intro head fuel _ _ _ e he
    simp at he
  | cons a r ih =>
    intro head fuel hch hloop hlen e he
    obtain ⟨hh, hr⟩ := hch
    cases fuel with
    | zero => omega
    | succ fuel =>
      have hne : head ≠ -1 := by
        intro hx
        rw [hh] at hx
        omega
      simp only [getNextFromToLoop] at hloop
      rw [if_neg hne] at hloop
      by_cases hd : (g.edgeAt head).dst = dst
      · rw [if_pos hd] at hloop
        exact absurd hloop hne
      · rw [if_neg hd] at hloop
        rcases List.mem_cons.mp he with rfl | hmem
        · rw [← hh]
          exact hd
        · have hnext : g.NextOutEdge head = nextOutF g a := by
            rw [hh]
            unfold Graph.NextOutEdge Graph.edgeAt nextOutF
            simp
          rw [hnext] at hloop
          exact ih _ fuel hr hloop (by simpa using Nat.lt_of_succ_lt_succ hlen) e hmem

/-- A failed self-loop search on rhs means no out edge of rhs points back
at rhs. -/
theorem no_self_loop_of_search (g : Graph) (O I : Nat → List Nat)
    (hrep : GraphRep g O I) (rhs : Nat) (hrhs : rhs < g.adj_heads.length)
    (hno : g.GetNextEdgeFromTo ((rhs : Nat) : Int) ((rhs : Nat) : Int) (-1) = -1) :
    ∀ e ∈ O rhs, g.dstN e ≠ rhs := by
  intro e he
  have hch := hrep.out_chain rhs hrhs
  have hbound : ∀ x ∈ O rhs, x < g.edges.length :=
    fun x hx => (hrep.out_src rhs hrhs x hx).1
  simp only [Graph.GetNextEdgeFromTo, INVALID_EDGE_ID, eq_self_iff_true, if_true] at hno
  have hdne := getNextFromToLoop_none g ((rhs : Nat) : Int) (O rhs) _ _ hch hno
    (chain_length_lt g _ _ _ hch hbound) e he
  have hdst := (hrep.cross_out rhs hrhs e he).2
  have := (hrep.in_dst (g.dstN e) (hrep.cross_out rhs hrhs e he).1 e hdst).2
  intro hx
  apply hdne
  unfold Graph.edgeAt
  simp only [Int.toNat_natCast]
  rw [this, hx]

/-- A represented graph's executable out-traversal agrees with its
out-chain map. -/
theorem outIds_of_rep (g : Graph) (O I : Nat → List Nat) (h : GraphRep g O I)
    (n : Nat) (hn : n < g.adj_heads.length) : g.outIds n = O n := by
  have hchain := h.out_chain n hn
  have hbound : ∀ e ∈ O n, e < g.edges.length := fun e he => (h.out_src n hn e he).1
  have hwalk : walkOut g (g.FirstOutEdge (n : Int)) (g.edges.length + 1) = some (O n) :=
    walkOut_of_chainSeg g (O n) _ _ (chainSegS_mono _ _ _ _ hchain)
      (chain_length_lt g _ (O n) _ hchain hbound)
  unfold Graph.outIds Graph.outIdsL
  rw [hwalk]
  rfl

/-- A represented graph's executable in-traversal agrees with its
in-chain map. -/
theorem inIds_of_rep (g : Graph) (O I : Nat → List Nat) (h : GraphRep g O I)
    (n : Nat) (hn : n < g.adj_heads.length) : g.inIds n = I n := by
  rw [← outIds_transpose]
  exact outIds_of_rep g.transpose I O (rep_transpose g O I h) n
    (by rw [transpose_adj_length]; exact hn)

/-- C8: on a well-formed graph, for distinct nodes lhs and rhs where rhs has
no self-loop, Coalesce(lhs, rhs) rewires every in edge of rhs from a node
other than lhs into lhs with the same source and label, rewires every out
edge of rhs to a node other than lhs out of lhs with the same target and
label, drops the edges between lhs and rhs (no surviving edge at lhs touches
rhs), empties both adjacency chains of rhs and zeroes both of its degree
counters, and leaves the graph well-formed. -/
theorem C8_coalesce_correct (g : Graph) (lhs rhs : Nat)
    (hwf : g.WellFormed = true)
    (hlen : g.out_in_degrees.length = g.adj_heads.length)
    (hlhs : lhs < g.adj_heads.length) (hrhs : rhs < g.adj_heads.length)
    (hlr : lhs ≠ rhs)
    (hself : g.GetNextEdgeFromTo ((rhs : Nat) : Int) ((rhs : Nat) : Int) (-1) = -1) :
    (g.Coalesce ((lhs : Nat) : Int) ((rhs : Nat) : Int)).WellFormed = true ∧
    (g.Coalesce ((lhs : Nat) : Int) ((rhs : Nat) : Int)).outIds rhs = [] ∧
    (g.Coalesce ((lhs : Nat) : Int) ((rhs : Nat) : Int)).inIds rhs = [] ∧
    (g.Coalesce ((lhs : Nat) : Int) ((rhs : Nat) : Int)).out_in_degrees.getD rhs (0, 0) =
      (0, 0) ∧
    (∀ e ∈ g.inIds rhs, g.srcN e ≠ lhs →
      ∃ c ∈ (g.Coalesce ((lhs : Nat) : Int) ((rhs : Nat) : Int)).inIds lhs,
        ((g.Coalesce ((lhs : Nat) : Int) ((rhs : Nat) : Int)).edges.getD c dummyGE).src =
          (g.edges.getD e dummyGE).src ∧
        ((g.Coalesce ((lhs : Nat) : Int) ((rhs : Nat) : Int)).edges.getD c dummyGE).label =
          (g.edges.getD e dummyGE).label) ∧
    (∀ e ∈ g.outIds rhs, g.dstN e ≠ lhs →
      ∃ c ∈ (g.Coalesce ((lhs : Nat) : Int) ((rhs : Nat) : Int)).outIds lhs,
        ((g.Coalesce ((lhs : Nat) : Int) ((rhs : Nat) : Int)).edges.getD c dummyGE).dst =
          (g.edges.getD e dummyGE).dst ∧
        ((g.Coalesce ((lhs : Nat) : Int) ((rhs : Nat) : Int)).edges.getD c dummyGE).label =
          (g.edges.getD e dummyGE).label) ∧
    (∀ c ∈ (g.Coalesce ((lhs : Nat) : Int) ((rhs : Nat) : Int)).outIds lhs,
      (g.Coalesce ((lhs : Nat) : Int) ((rhs : Nat) : Int)).dstN c ≠ rhs) ∧
    (∀ c ∈ (g.Coalesce ((lhs : Nat) : Int) ((rhs : Nat) : Int)).inIds lhs,
      (g.Coalesce ((lhs : Nat) : Int) ((rhs : Nat) : Int)).srcN c ≠ rhs) := by
  have hrep := rep_of_WellFormed g hwf hlen
  have hselfO : ∀ e ∈ g.outIds rhs, g.dstN e ≠ rhs :=
    no_self_loop_of_search g g.outIds g.inIds hrep rhs hrhs hself
  obtain ⟨O2, I2, hrepF, hadjF, hOr, hIr, hdeg, hc1, hc2, hc3, hc4⟩ :=
    Coalesce_rep g lhs rhs g.outIds g.inIds hrep hlhs hrhs hlr hselfO
  have hlhsF : lhs < (g.Coalesce ((lhs : Nat) : Int) ((rhs : Nat) : Int)).adj_heads.length := by
    rw [hadjF]
    exact hlhs
  have hrhsF : rhs < (g.Coalesce ((lhs : Nat) : Int) ((rhs : Nat) : Int)).adj_heads.length := by
    rw [hadjF]
    exact hrhs
  have hOF := outIds_of_rep _ O2 I2 hrepF
  have hIF := inIds_of_rep _ O2 I2 hrepF
  refine ⟨WellFormed_of_rep _ O2 I2 hrepF, ?_, ?_, hdeg, ?_, ?_, ?_, ?_⟩
  · rw [hOF rhs hrhsF]
    exact hOr
  · rw [hIF rhs hrhsF]
    exact hIr
  · intro e he hsl
    rw [hIF lhs hlhsF]
    exact hc1 e he hsl
  · intro e he hdl
    rw [hOF lhs hlhsF]
    exact hc2 e he hdl
  · intro c hc
    rw [hOF lhs hlhsF] at hc
    exact hc3 c hc
  · intro c hc
    rw [hIF lhs hlhsF] at hc
    exact hc4 c hc

/-- The four-node graph of the Coalesce unit test (test_graph.cc:64-77). -/
def c8Graph : Graph :=
  (((((((((Graph.mk [] [] []).AddNode).2.AddNode).2.AddNode).2.AddNode).2.AddEdge
    0 1 10).2.AddEdge 1 2 20).2.AddEdge 2 0 30).2.AddEdge 1 3 40).2

theorem C8_coalesce_correct_witness :
    c8Graph.WellFormed = true ∧
    c8Graph.out_in_degrees.length = c8Graph.adj_heads.length ∧
    0 < c8Graph.adj_heads.length ∧ 1 < c8Graph.adj_heads.length ∧
    (0 : Nat) ≠ 1 ∧
    c8Graph.GetNextEdgeFromTo (((1 : Nat) : Int)) (((1 : Nat) : Int)) (-1) = -1 ∧
    ((c8Graph.Coalesce (((0 : Nat) : Int)) (((1 : Nat) : Int))).WellFormed = true ∧
      (c8Graph.Coalesce (((0 : Nat) : Int)) (((1 : Nat) : Int))).outIds 1 = [] ∧
      (c8Graph.Coalesce (((0 : Nat) : Int)) (((1 : Nat) : Int))).inIds 1 = [] ∧
      (c8Graph.Coalesce (((0 : Nat) : Int)) (((1 : Nat) : Int))).out_in_degrees.getD 1 (0, 0) =
        (0, 0)) :=
  ⟨by decide, by decide, by decide, by decide, by decide, by decide,
    by
      obtain ⟨h1, h2, h3, h4, _⟩ := C8_coalesce_correct c8Graph 0 1 (by decide) (by decide)
        (by decide) (by decide) (by decide) (by decide)
      exact ⟨h1, h2, h3, h4⟩⟩

end Xg
